/-
  Verification of the segmented-container engine of the advanced-collections
  repository (BigList, BigDict, SortedList) against its natural-language
  specification.

  The Python sources are shallowly embedded: each container's in-memory state
  becomes a Lean structure and each method a Lean function on that structure.
  Disk files and the LRU segment cache are collapsed into one authoritative
  per-segment store (the spec states that a cached segment is the
  authoritative copy and eviction always writes back, so the pair
  cache-plus-disk behaves like a single positional store under the
  single-threaded model); the segment id counter is kept so that segment
  minting stays faithful.  Python ints are modelled as Int, list indices are
  normalised exactly as range(n)[i] does, and operations that can raise keep
  the partially mutated state next to an error token, mirroring the fact
  that a Python exception leaves the object in whatever state it reached.
  Loops are modelled either structurally or with an explicit fuel argument
  that call sites instantiate with a provably sufficient bound.
-/
import Mathlib

set_option maxHeartbeats 1000000

namespace AdvColl

/-- Error tokens for the Python exceptions the embedded code can raise. -/
inductive PyErr where
  | indexError
  | attributeError
  | keyError
  | valueError
  | typeError
  | nameError
  deriving DecidableEq, Repr

/-- Normalisation of a Python index against a length, i.e. range(n)[i]:
valid iff -n <= i < n, negative indices count from the end; the result is
the corresponding non-negative position. -/
def pyIndex (n : Int) (i : Int) : Option Nat :=
  if 0 ≤ i ∧ i < n then some i.toNat
  else if i < 0 ∧ -n ≤ i then some (i + n).toNat
  else none

/-- Normalisation used where the Python code indexes a list that is known to
be non-empty with an in-range (possibly negative) index; out-of-range
arguments are clamped, and every call site is in range. -/
def pyNorm (m : Nat) (i : Int) : Nat :=
  if i < 0 then (i + m).toNat else i.toNat

/-- Length of a Lean list as a Python int. -/
def intLen {α : Type _} (L : List α) : Int := (L.length : Int)

/-- Python del L[k] for a possibly negative index: IndexError outside
[-len, len). -/
def pyDel {α : Type _} (L : List α) (k : Int) : Option (List α) :=
  match pyIndex (intLen L) k with
  | none => none
  | some i => some (L.eraseIdx i)

/-- The lowest set bit of a natural number, i.e. Python's i & -i on a
non-negative int (0 for 0). -/
def lowbit : Nat → Nat
  | 0 => 0
  | n + 1 => if (n + 1) % 2 = 1 then 1 else 2 * lowbit ((n + 1) / 2)

/-- Python list slicing into fixed-size chunks, as performed by the
constructors and extend loops: successive groups of n elements, the last
group possibly shorter (and never empty).  The fuel argument is the length
of the list, which bounds the number of chunks. -/
def chunksGo {α : Type _} (n : Nat) : Nat → List α → List (List α)
  | _, [] => []
  | 0, xs => [xs]
  | fuel + 1, x :: xs => (x :: xs.take (n - 1)) :: chunksGo n fuel (xs.drop (n - 1))

/-- Groups of n consecutive elements of a list, last group possibly short. -/
def chunksOf {α : Type _} (n : Nat) (xs : List α) : List (List α) :=
  chunksGo n xs.length xs

/-- Exponent of lowbit, used to unroll halving loops structurally. -/
def lowbitExp : Nat → Nat
  | 0 => 0
  | n + 1 => if (n + 1) % 2 = 1 then 0 else lowbitExp ((n + 1) / 2) + 1

/-- Least power of two at least x (1 for x = 0): the clipping radius in the
Fenwick build invariant. -/
def leastPow (x : Nat) : Nat := 2 ^ Nat.clog 2 x

/-- Prefix sum of the first p entries of a lens array. -/
def psum (lens : List Int) (p : Nat) : Int := (lens.take p).sum

/-- Clipping function of the Fenwick build invariant: how far below cell p
the already-pushed children reach after positions 1..k are processed. -/
def ubound (p k : Nat) : Nat := min (lowbit p) (leastPow (p - k))

/-!  ### Shared Fenwick-tree loops

The identical binary-indexed-tree code appears in big_list.py
(_fenwick_update, _fenwick_append, _fenwick_index) and in _sorted_list.py
(_ensure_lens, the power-of-two update loops, and the descent in the
indexed paths); the loops are embedded once here and referenced from both
containers. -/

namespace Fenwick

/-- Update loop for a 1-indexed position that is a power of two:
while index < length: fen[index] += value; index *= 2.  Fuel bounds the
iterations (the index at least doubles each time). -/
def bumpDouble (value : Int) : Nat → List Int → Nat → List Int
  | 0, fen, _ => fen
  | fuel + 1, fen, idx =>
    if idx < fen.length then
      bumpDouble value fuel (fen.set idx (fen.getD idx 0 + value)) (idx * 2)
    else fen

/-- General update loop: while index < length: fen[index] += value;
index += index and -index. -/
def bumpLow (value : Int) : Nat → List Int → Nat → List Int
  | 0, fen, _ => fen
  | fuel + 1, fen, idx =>
    if idx < fen.length then
      bumpLow value fuel (fen.set idx (fen.getD idx 0 + value)) (idx + lowbit idx)
    else fen

/-- Accumulation loop run after appending cell i:
while j > 1: j //= 2; fen[i] += fen[i - j], with j starting at lowbit i;
modelled structurally on the exponent of j. -/
def accum (fen : List Int) (i : Nat) : Nat → List Int
  | 0 => fen
  | t + 1 =>
    let j := 2 ^ t
    accum (fen.set i (fen.getD i 0 + fen.getD (i - j) 0)) i t

/-- One pass of the in-place construction loop:
j = i + (i and -i); if j < length: fen[j] += fen[i]. -/
def buildStep (fen : List Int) (i : Nat) : List Int :=
  let j := i + lowbit i
  if j < fen.length then fen.set j (fen.getD j 0 + fen.getD i 0) else fen

/-- Construction of the Fenwick array from the per-segment lengths: start
from [0, lens...] and push each partial sum upward in ascending order of
position, as both _fenwick_index and _ensure_lens do. -/
def build (lens : List Int) : List Int :=
  (List.range' 1 lens.length).foldl buildStep (0 :: lens)

/-- Doubling loop computing the starting probe width: j = 2048; while
j < length: j *= 2.  Returns the exponent t with j = 2 ^ t; the fuel
(instantiated with the length) bounds the doublings. -/
def growExp (flen : Nat) : Nat → Nat → Nat
  | 0, t => t
  | fuel + 1, t => if 2 ^ t < flen then growExp flen fuel (t + 1) else t

/-- Descent loop of the positional lookup: while j > 0: probe i + j and
either advance, subtracting the stored partial sum from the residual rank,
or stay; j //= 2.  The argument t + 1 means the current probe width is
j = 2 ^ t, and t = 0 terminates. -/
def searchGo (fen : List Int) : Nat → Nat → Int → Nat × Int
  | 0, i, res => (i, res)
  | t + 1, i, res =>
    let j := 2 ^ t
    let i2 := i + j
    if i2 < fen.length ∧ fen.getD i2 0 ≤ res then
      searchGo fen t i2 (res - fen.getD i2 0)
    else
      searchGo fen t i res

/-- Binary-lifting lookup over a built Fenwick array: the probe width grows
from 2048 past the array length, then the descent runs down to width 1. -/
def search (fen : List Int) (rank : Int) : Nat × Int :=
  searchGo fen (growExp fen.length fen.length 11 + 1) 0 rank

end Fenwick

/-!  ### BigList

Embedding of advanced_collections/_src/big_list.py.  The state carries the
parallel metadata arrays (filenames and per-segment lengths), the cached
total length, the optional Fenwick array, the authoritative segment
contents, and the id counter; multi-root striping only chooses which
directory a file lands in, so only the id counter matters here. -/

namespace BigList

/-- CHUNKSIZE constant of big_list.py. -/
def CHUNKSIZE : Int := 8192

/-- CHUNKSIZE_EXTENDED constant of big_list.py. -/
def CHUNKSIZE_EXTENDED : Int := 12288

/-- In-memory state of a BigList, with the authoritative contents of each
segment stored positionally in segs (cache and disk collapsed). -/
structure State (α : Type _) where
  filenames : List Nat
  lens : List Int
  len_ : Int
  fenwick : Option (List Int)
  segs : List (List α)
  counter : Nat
  deriving Repr

/-- A freshly opened BigList over an empty directory. -/
def emptyState (α : Type _) : State α :=
  { filenames := [], lens := [], len_ := 0, fenwick := none, segs := [], counter := 0 }

variable {α : Type _}

/-- Reading self._lens[i] (i possibly negative, call sites in range). -/
def lensAt (s : State α) (i : Int) : Int := s.lens.getD (pyNorm s.lens.length i) 0

/-- Reading a segment's contents: models self._cache_chunk(i), which returns
the authoritative copy of segment i (loading and LRU bookkeeping have no
observable effect on contents in the single-threaded model). -/
def cacheChunk (s : State α) (i : Int) : List α := s.segs.getD (pyNorm s.segs.length i) []

/-- Replacing a segment's contents after in-place mutation of the handle
returned by self._cache_chunk(i). -/
def setChunk (s : State α) (i : Int) (L : List α) : State α :=
  { s with segs := s.segs.set (pyNorm s.segs.length i) L }

/-- Embedding of BigList._fenwick_update(index, value): adds value to
self._lens[index] and, when the Fenwick array is live, propagates the delta
through it (the source splits on whether the 1-indexed position is a power
of two; for powers of two the two loops coincide). -/
def fenwickUpdate (s : State α) (index : Int) (value : Int) : State α :=
  if value = 0 then s
  else
    let idx := pyNorm s.lens.length index + 1
    let lens := s.lens.set (idx - 1) (s.lens.getD (idx - 1) 0 + value)
    match s.fenwick with
    | none => { s with lens := lens }
    | some fen =>
      let fen :=
        if idx &&& (idx - 1) = 0 then Fenwick.bumpDouble value fen.length fen idx
        else Fenwick.bumpLow value fen.length fen idx
      { s with lens := lens, fenwick := some fen }

/-- Embedding of BigList._fenwick_append(value): appends to self._lens and,
when the Fenwick array is live, appends the new partial sum. -/
def fenwickAppend (s : State α) (value : Int) : State α :=
  let lens := s.lens ++ [value]
  match s.fenwick with
  | none => { s with lens := lens }
  | some fen =>
    let i := fen.length
    let fen := fen ++ [value]
    { s with lens := lens, fenwick := some (Fenwick.accum fen i (lowbitExp i)) }

/-- Embedding of BigList._del_chunk(index): removes segment index from the
metadata arrays (and, in the model, its contents), subtracts its recorded
length from the cached total, and truncates or invalidates the Fenwick
array exactly as the source does. -/
def delChunk (s : State α) (index : Int) : State α :=
  let idx := pyNorm s.filenames.length index
  let filenames := s.filenames.eraseIdx idx
  let popped := s.lens.getD idx 0
  let lens := s.lens.eraseIdx idx
  let len_ := s.len_ - popped
  let fenwick :=
    match s.fenwick with
    | none => none
    | some fen => if idx < filenames.length then none else some fen.dropLast
  { s with filenames := filenames, lens := lens, len_ := len_,
           fenwick := fenwick, segs := s.segs.eraseIdx idx }

/-- Embedding of BigList._pop_chunk(index): returns the contents of segment
index and deletes the segment. -/
def popChunk (s : State α) (index : Int) : List α × State α :=
  (cacheChunk s index, delChunk s index)

/-- Embedding of BigList._get_filename(): mints a fresh never-reused id from
the persisted counter (root rotation only selects a directory). -/
def getFilename (s : State α) : Nat × State α :=
  (s.counter, { s with counter := s.counter + 1 })

/-- Embedding of BigList._balance(index).  Each Python statement is threaded
through the state in source order; reads of the lens alias observe all
mutations made so far, exactly as the live Python list does. -/
def balance (s : State α) (index : Int) : State α :=
  if s.lens.length = 0 then s
  else if s.lens.length = 1 then
    if lensAt s 0 > 2 * CHUNKSIZE then
      -- single-segment split: new tail segment takes the upper half
      let chunk := cacheChunk s 0
      let (fname, s) := getFilename s
      let s := { s with filenames := s.filenames ++ [fname],
                        segs := s.segs ++ [chunk.drop (chunk.length / 2)] }
      let s := setChunk s 0 (chunk.take (chunk.length / 2))
      let s := { s with fenwick := none }
      let s := { s with lens := s.lens.set 0 (intLen (cacheChunk s 0)) }
      { s with lens := s.lens ++ [intLen (cacheChunk s (-1))] }
    else s
  else
    let idx := pyNorm s.lens.length index
    if idx = 0 then
      if lensAt s 0 + lensAt s 1 < CHUNKSIZE then
        -- merge the first two segments
        let s := { s with len_ := s.len_ + lensAt s 1 }
        let s := fenwickUpdate s 0 (lensAt s 1)
        let (seg1, s) := popChunk s 1
        setChunk s 0 (cacheChunk s 0 ++ seg1)
      else if lensAt s 0 + lensAt s 1 > 4 * CHUNKSIZE then
        -- three-way split of the first two segments
        let chunk := cacheChunk s 0 ++ cacheChunk s 1
        let s := setChunk s 0 (chunk.take (chunk.length / 3))
        let s := setChunk s 1 ((chunk.take (2 * chunk.length / 3)).drop (chunk.length / 3))
        let rest := chunk.drop (2 * chunk.length / 3)
        let (fname, s) := getFilename s
        let s := { s with filenames := s.filenames.insertIdx 2 fname,
                          segs := s.segs.insertIdx 2 rest }
        let s :=
          if s.lens.length = 2 then fenwickAppend s (intLen rest)
          else { s with fenwick := none, lens := s.lens.insertIdx 2 (intLen rest) }
        let s := fenwickUpdate s 0 (intLen (cacheChunk s 0) - lensAt s 0)
        fenwickUpdate s 1 (intLen (cacheChunk s 1) - lensAt s 1)
      else if CHUNKSIZE / 2 < lensAt s 0 ∧ lensAt s 0 < CHUNKSIZE * 2 ∧
              CHUNKSIZE_EXTENDED < lensAt s 0 + lensAt s 1 ∧
              lensAt s 0 + lensAt s 1 < 3 * CHUNKSIZE then
        s
      else if lensAt s 0 > lensAt s 1 then
        -- move the upper ceil(diff/2) elements of segment 0 to the front of 1
        let diff := lensAt s 0 - lensAt s 1
        let l0 := lensAt s 0
        let l1 := lensAt s 1
        let move := ((diff + 1) / 2).toNat  -- Python -diff // 2 rounds away from zero
        let c0 := cacheChunk s 0
        let s := setChunk s 1 (c0.drop (c0.length - move) ++ cacheChunk s 1)
        let s := setChunk s 0 (c0.take (c0.length - move))
        let s := fenwickUpdate s 0 (intLen (cacheChunk s 0) - l0)
        fenwickUpdate s 1 (intLen (cacheChunk s 1) - l1)
      else if lensAt s 0 < lensAt s 1 then
        -- move the lower floor(diff/2) elements of segment 1 to the end of 0
        let diff := lensAt s 1 - lensAt s 0
        let l0 := lensAt s 0
        let l1 := lensAt s 1
        let move := (diff / 2).toNat
        let c1 := cacheChunk s 1
        let s := setChunk s 0 (cacheChunk s 0 ++ c1.take move)
        let s := setChunk s 1 (c1.drop move)
        let s := fenwickUpdate s 0 (intLen (cacheChunk s 0) - l0)
        fenwickUpdate s 1 (intLen (cacheChunk s 1) - l1)
      else s
    else if idx + 1 = s.lens.length then
      if lensAt s (-1) + lensAt s (-2) < CHUNKSIZE then
        -- merge the last two segments
        let s := { s with len_ := s.len_ + lensAt s (-1) }
        let s := fenwickUpdate s (-2) (lensAt s (-1))
        let (segLast, s) := popChunk s (-1)
        setChunk s (-2) (cacheChunk s (-2) ++ segLast)
      else if lensAt s (-1) + lensAt s (-2) > 4 * CHUNKSIZE then
        -- three-way split of the last two segments
        let chunk := cacheChunk s (-2) ++ cacheChunk s (-1)
        let s := setChunk s (-2) (chunk.take (chunk.length / 3))
        let s := setChunk s (-1) ((chunk.take (2 * chunk.length / 3)).drop (chunk.length / 3))
        let rest := chunk.drop (2 * chunk.length / 3)
        let (fname, s) := getFilename s
        let s := { s with filenames := s.filenames ++ [fname],
                          segs := s.segs ++ [rest] }
        -- the source appends the new filename before the two updates, so
        -- chunk(-2) and chunk(-1) now resolve one position later than the
        -- lens slots the updates write (faithful to the Python)
        let s := fenwickUpdate s (-2) (intLen (cacheChunk s (-2)) - lensAt s (-2))
        let s := fenwickUpdate s (-1) (intLen (cacheChunk s (-1)) - lensAt s (-1))
        fenwickAppend s (intLen rest)
      else if CHUNKSIZE / 2 < lensAt s (-1) ∧ lensAt s (-1) < CHUNKSIZE * 2 ∧
              CHUNKSIZE_EXTENDED < lensAt s (-1) + lensAt s (-2) ∧
              lensAt s (-1) + lensAt s (-2) < 3 * CHUNKSIZE then
        s
      else if lensAt s (-1) < lensAt s (-2) then
        let diff := lensAt s (-2) - lensAt s (-1)
        let lLast := lensAt s (-1)
        let lPrev := lensAt s (-2)
        let move := ((diff + 1) / 2).toNat
        let cPrev := cacheChunk s (-2)
        let s := setChunk s (-1) (cPrev.drop (cPrev.length - move) ++ cacheChunk s (-1))
        let s := setChunk s (-2) (cPrev.take (cPrev.length - move))
        let s := fenwickUpdate s (-1) (intLen (cacheChunk s (-1)) - lLast)
        fenwickUpdate s (-2) (intLen (cacheChunk s (-2)) - lPrev)
      else if lensAt s (-2) < lensAt s (-1) then
        let diff := lensAt s (-1) - lensAt s (-2)
        let lLast := lensAt s (-1)
        let lPrev := lensAt s (-2)
        let move := (diff / 2).toNat
        let cLast := cacheChunk s (-1)
        let s := setChunk s (-2) (cacheChunk s (-2) ++ cLast.take move)
        let s := setChunk s (-1) (cLast.drop move)
        let s := fenwickUpdate s (-1) (intLen (cacheChunk s (-1)) - lLast)
        fenwickUpdate s (-2) (intLen (cacheChunk s (-2)) - lPrev)
      else s
    else
      if lensAt s (idx - 1) + lensAt s idx + lensAt s (idx + 1) < CHUNKSIZE_EXTENDED then
        -- merge three interior segments into two (the source updates slots
        -- idx and idx+1 of the shrunken lens array, and _pop_chunk already
        -- subtracted the third segment's length from the total)
        let part0 := cacheChunk s (idx - 1)
        let part1 := cacheChunk s idx
        let (part2, s) := popChunk s (idx + 1)
        let chunk := part0 ++ part1 ++ part2
        let s := setChunk s (idx - 1) (chunk.take (chunk.length / 2))
        let s := setChunk s idx (chunk.drop (chunk.length / 2))
        let s := fenwickUpdate s idx ((intLen chunk + 1) / 2 - lensAt s idx)
        fenwickUpdate s (idx + 1) (intLen chunk / 2 - lensAt s (idx + 1))
      else if lensAt s (idx - 1) + lensAt s idx + lensAt s (idx + 1) > 6 * CHUNKSIZE then
        -- four-way split of three interior segments
        let l0 := lensAt s (idx - 1)
        let l1 := lensAt s idx
        let l2 := lensAt s (idx + 1)
        let chunk := cacheChunk s (idx - 1) ++ cacheChunk s idx ++ cacheChunk s (idx + 1)
        let (fname, s) := getFilename s
        let s := { s with filenames := s.filenames.insertIdx (idx + 2) fname,
                          segs := s.segs.insertIdx (idx + 2) [] }
        let s := setChunk s (idx - 1) (chunk.take (chunk.length / 4))
        let s := setChunk s idx ((chunk.take (chunk.length / 2)).drop (chunk.length / 4))
        let s := setChunk s (idx + 1) ((chunk.take (3 * chunk.length / 4)).drop (chunk.length / 2))
        let rest := chunk.drop (3 * chunk.length / 4)
        let s := setChunk s (idx + 2) rest
        let s :=
          if idx + 3 = s.filenames.length then fenwickAppend s (intLen rest)
          else { s with fenwick := none, lens := s.lens.insertIdx (idx + 2) (intLen rest) }
        let s := fenwickUpdate s (idx - 1) (intLen (cacheChunk s (idx - 1)) - l0)
        let s := fenwickUpdate s idx (intLen (cacheChunk s idx) - l1)
        fenwickUpdate s (idx + 1) (intLen (cacheChunk s (idx + 1)) - l2)
      else if ¬ (∀ L ∈ [lensAt s (idx - 1), lensAt s idx, lensAt s (idx + 1)],
                  CHUNKSIZE / 2 < Int.fdiv (2 * L) 3 ∧ Int.fdiv (2 * L) 3 < CHUNKSIZE) then
        -- redistribute three interior segments into thirds
        let l0 := lensAt s (idx - 1)
        let l1 := lensAt s idx
        let l2 := lensAt s (idx + 1)
        let chunk := cacheChunk s (idx - 1) ++ cacheChunk s idx ++ cacheChunk s (idx + 1)
        let s := setChunk s (idx - 1) (chunk.take (chunk.length / 3))
        let s := setChunk s idx ((chunk.take (2 * chunk.length / 3)).drop (chunk.length / 3))
        let s := setChunk s (idx + 1) (chunk.drop (2 * chunk.length / 3))
        let s := fenwickUpdate s (idx - 1) (intLen (cacheChunk s (idx - 1)) - l0)
        let s := fenwickUpdate s idx (intLen (cacheChunk s idx) - l1)
        fenwickUpdate s (idx + 1) (intLen (cacheChunk s (idx + 1)) - l2)
      else s

/-- Embedding of BigList.append(value). -/
def appendOp (s : State α) (value : α) : State α :=
  if s.len_ = 0 then
    let s := { s with fenwick := none }
    let (fname, s) := getFilename s
    { s with filenames := s.filenames ++ [fname], segs := s.segs ++ [[value]],
             len_ := 1, lens := s.lens ++ [1] }
  else
    let s := setChunk s (-1) (cacheChunk s (-1) ++ [value])
    let s := { s with len_ := s.len_ + 1 }
    let s := fenwickUpdate s (-1) 1
    balance s (-1)

/-- Embedding of BigList._fenwick_index(index): rebuilds the Fenwick array
from lens when absent (Fenwick.build is exactly its construction loop),
then runs the binary-lifting descent (Fenwick.search is exactly its lookup
loop); returns the segment index and intra-segment offset together with the
possibly updated state. -/
def fenwickIndex (s : State α) (rank : Int) : (Nat × Int) × State α :=
  match s.fenwick with
  | none =>
    let fen := Fenwick.build s.lens
    (Fenwick.search fen rank, { s with fenwick := some fen })
  | some fen => (Fenwick.search fen rank, s)


/-- Embedding of the integer branch of BigList.__delitem__.  The last-chunk
fast path removes the element from the cached segment and then calls the
non-existent method self._fenwick_udpate, so it raises AttributeError with
the element already gone and no length bookkeeping done; the other paths
never touch self._len either.  The error token is returned alongside the
state the object is left in. -/
def delitemInt (s : State α) (index : Int) : Option PyErr × State α :=
  match pyIndex s.len_ index with
  | none => (some .indexError, s)
  | some i0 =>
    let idx : Int := (i0 : Int)
    if idx + lensAt s (-1) ≥ s.len_ then
      let idx2 := idx + lensAt s (-1) - s.len_
      match pyDel (cacheChunk s (-1)) idx2 with
      | none => (some .indexError, s)
      | some L =>
        -- self._fenwick_udpate(-1, -1) raises AttributeError (typo in source)
        (some .attributeError, setChunk s (-1) L)
    else if idx ≥ lensAt s 0 then
      let (iOff, s) := fenwickIndex s idx
      match pyDel (cacheChunk s (iOff.1 : Int)) iOff.2 with
      | none => (some .indexError, s)
      | some L =>
        let s := setChunk s (iOff.1 : Int) L
        let s := fenwickUpdate s (iOff.1 : Int) (-1)
        (none, balance s (iOff.1 : Int))
    else if s.len_ = 1 then
      let s := delChunk s 0
      (none, { s with fenwick := none, len_ := 0 })
    else
      match pyDel (cacheChunk s 0) idx with
      | none => (some .indexError, s)
      | some L =>
        let s := setChunk s 0 L
        let s := fenwickUpdate s 0 (-1)
        (none, balance s 0)

/-- Embedding of BigList.clear(): unlinks every segment and resets all
metadata including the id counter. -/
def clearOp (s : State α) : State α :=
  let _ := s
  emptyState α

/-- Python slice-endpoint normalisation for a step-one slice: negative
endpoints count from the back and everything is clamped into [0, n]. -/
def sliceClamp (n : Int) (i : Int) : Int :=
  if i < 0 then max 0 (i + n) else min i n

/-- Leading loop of the step-one prefix branch of the slice
BigList.__delitem__: drop whole segments from the front while the remaining
count covers them.  Fuel is the segment count captured by range(len(lens)). -/
def dropFrontChunks : Nat → Int → State α → Int × State α
  | 0, size, s => (size, s)
  | fuel + 1, size, s =>
    if size < s.lens.getD 0 0 then (size, s)
    else dropFrontChunks fuel (size - s.lens.getD 0 0) (delChunk s 0)

/-- Leading loop of the step-one suffix branch of the slice
BigList.__delitem__: drop whole segments from the back. -/
def dropBackChunks : Nat → Int → State α → Int × State α
  | 0, size, s => (size, s)
  | fuel + 1, size, s =>
    if size < lensAt s (-1) then (size, s)
    else dropBackChunks fuel (size - lensAt s (-1)) (delChunk s (-1))

/-- Embedding of the slice branch of BigList.__delitem__ for a step-one
slice del lst[start:stop] (the step = 1 specialisations of the source; the
fallback loop for other steps deletes element-wise and is not modelled).
Note that the suffix branch of the source trims the leading elements of the
last remaining segment, and that no branch ever decrements self._len for
elements removed by the residual trims. -/
def delitemSlice1 (s : State α) (start stop : Int) : State α :=
  let a := sliceClamp s.len_ start
  let b := sliceClamp s.len_ stop
  let size := max 0 (b - a)
  if size = s.len_ then clearOp s
  else if size = 0 then s
  else if a = 0 then
    -- step == 1 and range_.start == 0
    let (size, s) := dropFrontChunks s.lens.length size s
    if size ≠ 0 then
      let s := setChunk s 0 ((cacheChunk s 0).drop size.toNat)
      let s := fenwickUpdate s 0 (-size)
      balance s 0
    else s
  else if b = s.len_ then
    -- step == 1 and range_.stop == self._len
    let (size, s) := dropBackChunks s.lens.length size s
    if size ≠ 0 then
      let s := setChunk s (-1) ((cacheChunk s (-1)).drop size.toNat)
      let s := fenwickUpdate s (-1) (-size)
      balance s (-1)
    else s
  else
    -- interior step-one slice
    let (st, s) := fenwickIndex s a
    let (sp, s) := fenwickIndex s b
    if st.1 = sp.1 ∨ (st.1 + 1 = sp.1 ∧ sp.2 = 0) then
      let L := cacheChunk s (st.1 : Int)
      let s := setChunk s (st.1 : Int)
          (L.take st.2.toNat ++ L.drop (st.2.toNat + size.toNat))
      let s := fenwickUpdate s (st.1 : Int) (-size)
      balance s (st.1 : Int)
    else
      -- unlink and splice out the whole segments strictly between
      let keepF := s.filenames.take (st.1 + 1) ++ s.filenames.drop sp.1
      let keepL := s.lens.take (st.1 + 1) ++ s.lens.drop sp.1
      let keepS := s.segs.take (st.1 + 1) ++ s.segs.drop sp.1
      let s := { s with filenames := keepF, lens := keepL, segs := keepS,
                        fenwick := none }
      let s := setChunk s (st.1 : Int) ((cacheChunk s (st.1 : Int)).take st.2.toNat)
      let s := { s with lens := s.lens.set st.1 st.2 }
      let s := setChunk s ((st.1 : Int) + 1) ((cacheChunk s ((st.1 : Int) + 1)).drop sp.2.toNat)
      let s := { s with lens := s.lens.set (st.1 + 1) (s.lens.getD (st.1 + 1) 0 - sp.2) }
      balance s (st.1 : Int)

/-- Materialising loop of the generator branch of BigList.extend: slice
CHUNKSIZE_EXTENDED elements at a time, write each full chunk as a fresh
segment file, and stop at the first short (or empty) chunk.  Returns the
state, the number of full chunks written, and the final short chunk.
Fuel is the input length. -/
def extendLoop : Nat → State α → Nat → List α → State α × Nat × List α
  | 0, s, segments, _ => (s, segments, [])
  | fuel + 1, s, segments, xs =>
    let chunk := xs.take CHUNKSIZE_EXTENDED.toNat
    if chunk.isEmpty then (s, segments, [])
    else
      let (fname, s) := getFilename s
      let s := { s with filenames := s.filenames ++ [fname], segs := s.segs ++ [chunk] }
      if chunk.length < CHUNKSIZE_EXTENDED.toNat then (s, segments, chunk)
      else extendLoop fuel s (segments + 1) (xs.drop CHUNKSIZE_EXTENDED.toNat)

/-- Number of bits of a natural number, Python int.bit_length(). -/
def bitLength (n : Nat) : Nat := Nat.log2 n + if n = 0 then 0 else 1

/-- Embedding of the non-list branch of BigList.extend (the list branch of
the source reads the undefined names chunk and segments and cannot run to
completion, so only the generator path is modelled; extend(range(n)) and
extend(iter(xs)) take this path).  After the loop, the finally block adds
the new lengths; its Fenwick patch is dead code whenever a segment was
appended because it first tests len(lens) > i against the already extended
lens, so a live Fenwick array is left untouched. -/
def extendIter (s : State α) (xs : List α) : State α :=
  let (s, xs) :=
    if s.lens.length = 1 ∧ lensAt s 0 < CHUNKSIZE_EXTENDED then
      let fill := (CHUNKSIZE_EXTENDED - lensAt s 0).toNat
      let l0 := lensAt s 0
      let s := setChunk s 0 (cacheChunk s 0 ++ xs.take fill)
      let s := { s with len_ := s.len_ + (intLen (cacheChunk s 0) - l0) }
      let s := fenwickUpdate s 0 (intLen (cacheChunk s 0) - l0)
      (s, xs.drop fill)
    else (s, xs)
  let (s, segments, chunk) := extendLoop xs.length s 0 xs
  let i := s.lens.length
  let s := { s with len_ := s.len_ + segments * CHUNKSIZE_EXTENDED + intLen chunk }
  let s := { s with lens := s.lens ++ List.replicate segments CHUNKSIZE_EXTENDED }
  let s := if 0 < chunk.length then { s with lens := s.lens ++ [intLen chunk] } else s
  match s.fenwick with
  | none => s
  | some fen =>
    if i < s.lens.length then s
    else if bitLength fen.length < segments then { s with fenwick := none }
    else
      let fen := fen ++ List.replicate segments CHUNKSIZE_EXTENDED
      let fen := if 0 < chunk.length then fen ++ [intLen chunk] else fen
      -- accumulation over the appended tail, as in the source
      { s with fenwick := some ((List.range' i (fen.length - i)).foldl
          (fun f p => Fenwick.accum f p (lowbitExp p)) fen) }

end BigList

/-!  ### BigDict

Embedding of advanced_collections/_src/big_dict.py.  Keys and values are
naturals and hash is the identity, matching CPython's hash on small
non-negative ints; a segment dict is an insertion-ordered association list
with unique keys.  The dispatch key of an entry is the pair
(hash key, key) compared lexicographically as Python compares tuples. -/

namespace BigDict

/-- CHUNKSIZE constant of big_dict.py. -/
def CHUNKSIZE : Int := 4096

/-- Hash of a key: CPython's hash is the identity on small non-negative
ints, which is what the embedding instantiates keys with. -/
def hashK (k : Nat) : Nat := k

/-- Lexicographic strict comparison of (hash, key) pairs, Python tuple <. -/
def pairLt (p q : Nat × Nat) : Bool :=
  p.1 < q.1 ∨ (p.1 = q.1 ∧ p.2 < q.2)

/-- Lexicographic non-strict comparison of (hash, key) pairs. -/
def pairLe (p q : Nat × Nat) : Bool :=
  p.1 < q.1 ∨ (p.1 = q.1 ∧ p.2 ≤ q.2)

/-- Python bisect.bisect (bisect_right) over the whole mins list: number of
entries not exceeding the probe, the library's documented insertion point
for a sorted list. -/
def bisectPairs (mins : List (Nat × Nat)) (x : Nat × Nat) : Nat :=
  mins.countP (fun m => pairLe m x)

/-- Lookup in a segment dict. -/
def dictGet (seg : List (Nat × Nat)) (k : Nat) : Option Nat :=
  (seg.find? (fun kv => kv.1 = k)).map (fun kv => kv.2)

/-- Lookup with a default, used when rebuilding segments from sorted keys. -/
def dictGetD (seg : List (Nat × Nat)) (k : Nat) : Nat :=
  (dictGet seg k).getD 0

/-- Removal of a key from a segment dict (dict.pop on a present key). -/
def dictPop (seg : List (Nat × Nat)) (k : Nat) : List (Nat × Nat) :=
  seg.filter (fun kv => kv.1 ≠ k)

/-- Python dict assignment d[k] = v: update in place when the key exists,
otherwise append in insertion order. -/
def dictSet (seg : List (Nat × Nat)) (k v : Nat) : List (Nat × Nat) :=
  if (seg.find? (fun kv => kv.1 = k)).isSome then
    seg.map (fun kv => if kv.1 = k then (k, v) else kv)
  else seg ++ [(k, v)]

/-- Sorted list of (hash, key) pairs of a segment, Python
sorted((hash(k), k) for k in chunk). -/
def sortedKeys (seg : List (Nat × Nat)) : List (Nat × Nat) :=
  (seg.map (fun kv => (hashK kv.1, kv.1))).mergeSort pairLe

/-- Rebuild of a segment dict from a slice of the sorted key list,
Python's comprehension over keys looking values up in the merged dict. -/
def segFromKeys (chunk : List (Nat × Nat)) (keys : List (Nat × Nat)) :
    List (Nat × Nat) :=
  keys.map (fun p => (p.2, dictGetD chunk p.2))

/-- Python min() over the (hash, key) pairs of a segment; none when the
segment is empty, where Python raises ValueError. -/
def minPair (seg : List (Nat × Nat)) : Option (Nat × Nat) :=
  (seg.map (fun kv => (hashK kv.1, kv.1))).foldl
    (fun acc p =>
      match acc with
      | none => some p
      | some q => some (if pairLt p q then p else q))
    none

/-- The largest n pairs in descending significance, Python heapq.nlargest:
the n largest elements sorted from largest to smallest. -/
def nlargestPairs (n : Nat) (seg : List (Nat × Nat)) : List (Nat × Nat) :=
  ((sortedKeys seg).reverse).take n

/-- The smallest n pairs, Python heapq.nsmallest: sorted ascending. -/
def nsmallestPairs (n : Nat) (seg : List (Nat × Nat)) : List (Nat × Nat) :=
  (sortedKeys seg).take n

/-- In-memory state of a BigDict, with the authoritative segment dicts
stored positionally (cache and disk collapsed, as for BigList). -/
structure State where
  filenames : List Nat
  lens : List Int
  mins : List (Nat × Nat)
  len_ : Int
  segs : List (List (Nat × Nat))
  counter : Nat
  deriving Repr, DecidableEq

/-- A freshly opened BigDict over an empty directory. -/
def emptyState : State :=
  { filenames := [], lens := [], mins := [], len_ := 0, segs := [], counter := 0 }

/-- Reading self._lens[i] (i possibly negative, call sites in range). -/
def lensAt (s : State) (i : Int) : Int := s.lens.getD (pyNorm s.lens.length i) 0

/-- Reading a segment dict, models self._cache_chunk(i). -/
def cacheChunk (s : State) (i : Int) : List (Nat × Nat) :=
  s.segs.getD (pyNorm s.segs.length i) []

/-- Replacing a segment dict after in-place mutation. -/
def setChunk (s : State) (i : Int) (L : List (Nat × Nat)) : State :=
  { s with segs := s.segs.set (pyNorm s.segs.length i) L }

/-- Embedding of BigDict._get_filename(). -/
def getFilename (s : State) : Nat × State :=
  (s.counter, { s with counter := s.counter + 1 })

/-- Embedding of BigDict._del_chunk(index). -/
def delChunk (s : State) (index : Int) : State :=
  let idx := pyNorm s.filenames.length index
  { s with filenames := s.filenames.eraseIdx idx,
           lens := s.lens.eraseIdx idx,
           len_ := s.len_ - s.lens.getD idx 0,
           mins := s.mins.eraseIdx idx,
           segs := s.segs.eraseIdx idx }

/-- Embedding of BigDict._pop_chunk(index). -/
def popChunk (s : State) (index : Int) : List (Nat × Nat) × State :=
  (cacheChunk s index, delChunk s index)

/-- Embedding of BigDict._balance(index).  The interior three-into-two merge
evaluates len(key) on the int name key, which is unbound in _balance's
frame, so that branch raises NameError after its mutations (the note in the
spec records this slip); the embedding returns the partial state with the
error. -/
def balance (s : State) (index : Int) : Option PyErr × State :=
  if s.lens.length = 0 then (none, s)
  else if s.lens.length = 1 then
    if lensAt s 0 > 2 * CHUNKSIZE then
      -- single-segment split: the new tail segment takes the LOWER half of
      -- the key order and segment 0 keeps the upper half (faithful to the
      -- source, which pops keys[:n//2] into the appended segment)
      let chunk := cacheChunk s 0
      let keys := sortedKeys chunk
      let (fname, s) := getFilename s
      let lower := keys.take (keys.length / 2)
      let newSeg := segFromKeys chunk lower
      let chunk2 := lower.foldl (fun c p => dictPop c p.2) chunk
      let s := { s with filenames := s.filenames ++ [fname],
                        segs := (s.segs.set 0 chunk2) ++ [newSeg] }
      let s := { s with lens := s.lens.set 0 (intLen chunk2) }
      let s := { s with lens := s.lens ++ [intLen (cacheChunk s (-1))] }
      (none, { s with mins := [keys.getD 0 (0, 0), keys.getD chunk2.length (0, 0)] })
    else (none, s)
  else
    let idx := pyNorm s.lens.length index
    if idx = 0 then
      if lensAt s 0 + lensAt s 1 < CHUNKSIZE then
        let s := { s with len_ := s.len_ + lensAt s 1 }
        let s := { s with lens := s.lens.set 0 (lensAt s 0 + lensAt s 1) }
        let (seg1, s) := popChunk s 1
        (none, setChunk s 0 (cacheChunk s 0 ++ seg1))
      else if lensAt s 0 + lensAt s 1 > 4 * CHUNKSIZE then
        let chunk := cacheChunk s 0 ++ cacheChunk s 1
        let keys := sortedKeys chunk
        let n := keys.length
        let s := setChunk s 0 (segFromKeys chunk (keys.take (n / 3)))
        let s := setChunk s 1 (segFromKeys chunk ((keys.take (2 * n / 3)).drop (n / 3)))
        let (fname, s) := getFilename s
        let s := { s with filenames := s.filenames.insertIdx 2 fname,
                          segs := s.segs.insertIdx 2 (segFromKeys chunk (keys.drop (2 * n / 3))) }
        let s := { s with lens :=
          [(n / 3 : Int), (2 * n / 3 : Int) - (n / 3 : Int), (n : Int) - (2 * n / 3 : Int)]
            ++ s.lens.drop 2 }
        (none, { s with mins := s.mins.take 1
            ++ [keys.getD (n / 3) (0, 0), keys.getD (2 * n / 3) (0, 0)]
            ++ s.mins.drop 2 })
      else if CHUNKSIZE / 2 < lensAt s 0 ∧ lensAt s 0 < CHUNKSIZE * 2 ∧
              3 * CHUNKSIZE / 2 < lensAt s 0 + lensAt s 1 ∧
              lensAt s 0 + lensAt s 1 < 3 * CHUNKSIZE then
        (none, s)
      else if lensAt s 0 > lensAt s 1 then
        let diff := lensAt s 0 - lensAt s 1
        let chunk := cacheChunk s 0
        let keys := nlargestPairs (diff / 2).toNat chunk
        let s := setChunk s 1 (cacheChunk s 1 ++ segFromKeys chunk keys)
        let s := setChunk s 0 (keys.foldl (fun c p => dictPop c p.2) chunk)
        let s := { s with mins := s.mins.set 1 (keys.getLastD (0, 0)) }
        let s := { s with lens := s.lens.set 0 (lensAt s 0 - diff / 2) }
        (none, { s with lens := s.lens.set 1 (lensAt s 1 + diff / 2) })
      else
        let diff := lensAt s 1 - lensAt s 0
        let chunk := cacheChunk s 1
        let keys0 := nsmallestPairs ((diff / 2).toNat + 1) chunk
        let newMin := keys0.getLastD (0, 0)
        let keys := keys0.dropLast
        let s := { s with mins := s.mins.set 1 newMin }
        let s := setChunk s 0 (cacheChunk s 0 ++ segFromKeys chunk keys)
        let s := setChunk s 1 (keys.foldl (fun c p => dictPop c p.2) chunk)
        let s := { s with lens := s.lens.set 0 (lensAt s 0 + diff / 2) }
        (none, { s with lens := s.lens.set 1 (lensAt s 1 - diff / 2) })
    else if idx + 1 = s.lens.length then
      if lensAt s (-1) + lensAt s (-2) < CHUNKSIZE then
        -- merge of the last two segments: the source adds lens[-1] to
        -- self._len but never adds it to lens[-2], leaving the sum of lens
        -- short by the merged amount
        let s := { s with len_ := s.len_ + lensAt s (-1) }
        let (segLast, s) := popChunk s (-1)
        (none, setChunk s (-1) (cacheChunk s (-1) ++ segLast))
      else if lensAt s (-1) + lensAt s (-2) > 4 * CHUNKSIZE then
        let chunk := cacheChunk s (-2) ++ cacheChunk s (-1)
        let keys := sortedKeys chunk
        let n := keys.length
        let s := setChunk s (-2) (segFromKeys chunk (keys.take (n / 3)))
        let s := setChunk s (-1) (segFromKeys chunk ((keys.take (2 * n / 3)).drop (n / 3)))
        let (fname, s) := getFilename s
        let s := { s with filenames := s.filenames ++ [fname],
                          segs := s.segs ++ [segFromKeys chunk (keys.drop (2 * n / 3))] }
        let s := { s with lens := s.lens.dropLast.dropLast
            ++ [(n / 3 : Int), (2 * n / 3 : Int) - (n / 3 : Int), (n : Int) - (2 * n / 3 : Int)] }
        (none, { s with mins := s.mins.dropLast
            ++ [keys.getD (n / 3) (0, 0), keys.getD (2 * n / 3) (0, 0)] })
      else if CHUNKSIZE / 2 < lensAt s (-1) ∧ lensAt s (-1) < CHUNKSIZE * 2 ∧
              3 * CHUNKSIZE / 2 < lensAt s (-1) + lensAt s (-2) ∧
              lensAt s (-1) + lensAt s (-2) < 3 * CHUNKSIZE then
        (none, s)
      else if lensAt s (-2) > lensAt s (-1) then
        let diff := lensAt s (-2) - lensAt s (-1)
        let chunk := cacheChunk s (-2)
        let keys := nlargestPairs (diff / 2).toNat chunk
        let s := setChunk s (-1) (cacheChunk s (-1) ++ segFromKeys chunk keys)
        let s := setChunk s (-2) (keys.foldl (fun c p => dictPop c p.2) chunk)
        let s := { s with mins := s.mins.set (s.mins.length - 1) (keys.getLastD (0, 0)) }
        let s := { s with lens := s.lens.set (s.lens.length - 2) (lensAt s (-2) - diff / 2) }
        (none, { s with lens := s.lens.set (s.lens.length - 1) (lensAt s (-1) + diff / 2) })
      else
        let diff := lensAt s (-1) - lensAt s (-2)
        let chunk := cacheChunk s (-1)
        let keys0 := nsmallestPairs ((diff / 2).toNat + 1) chunk
        let newMin := keys0.getLastD (0, 0)
        let keys := keys0.dropLast
        let s := { s with mins := s.mins.set (s.mins.length - 1) newMin }
        let s := setChunk s (-2) (cacheChunk s (-2) ++ segFromKeys chunk keys)
        let s := setChunk s (-1) (keys.foldl (fun c p => dictPop c p.2) chunk)
        let s := { s with lens := s.lens.set (s.lens.length - 2) (lensAt s (-2) + diff / 2) }
        (none, { s with lens := s.lens.set (s.lens.length - 1) (lensAt s (-1) - diff / 2) })
    else
      if lensAt s (idx - 1) + lensAt s idx + lensAt s (idx + 1) < 3 * CHUNKSIZE / 2 then
        -- interior merge of three segments into two; the final statement of
        -- the source is mins[index] = keys[len(key) // 2] with key unbound,
        -- raising NameError after the mutations below
        let part0 := cacheChunk s (idx - 1)
        let part1 := cacheChunk s idx
        let (part2, s) := popChunk s (idx + 1)
        let chunk := part0 ++ part1 ++ part2
        let keys := sortedKeys chunk
        let n := keys.length
        let s := setChunk s (idx - 1) (segFromKeys chunk (keys.take (n / 2)))
        let s := setChunk s idx (segFromKeys chunk (keys.drop (n / 2)))
        let s := { s with lens := s.lens.take (idx - 1)
            ++ [(n / 2 : Int), ((n : Int) + 1) / 2] ++ s.lens.drop (idx + 1) }
        (some .nameError, s)
      else if lensAt s (idx - 1) + lensAt s idx + lensAt s (idx + 1) > 6 * CHUNKSIZE then
        let chunk := cacheChunk s (idx - 1) ++ cacheChunk s idx ++ cacheChunk s (idx + 1)
        let keys := sortedKeys chunk
        let n := keys.length
        let s := setChunk s (idx - 1) (segFromKeys chunk (keys.take (n / 4)))
        let s := setChunk s idx (segFromKeys chunk ((keys.take (n / 2)).drop (n / 4)))
        let s := setChunk s (idx + 1) (segFromKeys chunk ((keys.take (3 * n / 4)).drop (n / 2)))
        let (fname, s) := getFilename s
        let s := { s with filenames := s.filenames.insertIdx (idx + 2) fname,
                          segs := s.segs.insertIdx (idx + 2)
                            (segFromKeys chunk (keys.drop (3 * n / 4))) }
        let s := { s with lens := s.lens.take (idx - 1)
            ++ [(n / 4 : Int), (n / 2 : Int) - (n / 4 : Int),
                (3 * n / 4 : Int) - (n / 2 : Int), (n : Int) - (3 * n / 4 : Int)]
            ++ s.lens.drop (idx + 2) }
        (none, { s with mins := s.mins.take idx
            ++ [keys.getD (n / 4) (0, 0), keys.getD (n / 2) (0, 0), keys.getD (3 * n / 4) (0, 0)]
            ++ s.mins.drop (idx + 2) })
      else if ¬ (∀ L ∈ [lensAt s (idx - 1), lensAt s idx, lensAt s (idx + 1)],
                  CHUNKSIZE / 2 < Int.fdiv (2 * L) 3 ∧ Int.fdiv (2 * L) 3 < CHUNKSIZE) then
        let chunk := cacheChunk s (idx - 1) ++ cacheChunk s idx ++ cacheChunk s (idx + 1)
        let keys := sortedKeys chunk
        let n := keys.length
        let s := setChunk s (idx - 1) (segFromKeys chunk (keys.take (n / 3)))
        let s := setChunk s idx (segFromKeys chunk ((keys.take (2 * n / 3)).drop (n / 3)))
        let s := setChunk s (idx + 1) (segFromKeys chunk (keys.drop (2 * n / 3)))
        let s := { s with lens := s.lens.take (idx - 1)
            ++ [(n / 3 : Int), (2 * n / 3 : Int) - (n / 3 : Int), (n : Int) - (2 * n / 3 : Int)]
            ++ s.lens.drop (idx + 2) }
        (none, { s with mins := s.mins.take idx
            ++ [keys.getD (n / 3) (0, 0), keys.getD (2 * n / 3) (0, 0)]
            ++ s.mins.drop (idx + 2) })
      else (none, s)

/-- Embedding of BigDict.__setitem__(key, value).  Faithful to the source,
which updates the segment, the length metadata and possibly the segment
minimum but never invokes the balancing engine. -/
def setitem (s : State) (key value : Nat) : State :=
  let hkey := hashK key
  let index0 := bisectPairs s.mins (hkey, key)
  let index : Nat := if 0 < index0 then index0 - 1 else index0
  let s :=
    if s.len_ = 0 then
      let (fname, s) := getFilename s
      { s with filenames := s.filenames ++ [fname], segs := s.segs ++ [[]],
               lens := s.lens ++ [0], mins := s.mins ++ [(hkey, key)] }
    else s
  let chunk := s.segs.getD index []
  let lenOld := intLen chunk
  let chunk := dictSet chunk key value
  let s := { s with segs := s.segs.set index chunk }
  let s := { s with lens := s.lens.set index (s.lens.getD index 0 + (intLen chunk - lenOld)) }
  let s := { s with len_ := s.len_ + (intLen chunk - lenOld) }
  if pairLt (hkey, key) (s.mins.getD index (hkey, key)) then
    { s with mins := s.mins.set index (hkey, key) }
  else s

/-- Embedding of BigDict.__getitem__(key). -/
def getitem (s : State) (key : Nat) : Option Nat :=
  let index0 := bisectPairs s.mins (hashK key, key)
  if index0 = 0 then none
  else dictGet (cacheChunk s ((index0 - 1 : Nat) : Int)) key

/-- Embedding of BigDict.__delitem__(key).  When the removed key was the
segment's minimum, the source recomputes the minimum with min() over the
surviving keys, which raises ValueError when the segment became empty; the
embedding returns that error with the entry already removed and the length
metadata already decremented. -/
def delitem (s : State) (key : Nat) : Option PyErr × State :=
  let index0 := bisectPairs s.mins (hashK key, key)
  if index0 = 0 then (some .keyError, s)
  else
    let index : Nat := index0 - 1
    let chunk := cacheChunk s (index : Int)
    match dictGet chunk key with
    | none => (some .keyError, s)
    | some _ =>
      let chunk := dictPop chunk key
      let s := setChunk s (index : Int) chunk
      let s := { s with lens := s.lens.set index (s.lens.getD index 0 - 1) }
      let s := { s with len_ := s.len_ - 1 }
      if key = (s.mins.getD index (0, 0)).2 then
        match minPair chunk with
        | none => (some .valueError, s)
        | some m =>
          let s := { s with mins := s.mins.set index m }
          balance s (index : Int)
      else balance s (index : Int)

/-- Sequence of public assignments d[0] = 0, d[1] = 1, ..., d[n-1] = n-1 on
a fresh BigDict. -/
def insertAsc : Nat → State
  | 0 => emptyState
  | n + 1 => setitem (insertAsc n) n n

end BigDict


/-!  ### SortedList

Embedding of more_collections/sorted/_sorted_list.py (class SortedList).
The element type carries a linear order, as Python assumes, and an
Inhabited default standing for accesses the source only performs on
non-empty segments.  The state mirrors the four slots _data, _len, _lens
(the optional Fenwick array) and _mins. -/

namespace SortedList

/-- CHUNKSIZE constant of _sorted_list.py. -/
def CHUNKSIZE : Nat := 1024

variable {α : Type _} [LinearOrder α] [Inhabited α]

/-- Python sorted(): a stable comparison sort under the natural order. -/
def pySorted (xs : List α) : List α :=
  xs.mergeSort (fun a b => decide (a ≤ b))

/-- Python bisect.bisect(a, x) over the whole list: the number of elements
not exceeding x, the library's documented insertion point on sorted
input. -/
def bisectF (L : List α) (x : α) : Nat :=
  L.countP (fun y => decide (y ≤ x))

/-- Python bisect.bisect(a, x, lo, hi): insertion point restricted to the
window [lo, hi). -/
def bisectLH (L : List α) (x : α) (lo hi : Nat) : Nat :=
  lo + ((L.drop lo).take (hi - lo)).countP (fun y => decide (y ≤ x))

/-- Python list.insert(j, v) for 0 <= j (clamping past the end). -/
def pyInsert (L : List α) (j : Nat) (v : α) : List α :=
  L.take j ++ v :: L.drop j

/-- Python bisect.insort(a, x): insert after existing equal elements. -/
def insortR (L : List α) (v : α) : List α :=
  pyInsert L (bisectF L v) v

/-- In-memory state of a SortedList. -/
structure State (α : Type _) where
  data : List (List α)
  len_ : Int
  lens : Option (List Int)
  mins : List α

/-- Embedding of SortedList() with no iterable. -/
def emptyState (α : Type _) : State α :=
  { data := [], len_ := 0, lens := none, mins := [] }

/-- Embedding of SortedList(iterable): sort, slice into CHUNKSIZE pieces,
record the head of each piece. -/
def initFrom (xs : List α) : State α :=
  let data := pySorted xs
  { data := chunksOf CHUNKSIZE data,
    len_ := intLen data,
    lens := none,
    mins := (chunksOf CHUNKSIZE data).map (fun L => L.headD default) }

/-- Embedding of SortedList._ensure_lens: when absent, build the Fenwick
array over the segment lengths (the construction loop is Fenwick.build). -/
def ensureLens (s : State α) : State α :=
  match s.lens with
  | some _ => s
  | none => { s with lens := some (Fenwick.build (s.data.map intLen)) }

/-- Embedding of SortedList.append(value), the engine of add: dispatch on
the cached segment minima, split the receiving segment first when its half
length exceeds CHUNKSIZE, insert by bisection, patch mins and the optional
Fenwick array exactly as each branch of the source does. -/
def appendOp (s : State α) (value : α) : State α :=
  if s.len_ = 0 then
    { s with data := s.data ++ [[value]], mins := s.mins ++ [value], len_ := 1 }
  else
    let s :=
      if value < s.mins.headD default then
        -- insertion at the very front
        let L := s.data.headD []
        let len2 := L.length / 2
        let s :=
          if CHUNKSIZE < len2 then
            { s with data := (s.data.set 0 (L.take len2)).insertIdx 1 (L.drop len2),
                     mins := s.mins.insertIdx 1 (L.getD len2 default),
                     lens := none }
          else
            match s.lens with
            | some fen => { s with lens := some (Fenwick.bumpDouble 1 fen.length fen 1) }
            | none => s
        let L0 := s.data.headD []
        let s := { s with data := s.data.set 0 (value :: L0) }
        { s with mins := s.mins.set 0 value }
      else if s.mins.getLastD default ≤ value then
        -- insertion at the back
        let L := s.data.getLastD []
        let len2 := L.length / 2
        if CHUNKSIZE < len2 then
          let s := { s with
            data := (s.data.set (s.data.length - 1) (L.take len2)) ++ [L.drop len2],
            mins := s.mins ++ [L.getD len2 default] }
          let s :=
            match s.lens with
            | none => s
            | some fen =>
              if s.data.length = 2 then
                -- lens.append(len(data[0]) + len(data[1])); lens[0] = len(data[0])
                let fen := fen ++ [intLen (s.data.getD 0 []) + intLen (s.data.getD 1 [])]
                { s with lens := some (fen.set 0 (intLen (s.data.getD 0 []))) }
              else
                let fen := fen ++ [intLen (s.data.getLastD [])]
                let fen := fen.set (fen.length - 2)
                    (fen.getD (fen.length - 2) 0 - fen.getLastD 0)
                { s with lens := some (Fenwick.accum fen s.data.length
                    (lowbitExp s.data.length)) }
          if s.mins.getLastD default < value then
            let dl := s.data.getLastD []
            let s := { s with data := s.data.set (s.data.length - 1) (insortR dl value) }
            match s.lens with
            | none => s
            | some fen =>
              { s with lens := some (fen.set (fen.length - 1) (fen.getLastD 0 + 1)) }
          else
            let L1 := s.data.getD (s.data.length - 2) []
            let j := bisectF L1 value
            let s := { s with data := s.data.set (s.data.length - 2) (pyInsert L1 j value) }
            let s := if j = 0 then { s with mins := s.mins.set (s.mins.length - 2) value }
                     else s
            match s.lens with
            | none => s
            | some fen =>
              let fen := fen.set (fen.length - 2) (fen.getD (fen.length - 2) 0 + 1)
              if s.data.length = 2 then
                { s with lens := some (fen.set (fen.length - 1) (fen.getLastD 0 + 1)) }
              else { s with lens := some fen }
        else
          let j := bisectF L value
          let s := { s with data := s.data.set (s.data.length - 1) (pyInsert L j value) }
          let s := if j = 0 then { s with mins := s.mins.set (s.mins.length - 1) value }
                   else s
          match s.lens with
          | none => s
          | some fen =>
            { s with lens := some (fen.set (fen.length - 1) (fen.getLastD 0 + 1)) }
      else
        -- interior insertion
        let i := bisectLH s.mins value 0 (s.mins.length - 1)
        let L := s.data.getD (i - 1) []
        let len2 := L.length / 2
        if CHUNKSIZE < len2 then
          let s := { s with
            data := (s.data.set (i - 1) (L.take len2)).insertIdx i (L.drop len2),
            mins := s.mins.insertIdx i (L.getD len2 default) }
          let s :=
            if (s.data.getD i []).headD default < value then
              { s with data := s.data.set i (insortR (s.data.getD i []) value) }
            else
              let L1 := s.data.getD (i - 1) []
              let j := bisectF L1 value
              let s := { s with data := s.data.set (i - 1) (pyInsert L1 j value) }
              if j = 0 then { s with mins := s.mins.set (i - 1) value } else s
          { s with lens := none }
        else
          let j := bisectF L value
          let s := { s with data := s.data.set (i - 1) (pyInsert L j value) }
          let s := if j = 0 then { s with mins := s.mins.set (i - 1) value } else s
          match s.lens with
          | none => s
          | some fen => { s with lens := some (Fenwick.bumpLow 1 fen.length fen i) }
    { s with len_ := s.len_ + 1 }

/-- Embedding of SortedList.discard(value): silent when absent; deletes one
occurrence, then either updates mins and the Fenwick array in place or
merges the shrunken segment with a neighbour. -/
def discardOp (s : State α) (value : α) : State α :=
  if s.len_ = 0 then s
  else if ¬ (s.mins.headD default ≤ value ∧
             value ≤ (s.data.getLastD []).getLastD default) then s
  else
    let i := if s.mins.getLastD default ≤ value then s.mins.length - 1
             else bisectLH s.mins value 1 (s.mins.length - 1) - 1
    let L := s.data.getD i []
    if L.length = 1 then
      if L.headD default = value then
        let s := { s with data := s.data.eraseIdx i, mins := s.mins.eraseIdx i,
                          len_ := s.len_ - 1 }
        match s.lens with
        | none => s
        | some fen =>
          if i = s.mins.length - 1 then { s with lens := some fen.dropLast }
          else { s with lens := none }
      else s
    else
      let j : Int := (bisectF L value : Int) - 1
      if ¬ (0 ≤ j ∧ j < intLen L) then s
      else if L.getD j.toNat default ≠ value then s
      else
        let L2 := L.eraseIdx j.toNat
        let s := { s with data := s.data.set i L2, len_ := s.len_ - 1 }
        if s.data.length < 2 ∨ CHUNKSIZE / 2 < L2.length then
          let s := if j = 0 then { s with mins := s.mins.set i (L2.headD default) } else s
          match s.lens with
          | none => s
          | some fen => { s with lens := some (Fenwick.bumpLow (-1) fen.length fen (i + 1)) }
        else if 0 < i ∧ (i = s.data.length - 1 ∨
                (s.data.getD (i - 1) []).length < (s.data.getD (i + 1) []).length) then
          { s with data := (s.data.set (i - 1) ((s.data.getD (i - 1) []) ++ L2)).eraseIdx i,
                   mins := s.mins.eraseIdx i, lens := none }
        else
          let s := if j = 0 then { s with mins := s.mins.set i (L2.headD default) } else s
          let L3 := L2 ++ s.data.getD (i + 1) []
          { s with data := (s.data.set i L3).eraseIdx (i + 1),
                   mins := s.mins.eraseIdx (i + 1), lens := none }

/-- The Fenwick-guided middle path of SortedList.__delitem__: locate the
segment by descent over the live lens array, delete inside it, then either
update mins and the Fenwick array in place or merge the shrunken segment
with a neighbour. -/
def delitemMiddle (s : State α) (fen : List Int) (idx : Int) :
    Option PyErr × State α :=
  let iOff := Fenwick.search fen idx
  let i := iOff.1
  let L := s.data.getD i []
  let len2 := L.length / 2
  match pyDel L iOff.2 with
  | none => (some .indexError, s)
  | some L2 =>
    let s := { s with data := s.data.set i L2 }
    let s := { s with len_ := s.len_ - 1 }
    if s.data.length < 2 ∨ CHUNKSIZE / 4 < len2 then
      match L2.head? with
      | none => (some .indexError, s)
      | some h =>
        let s := { s with mins := s.mins.set i h }
        (none, { s with lens := some (Fenwick.bumpLow (-1) fen.length fen (i + 1)) })
    else if i + 1 < s.data.length then
      let prevPos := if i = 0 then s.data.length - 1 else i - 1
      if (s.data.getD prevPos []).length < (s.data.getD (i + 1) []).length then
        (none, { s with
          data := (s.data.set prevPos ((s.data.getD prevPos []) ++ L2)).eraseIdx i,
          mins := s.mins.eraseIdx i, lens := none })
      else
        let L3 := L2 ++ s.data.getD (i + 1) []
        let s := { s with data := (s.data.set i L3).eraseIdx (i + 1) }
        match L3.head? with
        | none => (some .indexError, s)
        | some h =>
          (none, { s with mins := (s.mins.set i h).eraseIdx (i + 1), lens := none })
    else (some .indexError, s)

/-- Embedding of the integer branch of SortedList.__delitem__.  The front
and back fast paths read the captured local lens without ensuring it is
live, so whenever _lens is None they raise TypeError (len(None), None[-1]
or None[-1] -= 1) after mutating the data; the middle path ensures lens,
locates the segment by Fenwick descent and can raise IndexError from
del L[index] or from the neighbour probe data[i + 1].  Errors carry the
partially mutated state, exactly as the Python object would be left. -/
def delitemInt (s : State α) (index : Int) : Option PyErr × State α :=
  let idx : Int := if index < 0 then index + s.len_ else index
  if ¬ (0 ≤ idx ∧ idx < s.len_) then (some .indexError, s)
  else
    let i0 := idx.toNat
    let d0 := s.data.headD []
    if i0 < d0.length then
      if d0.length = 1 then
        (none, { s with data := s.data.tail, mins := s.mins.tail, lens := none,
                        len_ := s.len_ - 1 })
      else
        let d0 := d0.eraseIdx i0
        let s := { s with data := s.data.set 0 d0 }
        let s := if i0 = 0 then { s with mins := s.mins.set 0 (d0.headD default) } else s
        if 1 < s.data.length ∧ d0.length < CHUNKSIZE / 2 then
          let s := { s with data := (s.data.set 0 (d0 ++ s.data.getD 1 [])).eraseIdx 1,
                            mins := s.mins.eraseIdx 1, lens := none }
          (none, { s with len_ := s.len_ - 1 })
        else
          match s.lens with
          | none => (some .typeError, s)
          | some fen =>
            let s := { s with lens := some (Fenwick.bumpDouble (-1) fen.length fen 1) }
            (none, { s with len_ := s.len_ - 1 })
    else if s.len_ - intLen (s.data.getLastD []) ≤ idx then
      let dl := s.data.getLastD []
      if dl.length = 1 then
        let s := { s with data := s.data.dropLast }
        match s.lens with
        | none => (some .typeError, s)
        | some fen =>
          let s := { s with lens := some fen.dropLast }
          (none, { s with mins := s.mins.dropLast, len_ := s.len_ - 1 })
      else
        let j := (idx + intLen dl - s.len_).toNat
        let dl := dl.eraseIdx j
        let s := { s with data := s.data.set (s.data.length - 1) dl }
        let s := if j = 0 then
            { s with mins := s.mins.set (s.mins.length - 1) (dl.headD default) }
          else s
        if 1 < s.data.length ∧ dl.length < CHUNKSIZE / 2 then
          let merged := (s.data.getD (s.data.length - 2) []) ++ dl
          let s := { s with data := (s.data.set (s.data.length - 2) merged).dropLast }
          let s := { s with mins := s.mins.dropLast }
          match s.lens with
          | none => (some .typeError, s)
          | some fen =>
            let s := { s with lens := some fen.dropLast }
            (none, { s with len_ := s.len_ - 1 })
        else
          match s.lens with
          | none => (some .typeError, s)
          | some fen =>
            let s := { s with lens := some (fen.set (fen.length - 1) (fen.getLastD 0 - 1)) }
            (none, { s with len_ := s.len_ - 1 })
    else
      let s := ensureLens s
      match s.lens with
      | none => (some .typeError, s)
      | some fen => delitemMiddle s fen idx

/-- Embedding of SortedList.extend(iterable): large additions re-sort the
union and re-segment into CHUNKSIZE slices (leaving the Fenwick array
absent); small additions fall back to repeated append. -/
def extendOp (s : State α) (xs : List α) : State α :=
  let sortedData := pySorted xs
  if Int.fdiv s.len_ 8 < intLen sortedData then
    let sortedData :=
      if 0 < s.len_ then pySorted (sortedData ++ s.data.flatten) else sortedData
    { data := chunksOf CHUNKSIZE sortedData,
      len_ := intLen sortedData,
      lens := none,
      mins := (chunksOf CHUNKSIZE sortedData).map (fun L => L.headD default) }
  else
    sortedData.foldl appendOp s

/-- Embedding of the classmethod SortedList.from_sorted(iterable): the body
binds self = cls(iterable) and falls off the end without a return
statement, so the call evaluates the constructor and returns None. -/
def from_sorted (xs : List α) : Option (State α) :=
  let _self := initFrom xs
  none

end SortedList

namespace SortedList

variable {α : Type _} [LinearOrder α] [Inhabited α]

/-- The ordering invariant of claim C8: the flattened segments are
non-decreasing, every cached minimum is the head of its segment, and the
cached total length counts the stored elements. -/
def Inv (s : State α) : Prop :=
  s.data.flatten.Pairwise (· ≤ ·) ∧
    List.Forall₂ (fun (m : α) (L : List α) => L.head? = some m) s.mins s.data ∧
    s.len_ = intLen s.data.flatten

/-- States reachable from an empty SortedList through the public mutating
operations, retaining only deletions that return normally. -/
inductive Reachable : State α → Prop where
  | empty : Reachable (emptyState α)
  | add (s : State α) (v : α) : Reachable s → Reachable (appendOp s v)
  | take_away (s : State α) (v : α) : Reachable s → Reachable (discardOp s v)
  | grow (s : State α) (xs : List α) : Reachable s → Reachable (extendOp s xs)
  | del (s : State α) (idx : Int) : Reachable s → (delitemInt s idx).1 = none →
      Reachable (delitemInt s idx).2

end SortedList

/-- A small concrete reachable SortedList state used to witness C8. -/
def w8state : SortedList.State Int :=
  SortedList.appendOp (SortedList.appendOp (SortedList.emptyState Int) 5) 3

/-- Concrete three-element BigList state used to witness claim C7: two
segments of lengths 1 and 2, Fenwick array not yet built. -/
def w7state : BigList.State Int :=
  { filenames := [0, 1], lens := [1, 2], len_ := 3, fenwick := none,
    segs := [[10], [20, 30]], counter := 2 }

/-!  ### General lemmas about chunk slicing -/

section ChunkLemmas

variable {α : Type _}

theorem chunksGo_fuel (n : Nat) :
    ∀ fuel₁ fuel₂ (xs : List α), xs.length ≤ fuel₁ → xs.length ≤ fuel₂ →
      chunksGo n fuel₁ xs = chunksGo n fuel₂ xs := by
  intro fuel₁
  induction fuel₁ with
  | zero =>
    intro fuel₂ xs h1 _
    have : xs = [] := List.eq_nil_of_length_eq_zero (Nat.le_zero.mp h1)
    subst this
    cases fuel₂ <;> rfl
  | succ f ih =>
    intro fuel₂ xs h1 h2
    match xs, fuel₂ with
    | [], g => cases g <;> rfl
    | x :: t, 0 => simp at h2
    | x :: t, g + 1 =>
      simp only [chunksGo]
      refine congrArg _ ?_
      refine ih g (t.drop (n - 1)) ?_ ?_
      · have := t.length_drop (n - 1)
        have ht : t.length ≤ f := by simpa using h1
        omega
      · have := t.length_drop (n - 1)
        have ht : t.length ≤ g := by simpa using h2
        omega

theorem chunksOf_nil (n : Nat) : chunksOf n ([] : List α) = [] := rfl

theorem chunksOf_cons (n : Nat) (hn : 0 < n) (xs : List α) (hxs : xs ≠ []) :
    chunksOf n xs = xs.take n :: chunksOf n (xs.drop n) := by
  match xs with
  | [] => exact absurd rfl hxs
  | x :: t =>
    show chunksGo n (t.length + 1) (x :: t) = _
    simp only [chunksGo]
    have h1 : (x :: t).take n = x :: t.take (n - 1) := by
      match n, hn with
      | m + 1, _ => simp
    have h2 : (x :: t).drop n = t.drop (n - 1) := by
      match n, hn with
      | m + 1, _ => simp
    rw [h1, h2]
    refine congrArg _ ?_
    exact chunksGo_fuel n t.length (t.drop (n-1)).length (t.drop (n-1))
      (by have := t.length_drop (n-1); omega) le_rfl

theorem chunksOf_flatten (n : Nat) (hn : 0 < n) (xs : List α) :
    (chunksOf n xs).flatten = xs := by
  suffices H : ∀ k (xs : List α), xs.length ≤ k → (chunksOf n xs).flatten = xs by
    exact H xs.length xs le_rfl
  intro k
  induction k with
  | zero =>
    intro xs h
    have : xs = [] := List.eq_nil_of_length_eq_zero (Nat.le_zero.mp h)
    subst this
    rfl
  | succ k ih =>
    intro xs h
    cases xs with
    | nil => rfl
    | cons x t =>
      rw [chunksOf_cons n hn _ (by simp)]
      simp only [List.flatten_cons]
      rw [ih ((x :: t).drop n)
        (by simp only [List.length_drop, List.length_cons] at h ⊢; omega)]
      exact List.take_append_drop n (x :: t)

theorem chunksOf_mem_length (n : Nat) (hn : 0 < n) (xs : List α) :
    ∀ L ∈ chunksOf n xs, 0 < L.length ∧ L.length ≤ n := by
  suffices H : ∀ k (xs : List α), xs.length ≤ k →
      ∀ L ∈ chunksOf n xs, 0 < L.length ∧ L.length ≤ n by
    exact H xs.length xs le_rfl
  intro k
  induction k with
  | zero =>
    intro xs h L hL
    have : xs = [] := List.eq_nil_of_length_eq_zero (Nat.le_zero.mp h)
    subst this
    simp [chunksOf_nil] at hL
  | succ k ih =>
    intro xs h L hL
    cases xs with
    | nil => simp [chunksOf_nil] at hL
    | cons x t =>
      rw [chunksOf_cons n hn _ (by simp)] at hL
      rcases List.mem_cons.mp hL with hh | hh
      · subst hh
        constructor
        · simp [List.length_take]; omega
        · simp [List.length_take]
      · exact ih ((x :: t).drop n)
          (by simp only [List.length_drop, List.length_cons] at h ⊢; omega) L hh

theorem chunksOf_dropLast_length (n : Nat) (hn : 0 < n) (xs : List α) :
    ∀ L ∈ (chunksOf n xs).dropLast, L.length = n := by
  suffices H : ∀ k (xs : List α), xs.length ≤ k →
      ∀ L ∈ (chunksOf n xs).dropLast, L.length = n by
    exact H xs.length xs le_rfl
  intro k
  induction k with
  | zero =>
    intro xs h L hL
    have : xs = [] := List.eq_nil_of_length_eq_zero (Nat.le_zero.mp h)
    subst this
    simp [chunksOf_nil] at hL
  | succ k ih =>
    intro xs h L hL
    cases xs with
    | nil => simp [chunksOf_nil] at hL
    | cons x t =>
      rw [chunksOf_cons n hn _ (by simp)] at hL
      by_cases hrest : chunksOf n ((x :: t).drop n) = []
      · rw [hrest] at hL
        simp at hL
      · rw [List.dropLast_cons_of_ne_nil hrest] at hL
        rcases List.mem_cons.mp hL with hh | hh
        · subst hh
          have hlong : n ≤ (x :: t).length := by
            by_contra hc
            push_neg at hc
            have hd : (x :: t).drop n = [] := List.drop_eq_nil_of_le (by omega)
            rw [hd, chunksOf_nil] at hrest
            exact hrest rfl
          simp only [List.length_take]
          omega
        · exact ih ((x :: t).drop n)
            (by simp only [List.length_drop, List.length_cons] at h ⊢; omega) L hh

end ChunkLemmas

section FenwickLemmas

/-!  Correctness of the shared Fenwick loops: `build` really stores the
lowbit-width partial sums and `search` really decomposes a rank into a
segment index and offset (claim C7).  The build proof runs a fold invariant
in which the clipping function `ubound p k` records how many children of
cell p have already been pushed after processing positions 1..k. -/

theorem lowbit_odd (m : Nat) (h : m % 2 = 1) : lowbit m = 1 := by
  cases m with
  | zero => simp at h
  | succ n => simp [lowbit, h]

theorem lowbit_two_mul (n : Nat) : lowbit (2 * n) = 2 * lowbit n := by
  cases n with
  | zero => simp [lowbit]
  | succ k =>
    have h1 : 2 * (k + 1) = (2 * k + 1) + 1 := by ring
    rw [h1]
    show lowbit ((2 * k + 1) + 1) = _
    have h3 : ((2 * k + 1) + 1) / 2 = k + 1 := by omega
    conv_lhs => rw [lowbit]
    rw [if_neg (by omega), h3]

theorem lowbit_pow_mul (t : Nat) (x : Nat) : lowbit (2 ^ t * x) = 2 ^ t * lowbit x := by
  induction t with
  | zero => simp
  | succ t ih =>
    have : 2 ^ (t + 1) * x = 2 * (2 ^ t * x) := by ring
    rw [this, lowbit_two_mul, ih, pow_succ]
    ring

theorem lowbit_of_odd_mul (b : Nat) (d : Nat) (hd : d % 2 = 1) :
    lowbit (2 ^ b * d) = 2 ^ b := by
  rw [lowbit_pow_mul, lowbit_odd d hd, mul_one]

/-- Normal form: every positive number is a power of two times an odd. -/
theorem exists_lowbit_form (m : Nat) (hm : 0 < m) :
    ∃ a d, d % 2 = 1 ∧ m = 2 ^ a * d ∧ lowbit m = 2 ^ a := by
  obtain ⟨a, d, hd2, rfl⟩ := Nat.exists_eq_pow_mul_and_not_dvd (show m ≠ 0 by omega) 2 (by omega)
  have hd : d % 2 = 1 := by omega
  exact ⟨a, d, hd, rfl, lowbit_of_odd_mul a d hd⟩

theorem lowbit_pos (m : Nat) (hm : 0 < m) : 0 < lowbit m := by
  obtain ⟨a, d, hd, rfl, hl⟩ := exists_lowbit_form m hm
  rw [hl]
  positivity

theorem lowbit_le (m : Nat) : lowbit m ≤ m := by
  rcases Nat.eq_zero_or_pos m with h | h
  · subst h; simp [lowbit]
  · obtain ⟨a, d, hd, hrep, hl⟩ := exists_lowbit_form m h
    rw [hl, hrep]
    have : 1 ≤ d := by omega
    nlinarith [pow_pos (show 0 < 2 by norm_num) a]

theorem leastPow_one : leastPow 1 = 1 := by
  simp [leastPow, Nat.clog_one_right]

theorem leastPow_pow (c : Nat) : leastPow (2 ^ c) = 2 ^ c := by
  simp [leastPow, Nat.clog_pow 2 c (by norm_num)]

theorem leastPow_pow_succ (c : Nat) : leastPow (2 ^ c + 1) = 2 ^ (c + 1) := by
  unfold leastPow
  have h1 : Nat.clog 2 (2 ^ c + 1) ≤ c + 1 := by
    rw [← Nat.le_pow_iff_clog_le (by norm_num)]
    have := Nat.pow_lt_pow_right (show 1 < 2 by norm_num) (show c < c + 1 by omega)
    omega
  have h2 : c + 1 ≤ Nat.clog 2 (2 ^ c + 1) := by
    by_contra hc
    push_neg at hc
    have : Nat.clog 2 (2 ^ c + 1) ≤ c := by omega
    rw [← Nat.le_pow_iff_clog_le (by norm_num)] at this
    omega
  have : Nat.clog 2 (2 ^ c + 1) = c + 1 := by omega
  rw [this]

theorem leastPow_stable (x : Nat) (hpow : ∀ c, x ≠ 2 ^ c) :
    leastPow (x + 1) = leastPow x := by
  unfold leastPow
  refine congrArg _ ?_
  have hmono := Nat.clog_mono_right 2 (show x ≤ x + 1 by omega)
  by_contra hne
  have hlt : Nat.clog 2 x < Nat.clog 2 (x + 1) := by omega
  have hle : x ≤ 2 ^ Nat.clog 2 x := Nat.le_pow_clog (by norm_num) x
  have hgt : ¬ (x + 1 ≤ 2 ^ Nat.clog 2 x) := by
    intro hcon
    rw [Nat.le_pow_iff_clog_le (by norm_num)] at hcon
    omega
  exact hpow (Nat.clog 2 x) (by omega)

theorem lowbit_add_pow_lt (m c : Nat) (hm : 0 < m) (hc : 2 ^ c < lowbit m) :
    lowbit (m + 2 ^ c) = 2 ^ c := by
  obtain ⟨a, d, hd, rfl, hl⟩ := exists_lowbit_form m hm
  rw [hl] at hc
  have hca : c < a := (Nat.pow_lt_pow_iff_right (by norm_num)).mp hc
  have hac : c + (a - c) = a := by omega
  have hrep : 2 ^ a * d + 2 ^ c = 2 ^ c * (2 ^ (a - c) * d + 1) := by
    rw [Nat.mul_add, mul_one, ← Nat.mul_assoc, ← Nat.pow_add, hac]
  rw [hrep]
  apply lowbit_of_odd_mul
  have h3 : (2 ^ (a - c) * d) % 2 = 0 := by
    have : 2 ∣ 2 ^ (a - c) * d :=
      Dvd.dvd.mul_right (dvd_pow_self 2 (show a - c ≠ 0 by omega)) d
    omega
  omega

theorem lowbit_add_pow_gt (m c : Nat) (hm : 0 < m) (hc : lowbit m < 2 ^ c) :
    lowbit (m + 2 ^ c) = lowbit m := by
  obtain ⟨a, d, hd, rfl, hl⟩ := exists_lowbit_form m hm
  rw [hl] at hc ⊢
  have hca : a < c := (Nat.pow_lt_pow_iff_right (by norm_num)).mp hc
  have hrep : 2 ^ a * d + 2 ^ c = 2 ^ a * (d + 2 ^ (c - a)) := by
    rw [Nat.mul_add]
    congr 1
    rw [← Nat.pow_add]
    congr 1
    omega
  rw [hrep]
  apply lowbit_of_odd_mul
  have h2 : 2 ^ (c - a) % 2 = 0 := by
    have : 2 ∣ 2 ^ (c - a) := dvd_pow_self 2 (by omega)
    omega
  omega

theorem lowbit_add_lowbit_ge (m : Nat) (hm : 0 < m) :
    2 * lowbit m ≤ lowbit (m + lowbit m) := by
  obtain ⟨a, d, hd, rfl, hl⟩ := exists_lowbit_form m hm
  rw [hl]
  obtain ⟨e, he⟩ : ∃ e, d + 1 = 2 * e := ⟨(d + 1) / 2, by omega⟩
  have hrep : 2 ^ a * d + 2 ^ a = 2 ^ (a + 1) * e := by
    rw [pow_succ]
    nlinarith
  rw [hrep, lowbit_pow_mul]
  have he1 : 0 < e := by omega
  have : 0 < lowbit e := lowbit_pos e he1
  have : 2 * 2 ^ a ≤ 2 ^ (a + 1) * lowbit e := by
    rw [pow_succ]
    nlinarith
  omega

theorem psum_succ (lens : List Int) (i : Nat) (h : i < lens.length) :
    psum lens (i + 1) = psum lens i + lens.getD i 0 := by
  simp only [psum, List.getD]
  rw [List.take_succ]
  simp [List.getElem?_eq_getElem h]
  exact List.sum_take_succ lens i h

theorem getD_set_self (l : List Int) (i : Nat) (h : i < l.length) (a d : Int) :
    (l.set i a).getD i d = a := by
  simp [List.getD, List.getElem?_set_self, h]

theorem getD_set_ne (l : List Int) (i j : Nat) (h : i ≠ j) (a d : Int) :
    (l.set i a).getD j d = l.getD j d := by
  simp [List.getD, List.getElem?_set_ne h]

theorem ubound_of_le (p k : Nat) (h1 : 1 ≤ p) (h : p ≤ k) : ubound p k = 1 := by
  have hz : p - k = 0 := by omega
  have : leastPow 0 = 1 := by simp [leastPow, Nat.clog]
  simp only [ubound, hz, this]
  have := lowbit_pos p (by omega)
  omega

theorem ubound_succ_self (k : Nat) : ubound (k + 1) k = 1 := by
  have hz : k + 1 - k = 1 := by omega
  simp only [ubound, hz, leastPow_one]
  have := lowbit_pos (k + 1) (by omega)
  omega

theorem ubound_zero (p : Nat) (h1 : 1 ≤ p) : ubound p 0 = lowbit p := by
  have h2 : leastPow (p - 0) = leastPow p := by rfl
  have h3 : p ≤ leastPow p := Nat.le_pow_clog (by norm_num) p
  have h4 : lowbit p ≤ p := lowbit_le p
  simp only [ubound, h2]
  omega

theorem ubound_stable (p k : Nat) (hp : k + 2 ≤ p) (hq : p ≠ k + 1 + lowbit (k + 1)) :
    ubound p (k + 1) = ubound p k := by
  have hx1 : 1 ≤ p - (k + 1) := by omega
  have hpk : p - k = (p - (k + 1)) + 1 := by omega
  unfold ubound
  rw [hpk]
  by_cases hpow : ∃ c, p - (k + 1) = 2 ^ c
  · obtain ⟨c, hc⟩ := hpow
    rw [hc, leastPow_pow, leastPow_pow_succ]
    have hp' : p = k + 1 + 2 ^ c := by omega
    obtain ⟨b, d, hd, hform, hlb⟩ := exists_lowbit_form (k + 1) (by omega)
    have hcb : c ≠ b := by
      intro h
      apply hq
      rw [hlb, ← h]
      omega
    rcases Nat.lt_or_ge c b with hlt | hge
    · have hlow : lowbit p = 2 ^ c := by
        rw [hp']
        exact lowbit_add_pow_lt (k + 1) c (by omega)
          (by rw [hlb]; exact Nat.pow_lt_pow_right (by norm_num) hlt)
      rw [hlow]
      have h1 : (2:Nat) ^ c < 2 ^ (c + 1) := Nat.pow_lt_pow_right (by norm_num) (by omega)
      omega
    · have hgt : b < c := by omega
      have hlow : lowbit p = 2 ^ b := by
        rw [hp', lowbit_add_pow_gt (k + 1) c (by omega)
          (by rw [hlb]; exact Nat.pow_lt_pow_right (by norm_num) hgt), hlb]
      rw [hlow]
      have h1 : (2:Nat) ^ b < 2 ^ c := Nat.pow_lt_pow_right (by norm_num) hgt
      have h2 : (2:Nat) ^ c < 2 ^ (c + 1) := Nat.pow_lt_pow_right (by norm_num) (by omega)
      omega
  · push_neg at hpow
    rw [leastPow_stable (p - (k + 1)) fun c => hpow c]

theorem ubound_write (k b : Nat) (hlb : lowbit (k + 1) = 2 ^ b) :
    ubound (k + 1 + 2 ^ b) k = 2 ^ (b + 1) ∧
      ubound (k + 1 + 2 ^ b) (k + 1) = 2 ^ b := by
  have hge : 2 ^ (b + 1) ≤ lowbit (k + 1 + 2 ^ b) := by
    have h := lowbit_add_lowbit_ge (k + 1) (by omega)
    rw [hlb] at h
    calc 2 ^ (b + 1) = 2 * 2 ^ b := by ring
    _ ≤ _ := h
  constructor
  · have h1 : k + 1 + 2 ^ b - k = 2 ^ b + 1 := by omega
    unfold ubound
    rw [h1, leastPow_pow_succ]
    omega
  · have h2 : k + 1 + 2 ^ b - (k + 1) = 2 ^ b := by omega
    unfold ubound
    rw [h2, leastPow_pow]
    have h3 : (2:Nat) ^ b < 2 ^ (b + 1) := Nat.pow_lt_pow_right (by norm_num) (by omega)
    omega

theorem ubound_step (p k : Nat) (hp1 : 1 ≤ p) (hpq : p ≠ k + 1 + lowbit (k + 1)) :
    ubound p (k + 1) = ubound p k := by
  rcases Nat.lt_or_ge p (k + 1) with h | h
  · rw [ubound_of_le p (k + 1) hp1 (by omega), ubound_of_le p k hp1 (by omega)]
  · rcases Nat.eq_or_lt_of_le h with h1 | h1
    · rw [← h1, ubound_of_le (k + 1) (k + 1) (by omega) le_rfl, ubound_succ_self k]
    · exact ubound_stable p k (by omega) hpq

/-- Fold invariant for the in-place Fenwick construction: after pushing
positions 1..k, every cell p holds its initial value lens[p-1] plus the
telescoped contributions of its already-processed children, expressed
through the clipping function ubound. -/
theorem build_loop_inv (lens : List Int) :
    ∀ k, k ≤ lens.length →
      ((List.range' 1 k).foldl Fenwick.buildStep (0 :: lens)).length = lens.length + 1 ∧
      ∀ p, 1 ≤ p → p ≤ lens.length →
        ((List.range' 1 k).foldl Fenwick.buildStep (0 :: lens)).getD p 0 =
          psum lens p - psum lens (p - 1) + psum lens (p - ubound p k) -
            psum lens (p - lowbit p) := by
  intro k
  induction k with
  | zero =>
    intro _
    rw [show (List.range' 1 0) = [] from rfl]
    simp only [List.foldl_nil]
    constructor
    · simp
    · intro p hp1 hpm
      rw [ubound_zero p hp1]
      obtain ⟨p', rfl⟩ : ∃ p', p = p' + 1 := ⟨p - 1, by omega⟩
      simp only [List.getD_cons_succ]
      have hs := psum_succ lens p' (by omega)
      have hsub : p' + 1 - 1 = p' := by omega
      rw [hsub]
      omega
  | succ k ih =>
    intro hk1
    obtain ⟨hlen, hval⟩ := ih (by omega)
    have hsplit : (List.range' 1 (k + 1)).foldl Fenwick.buildStep (0 :: lens) =
        Fenwick.buildStep ((List.range' 1 k).foldl Fenwick.buildStep (0 :: lens)) (k + 1) := by
      rw [show List.range' 1 (k + 1) = List.range' 1 k ++ [1 + k] by
        simpa using @List.range'_concat 1 1 k, List.foldl_append]
      simp only [List.foldl_cons, List.foldl_nil, one_mul]
      rw [Nat.add_comm 1 k]
    rw [hsplit]
    simp only [Fenwick.buildStep]
    obtain ⟨b, d, hd, hform, hlb⟩ := exists_lowbit_form (k + 1) (by omega)
    have hble : 2 ^ b ≤ k + 1 := by rw [← hlb]; exact lowbit_le (k + 1)
    obtain ⟨hw1, hw2⟩ := ubound_write k b hlb
    by_cases hq : k + 1 + lowbit (k + 1) <
        ((List.range' 1 k).foldl Fenwick.buildStep (0 :: lens)).length
    · rw [if_pos hq]
      constructor
      · rw [List.length_set]
        exact hlen
      · intro p hp1 hpm
        by_cases hpq : p = k + 1 + lowbit (k + 1)
        · subst hpq
          rw [getD_set_self _ _ hq]
          rw [hlb] at hq ⊢
          have hqm : k + 1 + 2 ^ b ≤ lens.length := by omega
          rw [hval (k + 1 + 2 ^ b) (by omega) hqm,
            hval (k + 1) (by omega) (by omega),
            hw1, hw2, ubound_succ_self k, hlb]
          have e1 : k + 1 + 2 ^ b - 2 ^ (b + 1) = k + 1 - 2 ^ b := by
            have : (2:Nat) ^ (b + 1) = 2 * 2 ^ b := by ring
            omega
          have e2 : k + 1 - 1 = k := by omega
          have e3 : k + 1 + 2 ^ b - 2 ^ b = k + 1 := by omega
          rw [e1, e2, e3]
          omega
        · rw [getD_set_ne _ _ _ (fun h => hpq h.symm)]
          rw [hval p hp1 hpm, ubound_step p k hp1 hpq]
    · rw [if_neg hq]
      refine ⟨hlen, fun p hp1 hpm => ?_⟩
      have hpq : p ≠ k + 1 + lowbit (k + 1) := by
        rw [hlen] at hq
        omega
      rw [hval p hp1 hpm, ubound_step p k hp1 hpq]

theorem build_length (lens : List Int) :
    (Fenwick.build lens).length = lens.length + 1 :=
  (build_loop_inv lens lens.length le_rfl).1

/-- Correctness of the built Fenwick array: cell p holds the sum of the
lowbit p entries ending at position p. -/
theorem build_getD (lens : List Int) (p : Nat) (h1 : 1 ≤ p) (h2 : p ≤ lens.length) :
    (Fenwick.build lens).getD p 0 = psum lens p - psum lens (p - lowbit p) := by
  have h := (build_loop_inv lens lens.length le_rfl).2 p h1 h2
  rw [ubound_of_le p lens.length h1 h2] at h
  have e1 : psum lens (p - 1) = psum lens (p - 1) := rfl
  rw [Fenwick.build]
  omega

/-- Descent invariant for the binary-lifting search loop: starting from a
probe width 2 ^ e aligned with i, the loop maintains the residual rank and
brackets the answer between psum i and psum of the next unexplored probe. -/
theorem searchGo_post (lens : List Int) (rank : Int) :
    ∀ e i, 2 ^ e ∣ i → psum lens i ≤ rank →
      (i + 2 ^ e ≤ lens.length → rank < psum lens (i + 2 ^ e)) → i ≤ lens.length →
      (Fenwick.searchGo (Fenwick.build lens) e i (rank - psum lens i)).2 =
          rank - psum lens (Fenwick.searchGo (Fenwick.build lens) e i
            (rank - psum lens i)).1 ∧
        psum lens (Fenwick.searchGo (Fenwick.build lens) e i (rank - psum lens i)).1 ≤
          rank ∧
        ((Fenwick.searchGo (Fenwick.build lens) e i (rank - psum lens i)).1 + 1 ≤
            lens.length →
          rank < psum lens ((Fenwick.searchGo (Fenwick.build lens) e i
            (rank - psum lens i)).1 + 1)) ∧
        (Fenwick.searchGo (Fenwick.build lens) e i (rank - psum lens i)).1 ≤
          lens.length := by
  intro e
  induction e with
  | zero =>
    intro i ha hb hc hd
    simp only [Fenwick.searchGo]
    refine ⟨by ring, hb, fun h => ?_, hd⟩
    exact hc (by simpa using h)
  | succ e ihe =>
    intro i ha hb hc hd
    obtain ⟨t, ht⟩ := ha
    have ha' : 2 ^ e ∣ i := ⟨2 * t, by rw [ht, pow_succ]; ring⟩
    have hi2 : i + 2 ^ e = 2 ^ e * (2 * t + 1) := by rw [ht, pow_succ]; ring
    have hlow : lowbit (i + 2 ^ e) = 2 ^ e := by
      rw [hi2, lowbit_of_odd_mul e (2 * t + 1) (by omega)]
    simp only [Fenwick.searchGo]
    by_cases hcond : i + 2 ^ e < (Fenwick.build lens).length ∧
        (Fenwick.build lens).getD (i + 2 ^ e) 0 ≤ rank - psum lens i
    · rw [if_pos hcond]
      have hm : i + 2 ^ e ≤ lens.length := by
        have := hcond.1
        rw [build_length] at this
        omega
      have hcell : (Fenwick.build lens).getD (i + 2 ^ e) 0 =
          psum lens (i + 2 ^ e) - psum lens i := by
        rw [build_getD lens (i + 2 ^ e) (by have h0 : 0 < 2 ^ e := pow_pos (by norm_num) e; omega) hm, hlow]
        have : i + 2 ^ e - 2 ^ e = i := by omega
        rw [this]
      have hb2 : psum lens (i + 2 ^ e) ≤ rank := by
        have := hcond.2
        rw [hcell] at this
        omega
      have hres : rank - psum lens i - (Fenwick.build lens).getD (i + 2 ^ e) 0 =
          rank - psum lens (i + 2 ^ e) := by
        rw [hcell]
        ring
      rw [hres]
      refine ihe (i + 2 ^ e) ?_ hb2 ?_ hm
      · exact Dvd.dvd.add ha' dvd_rfl
      · intro hsum
        have : i + 2 ^ (e + 1) ≤ lens.length := by
          rw [pow_succ] at *
          omega
        have := hc this
        have harr : i + 2 ^ e + 2 ^ e = i + 2 ^ (e + 1) := by
          rw [pow_succ]
          ring
        rw [harr]
        exact this
    · rw [if_neg hcond]
      refine ihe i ha' hb (fun hsum => ?_) hd
      have hbound : i + 2 ^ e < (Fenwick.build lens).length := by
        rw [build_length]
        omega
      have hfail : ¬ ((Fenwick.build lens).getD (i + 2 ^ e) 0 ≤ rank - psum lens i) := by
        intro hok
        exact hcond ⟨hbound, hok⟩
      have hcell : (Fenwick.build lens).getD (i + 2 ^ e) 0 =
          psum lens (i + 2 ^ e) - psum lens i := by
        rw [build_getD lens (i + 2 ^ e) (by have h0 : 0 < 2 ^ e := pow_pos (by norm_num) e; omega) hsum, hlow]
        have : i + 2 ^ e - 2 ^ e = i := by omega
        rw [this]
      rw [hcell] at hfail
      omega

/-- The doubling loop reaches a power of two at least the array length. -/
theorem growExp_ge (flen : Nat) :
    ∀ fuel t, flen ≤ 2 ^ t * 2 ^ fuel → flen ≤ 2 ^ Fenwick.growExp flen fuel t := by
  intro fuel
  induction fuel with
  | zero =>
    intro t h
    simpa [Fenwick.growExp] using h
  | succ fuel ihf =>
    intro t h
    simp only [Fenwick.growExp]
    by_cases hlt : 2 ^ t < flen
    · rw [if_pos hlt]
      refine ihf (t + 1) ?_
      rw [pow_succ] at h ⊢
      have hb2 : 2 ^ t * 2 * 2 ^ fuel = 2 ^ t * (2 ^ fuel * 2) := by ring
      omega
    · rw [if_neg hlt]
      omega

/-- Correctness of the positional lookup over a freshly built Fenwick array:
for any rank inside the total, the returned segment index and offset
decompose the rank along the prefix sums of lens. -/
theorem search_correct (lens : List Int) (rank : Int) (h0 : 0 ≤ rank)
    (hN : rank < psum lens lens.length) :
    (Fenwick.search (Fenwick.build lens) rank).1 < lens.length ∧
      0 ≤ (Fenwick.search (Fenwick.build lens) rank).2 ∧
      (Fenwick.search (Fenwick.build lens) rank).2 <
        lens.getD (Fenwick.search (Fenwick.build lens) rank).1 0 ∧
      rank = psum lens (Fenwick.search (Fenwick.build lens) rank).1 +
        (Fenwick.search (Fenwick.build lens) rank).2 := by
  have hflen : (Fenwick.build lens).length = lens.length + 1 := build_length lens
  set T := Fenwick.growExp (Fenwick.build lens).length (Fenwick.build lens).length 11
    with hT
  have hTge : (Fenwick.build lens).length ≤ 2 ^ T := by
    refine growExp_ge (Fenwick.build lens).length (Fenwick.build lens).length 11 ?_
    have h1 : (Fenwick.build lens).length ≤ 2 ^ (Fenwick.build lens).length :=
      Nat.le_of_lt (Nat.lt_two_pow (Fenwick.build lens).length)
    have h2 : (1:Nat) ≤ 2 ^ 11 := Nat.one_le_two_pow
    nlinarith
  have hzero : psum lens 0 = 0 := rfl
  have hpost := searchGo_post lens rank (T + 1) 0 (dvd_zero (2 ^ (T + 1))) (by rw [hzero]; exact h0)
    (by
      intro hcon
      exfalso
      have hbig : lens.length + 1 ≤ 2 ^ T := by rw [← hflen]; exact hTge
      have h2 : (2:Nat) ^ T < 2 ^ (T + 1) := Nat.pow_lt_pow_right (by norm_num) (by omega)
      omega)
    (by omega)
  rw [hzero, sub_zero] at hpost
  have hsearch : Fenwick.search (Fenwick.build lens) rank =
      Fenwick.searchGo (Fenwick.build lens) (T + 1) 0 rank := by
    rw [Fenwick.search, hT]
  rw [hsearch]
  obtain ⟨hres, hle, hup, hdm⟩ := hpost
  have hlt : (Fenwick.searchGo (Fenwick.build lens) (T + 1) 0 rank).1 < lens.length := by
    rcases Nat.eq_or_lt_of_le hdm with heq | hlt
    · exfalso
      rw [heq] at hle
      omega
    · exact hlt
  refine ⟨hlt, by omega, ?_, by omega⟩
  have := hup (by omega)
  have hps := psum_succ lens (Fenwick.searchGo (Fenwick.build lens) (T + 1) 0 rank).1 hlt
  omega

/-- Reading the flattened list at a rank that decomposes as the length of
the first i segments plus an in-segment offset reads segment i at that
offset. -/
theorem flatten_getD {α : Type _} (d : α) :
    ∀ (segs : List (List α)) (i off : Nat), i < segs.length →
      off < (segs.getD i []).length →
      segs.flatten.getD (((segs.take i).map List.length).sum + off) d =
        (segs.getD i []).getD off d := by
  intro segs
  induction segs with
  | nil =>
    intro i off hi _
    simp at hi
  | cons s rest ih =>
    intro i off hi hoff
    cases i with
    | zero =>
      simp only [List.take_zero, List.map_nil, List.sum_nil, Nat.zero_add,
        List.getD_cons_zero, List.flatten_cons]
      simp only [List.getD_cons_zero] at hoff
      rw [List.getD_append _ _ _ _ hoff]
    | succ i =>
      simp only [List.flatten_cons, List.take_succ_cons, List.map_cons, List.sum_cons,
        List.getD_cons_succ]
      simp only [List.getD_cons_succ] at hoff
      have hi' : i < rest.length := by simpa using hi
      rw [Nat.add_assoc, List.getD_append_right]
      · have hc : s.length + ((List.map List.length (List.take i rest)).sum + off) -
            s.length = (List.map List.length (List.take i rest)).sum + off := by omega
        rw [hc]
        exact ih i off hi' hoff
      · omega

theorem psum_map_intLen {α : Type _} (segs : List (List α)) (i : Nat) :
    psum (segs.map intLen) i = (((segs.take i).map List.length).sum : Int) := by
  rw [psum, ← List.map_take]
  generalize segs.take i = l
  induction l with
  | nil => simp
  | cons h t iht => simp [intLen, iht]

end FenwickLemmas

section C8Toolkit

variable {α : Type _} {β : Type _}

theorem flatten_set (data : List (List α)) (i : Nat) (L2 : List α) :
    ∀ h : i < data.length,
    (data.set i L2).flatten =
      (data.take i).flatten ++ L2 ++ (data.drop (i + 1)).flatten := by
  induction data generalizing i with
  | nil => intro h; simp at h
  | cons s rest ih =>
    intro h
    cases i with
    | zero => simp
    | succ i =>
      have h2 : i < rest.length := by simpa using h
      simp [ih i h2, List.append_assoc]

theorem flatten_decomp (data : List (List α)) (i : Nat) :
    ∀ h : i < data.length,
    data.flatten =
      (data.take i).flatten ++ data.getD i [] ++ (data.drop (i + 1)).flatten := by
  induction data generalizing i with
  | nil => intro h; simp at h
  | cons s rest ih =>
    intro h
    cases i with
    | zero => simp
    | succ i =>
      have h2 : i < rest.length := by simpa using h
      simp [ih i h2, List.append_assoc]

theorem flatten_eraseIdx (data : List (List α)) (i : Nat) :
    ∀ h : i < data.length,
    (data.eraseIdx i).flatten =
      (data.take i).flatten ++ (data.drop (i + 1)).flatten := by
  induction data generalizing i with
  | nil => intro h; simp at h
  | cons s rest ih =>
    intro h
    cases i with
    | zero => simp
    | succ i =>
      have h2 : i < rest.length := by simpa using h
      simp [List.eraseIdx_cons_succ, ih i h2, List.append_assoc]

theorem flatten_insertIdx (data : List (List α)) (i : Nat) (L2 : List α) :
    ∀ h : i ≤ data.length,
    (data.insertIdx i L2).flatten =
      (data.take i).flatten ++ L2 ++ (data.drop i).flatten := by
  induction data generalizing i with
  | nil =>
    intro h
    have : i = 0 := by simpa using h
    subst this
    simp [List.insertIdx]
  | cons s rest ih =>
    intro h
    cases i with
    | zero => simp [List.insertIdx]
    | succ i =>
      have h2 : i ≤ rest.length := by simpa using h
      simp [List.insertIdx_succ_cons, ih i h2, List.append_assoc]

theorem forall2_set {P : α → β → Prop} (a : α) (b : β) (hab : P a b) :
    ∀ (l1 : List α) (l2 : List β) (i : Nat), List.Forall₂ P l1 l2 →
      List.Forall₂ P (l1.set i a) (l2.set i b) := by
  intro l1 l2 i h
  induction h generalizing i with
  | nil => simpa using List.Forall₂.nil
  | cons hpq hrest ih =>
    cases i with
    | zero => exact List.Forall₂.cons hab hrest
    | succ i => exact List.Forall₂.cons hpq (ih i)

theorem forall2_insertIdx {P : α → β → Prop} (a : α) (b : β) (hab : P a b) :
    ∀ (l1 : List α) (l2 : List β) (i : Nat), List.Forall₂ P l1 l2 →
      List.Forall₂ P (l1.insertIdx i a) (l2.insertIdx i b) := by
  intro l1 l2 i h
  induction h generalizing i with
  | nil =>
    cases i with
    | zero => simpa [List.insertIdx] using List.Forall₂.cons hab List.Forall₂.nil
    | succ i => simpa [List.insertIdx] using List.Forall₂.nil
  | cons hpq hrest ih =>
    cases i with
    | zero => exact List.Forall₂.cons hab (List.Forall₂.cons hpq hrest)
    | succ i =>
      simpa [List.insertIdx_succ_cons] using List.Forall₂.cons hpq (ih i)

theorem forall2_eraseIdx {P : α → β → Prop} :
    ∀ (l1 : List α) (l2 : List β) (i : Nat), List.Forall₂ P l1 l2 →
      List.Forall₂ P (l1.eraseIdx i) (l2.eraseIdx i) := by
  intro l1 l2 i h
  induction h generalizing i with
  | nil => simpa using List.Forall₂.nil
  | cons hpq hrest ih =>
    cases i with
    | zero => simpa using hrest
    | succ i => simpa [List.eraseIdx_cons_succ] using List.Forall₂.cons hpq (ih i)

theorem forall2_tail {P : α → β → Prop} (l1 : List α) (l2 : List β)
    (h : List.Forall₂ P l1 l2) : List.Forall₂ P l1.tail l2.tail := by
  cases h with
  | nil => exact List.Forall₂.nil
  | cons hpq hrest => exact hrest

theorem forall2_dropLast {P : α → β → Prop} :
    ∀ (l1 : List α) (l2 : List β), List.Forall₂ P l1 l2 →
      List.Forall₂ P l1.dropLast l2.dropLast := by
  intro l1 l2 h
  induction h with
  | nil => exact List.Forall₂.nil
  | cons hpq hrest ih =>
    rename_i a b t1 t2
    cases hrest with
    | nil => simpa using List.Forall₂.nil
    | cons hpq2 hrest2 =>
      rename_i a2 b2 t12 t22
      simpa [List.dropLast_cons₂] using
        List.Forall₂.cons hpq (by simpa using ih)

theorem forall2_getD {P : α → β → Prop} (d1 : α) (d2 : β) :
    ∀ (l1 : List α) (l2 : List β) (i : Nat), List.Forall₂ P l1 l2 →
      i < l1.length → P (l1.getD i d1) (l2.getD i d2) := by
  intro l1 l2 i h
  induction h generalizing i with
  | nil => intro hi; simp at hi
  | cons hpq hrest ih =>
    intro hi
    cases i with
    | zero => simpa using hpq
    | succ i =>
      have h2 := ih i (by simpa using hi)
      simpa using h2

end C8Toolkit

section C8Order

variable {α : Type _} [LinearOrder α] [Inhabited α]

theorem bisectF_le (L : List α) (v : α) : SortedList.bisectF L v ≤ L.length :=
  List.countP_le_length _

theorem bisectF_bounds (v : α) :
    ∀ L : List α, L.Pairwise (· ≤ ·) →
      (∀ x ∈ L.take (SortedList.bisectF L v), x ≤ v) ∧
      (∀ x ∈ L.drop (SortedList.bisectF L v), v < x) := by
  intro L
  induction L with
  | nil => intro _; simp
  | cons a t ih =>
    intro hL
    obtain ⟨hat, ht⟩ := List.pairwise_cons.mp hL
    obtain ⟨h1, h2⟩ := ih ht
    by_cases hav : a ≤ v
    · have hcount : SortedList.bisectF (a :: t) v = SortedList.bisectF t v + 1 := by
        simp [SortedList.bisectF, List.countP_cons, hav]
      rw [hcount]
      constructor
      · intro x hx
        rw [List.take_succ_cons] at hx
        rcases List.mem_cons.mp hx with rfl | hx
        · exact hav
        · exact h1 x hx
      · intro x hx
        rw [List.drop_succ_cons] at hx
        exact h2 x hx
    · have hva : v < a := not_le.mp hav
      have hcount : SortedList.bisectF (a :: t) v = 0 := by
        rw [SortedList.bisectF, List.countP_eq_zero]
        intro x hx
        simp only [decide_eq_true_eq]
        rcases List.mem_cons.mp hx with rfl | hx
        · exact not_le.mpr hva
        · exact not_le.mpr (lt_of_lt_of_le hva (hat x hx))
      rw [hcount]
      constructor
      · intro x hx
        simp at hx
      · intro x hx
        rw [List.drop_zero] at hx
        rcases List.mem_cons.mp hx with rfl | hx
        · exact hva
        · exact lt_of_lt_of_le hva (hat x hx)

theorem pyInsert_mem (L : List α) (j : Nat) (v : α) (x : α)
    (hx : x ∈ SortedList.pyInsert L j v) : x = v ∨ x ∈ L := by
  simp only [SortedList.pyInsert, List.mem_append, List.mem_cons] at hx
  rcases hx with hx | hx | hx
  · exact Or.inr (List.mem_of_mem_take hx)
  · exact Or.inl hx
  · exact Or.inr (List.mem_of_mem_drop hx)

theorem pyInsert_length (L : List α) (j : Nat) (v : α) (hj : j ≤ L.length) :
    (SortedList.pyInsert L j v).length = L.length + 1 := by
  simp [SortedList.pyInsert]
  omega

theorem pyInsert_sorted (L : List α) (j : Nat) (v : α) (hL : L.Pairwise (· ≤ ·))
    (h1 : ∀ x ∈ L.take j, x ≤ v) (h2 : ∀ x ∈ L.drop j, v ≤ x) :
    (SortedList.pyInsert L j v).Pairwise (· ≤ ·) := by
  have hdec : L = L.take j ++ L.drop j := (List.take_append_drop j L).symm
  rw [hdec, List.pairwise_append] at hL
  obtain ⟨hta, hdr, hcross⟩ := hL
  rw [SortedList.pyInsert, List.pairwise_append]
  refine ⟨hta, ?_, ?_⟩
  · rw [List.pairwise_cons]
    exact ⟨h2, hdr⟩
  · intro a ha b hb
    rcases List.mem_cons.mp hb with rfl | hb
    · exact h1 a ha
    · exact hcross a ha b hb

theorem pyInsert_head_zero (L : List α) (v : α) :
    (SortedList.pyInsert L 0 v).head? = some v := by
  simp [SortedList.pyInsert]

theorem pyInsert_head_pos (L : List α) (j : Nat) (v : α) (hj : 0 < j) (hL : L ≠ []) :
    (SortedList.pyInsert L j v).head? = L.head? := by
  cases L with
  | nil => exact absurd rfl hL
  | cons a t =>
    obtain ⟨j2, rfl⟩ : ∃ j2, j = j2 + 1 := ⟨j - 1, by omega⟩
    simp [SortedList.pyInsert]

theorem eraseIdx_head_pos (L : List α) (j : Nat) (hj : 0 < j) :
    (L.eraseIdx j).head? = L.head? := by
  cases L with
  | nil => simp
  | cons a t =>
    obtain ⟨j2, rfl⟩ : ∃ j2, j = j2 + 1 := ⟨j - 1, by omega⟩
    simp [List.eraseIdx_cons_succ]

theorem head?_headD (L : List α) (d : α) (h : L ≠ []) :
    L.head? = some (L.headD d) := by
  cases L with
  | nil => exact absurd rfl h
  | cons a t => rfl

theorem sorted_head_le (L : List α) (d : α) (x : α) (hL : L.Pairwise (· ≤ ·))
    (hx : x ∈ L) : L.headD d ≤ x := by
  cases L with
  | nil => simp at hx
  | cons a t =>
    rcases List.mem_cons.mp hx with rfl | hx
    · simp
    · simpa using (List.pairwise_cons.mp hL).1 x hx

theorem getLastD_eq_getD (L : List α) (d : α) :
    L.getLastD d = L.getD (L.length - 1) d := by
  rw [List.getLastD_eq_getLast?, List.getLast?_eq_getElem?, List.getD_eq_getElem?_getD]

theorem forall2_mem_flatten :
    ∀ (tm : List α) (td : List (List α)) (m2 : α),
      List.Forall₂ (fun (m : α) (L : List α) => L.head? = some m) tm td →
      m2 ∈ tm → m2 ∈ td.flatten := by
  intro tm td m2 hf
  induction hf with
  | nil => intro h; simp at h
  | cons hpq hrest ih =>
    intro hm2
    rename_i m L tm2 td2
    rw [List.flatten_cons, List.mem_append]
    rcases List.mem_cons.mp hm2 with rfl | hm2
    · exact Or.inl (List.mem_of_mem_head? (by rw [hpq]; rfl))
    · exact Or.inr (ih hm2)

theorem mins_sorted :
    ∀ (data : List (List α)) (mins : List α),
      data.flatten.Pairwise (· ≤ ·) →
      List.Forall₂ (fun (m : α) (L : List α) => L.head? = some m) mins data →
      mins.Pairwise (· ≤ ·) := by
  intro data mins hp hf
  induction hf with
  | nil => exact List.Pairwise.nil
  | cons hpq hrest ih =>
    rename_i m L tm td
    rw [List.flatten_cons, List.pairwise_append] at hp
    obtain ⟨hL, hflat, hcross⟩ := hp
    rw [List.pairwise_cons]
    refine ⟨?_, ih hflat⟩
    intro m2 hm2
    have hmem : m ∈ L := List.mem_of_mem_head? (by rw [hpq]; rfl)
    have hmem2 : m2 ∈ td.flatten := forall2_mem_flatten tm td m2 hrest hm2
    exact hcross m hmem m2 hmem2

theorem forall2_set_right {β : Type _} {P : α → β → Prop} (d1 : α) (b : β) :
    ∀ (l1 : List α) (l2 : List β) (i : Nat), List.Forall₂ P l1 l2 →
      (i < l1.length → P (l1.getD i d1) b) → List.Forall₂ P l1 (l2.set i b) := by
  intro l1 l2 i h
  induction h generalizing i with
  | nil => intro _; simpa using List.Forall₂.nil
  | cons hpq hrest ih =>
    intro hPb
    cases i with
    | zero => exact List.Forall₂.cons (by simpa using hPb (by simp)) hrest
    | succ i =>
      refine List.Forall₂.cons hpq (ih i ?_)
      intro hlen
      simpa using hPb (by simpa using hlen)

theorem head?_take (L : List α) (n : Nat) (h : 1 ≤ n) : (L.take n).head? = L.head? := by
  cases L <;> cases n <;> simp_all

theorem insertIdx_length_append (l : List α) (x : α) :
    l.insertIdx l.length x = l ++ [x] := by
  induction l with
  | nil => rfl
  | cons a t ih => simp [List.insertIdx_succ_cons, ih]

theorem getD_mem (l : List α) (n : Nat) (d : α) (h : n < l.length) : l.getD n d ∈ l := by
  rw [List.getD_eq_getElem l d h]
  exact List.getElem_mem h

theorem getD_take (l : List α) (n k : Nat) (d : α) (h : k < n) :
    (l.take n).getD k d = l.getD k d := by
  simp [List.getD_eq_getElem?_getD, List.getElem?_take, h]

theorem getD_drop (l : List α) (n k : Nat) (d : α) :
    (l.drop n).getD k d = l.getD (n + k) d := by
  simp [List.getD_eq_getElem?_getD, List.getElem?_drop]

theorem pySorted_sorted (xs : List α) : (SortedList.pySorted xs).Pairwise (· ≤ ·) := by
  have h := @List.sorted_mergeSort α (fun a b : α => decide (a ≤ b))
    (by intro a b c hab hbc; simp at *; exact le_trans hab hbc)
    (by intro a b; simp; exact le_total a b) xs
  exact h.imp (by intro a b hab; simpa using hab)

theorem pySorted_perm (xs : List α) : (SortedList.pySorted xs).Perm xs :=
  List.mergeSort_perm xs _

end C8Order

section C8Search

theorem searchGo_fst_mono (fen : List Int) :
    ∀ (e i : Nat) (res : Int), i ≤ (Fenwick.searchGo fen e i res).1 := by
  intro e
  induction e with
  | zero => intro i res; exact Nat.le_refl i
  | succ e ih =>
    intro i res
    simp only [Fenwick.searchGo]
    by_cases hc : i + 2 ^ e < fen.length ∧ fen.getD (i + 2 ^ e) 0 ≤ res
    · rw [if_pos hc]
      have h2 := ih (i + 2 ^ e) (res - fen.getD (i + 2 ^ e) 0)
      have h3 : 0 < 2 ^ e := pow_pos (by norm_num) e
      omega
    · rw [if_neg hc]
      exact ih i res

theorem searchGo_stay (fen : List Int) :
    ∀ (e i : Nat) (res : Int), (Fenwick.searchGo fen e i res).1 = i →
      (Fenwick.searchGo fen e i res).2 = res := by
  intro e
  induction e with
  | zero => intro i res _; rfl
  | succ e ih =>
    intro i res hst
    simp only [Fenwick.searchGo] at hst ⊢
    by_cases hc : i + 2 ^ e < fen.length ∧ fen.getD (i + 2 ^ e) 0 ≤ res
    · rw [if_pos hc] at hst ⊢
      exfalso
      have h2 := searchGo_fst_mono fen e (i + 2 ^ e) (res - fen.getD (i + 2 ^ e) 0)
      have h3 : 0 < 2 ^ e := pow_pos (by norm_num) e
      omega
    · rw [if_neg hc] at hst ⊢
      exact ih i res hst

end C8Search

section C8Cross

variable {α : Type _} [LinearOrder α] [Inhabited α]

theorem headD_of_head? (L : List α) (d m : α) (h : L.head? = some m) :
    L.headD d = m := by
  cases L <;> simp_all

/-- Cross bound: everything strictly before segment i is at most everything
inside segment i. -/
theorem cross_take_seg (data : List (List α)) (i : Nat) (hi : i < data.length)
    (hp : data.flatten.Pairwise (· ≤ ·)) :
    ∀ a ∈ (data.take i).flatten, ∀ b ∈ data.getD i [], a ≤ b := by
  rw [flatten_decomp data i hi, List.pairwise_append, List.pairwise_append] at hp
  intro a ha b hb
  exact hp.1.2.2 a ha b hb

/-- Cross bound: everything before segment i is at most everything from
segment i on. -/
theorem cross_take_drop (data : List (List α)) (i : Nat) (hi : i < data.length)
    (hp : data.flatten.Pairwise (· ≤ ·)) :
    ∀ a ∈ (data.take i).flatten, ∀ b ∈ (data.drop i).flatten, a ≤ b := by
  rw [flatten_decomp data i hi, List.pairwise_append, List.pairwise_append] at hp
  have hsplit : (data.drop i).flatten = data.getD i [] ++ (data.drop (i + 1)).flatten := by
    rw [List.drop_eq_getElem_cons hi, List.flatten_cons, List.getD_eq_getElem data [] hi]
  intro a ha b hb
  rw [hsplit, List.mem_append] at hb
  rcases hb with hb | hb
  · exact hp.1.2.2 a ha b hb
  · exact hp.2.2 a (List.mem_append.mpr (Or.inl ha)) b hb

/-- Cross bound: everything from segment i on is at least the head of
segment i. -/
theorem min_le_drop (data : List (List α)) (mins : List α) (i : Nat)
    (hi : i < data.length) (hp : data.flatten.Pairwise (· ≤ ·))
    (hf : List.Forall₂ (fun (m : α) (L : List α) => L.head? = some m) mins data) :
    ∀ c ∈ (data.drop i).flatten, mins.getD i default ≤ c := by
  have hlen : mins.length = data.length := List.Forall₂.length_eq hf
  have hhead : (data.getD i []).head? = some (mins.getD i default) :=
    forall2_getD default [] mins data i hf (by omega)
  have hne : data.getD i [] ≠ [] := by
    intro h
    rw [h] at hhead
    simp at hhead
  have hmem : mins.getD i default ∈ data.getD i [] :=
    List.mem_of_mem_head? (by rw [hhead]; rfl)
  rw [flatten_decomp data i hi, List.pairwise_append, List.pairwise_append] at hp
  have hsplit : (data.drop i).flatten = data.getD i [] ++ (data.drop (i + 1)).flatten := by
    rw [List.drop_eq_getElem_cons hi, List.flatten_cons, List.getD_eq_getElem data [] hi]
  intro c hc
  rw [hsplit, List.mem_append] at hc
  rcases hc with hc | hc
  · calc mins.getD i default = (data.getD i []).headD default :=
      (headD_of_head? _ default _ hhead).symm
    _ ≤ c := sorted_head_le _ default c hp.1.2.1 hc
  · exact hp.2.2 (mins.getD i default) (List.mem_append.mpr (Or.inr hmem)) c hc

/-- Each segment of a globally sorted segmentation is sorted. -/
theorem seg_sorted (data : List (List α)) (i : Nat)
    (hp : data.flatten.Pairwise (· ≤ ·)) :
    (data.getD i []).Pairwise (· ≤ ·) := by
  by_cases hi : i < data.length
  · rw [flatten_decomp data i hi, List.pairwise_append, List.pairwise_append] at hp
    exact hp.1.2.1
  · rw [List.getD_eq_default]
    · exact List.Pairwise.nil
    · omega

end C8Cross


section C8Core

variable {α : Type _} [LinearOrder α] [Inhabited α]

theorem sublist_flatten {β : Type _} :
    ∀ {k l : List (List β)}, List.Sublist k l → List.Sublist k.flatten l.flatten := by
  intro k l h
  induction h with
  | slnil => exact List.Sublist.refl _
  | cons a h2 ih =>
    rw [List.flatten_cons]
    exact ih.trans (List.sublist_append_right a _)
  | cons₂ a h2 ih =>
    rw [List.flatten_cons, List.flatten_cons]
    exact List.Sublist.append_left ih a

theorem getD_set_self2 {β : Type _} (l : List β) (i : Nat) (h : i < l.length) (a d : β) :
    (l.set i a).getD i d = a := by
  simp [List.getD_eq_getElem?_getD, List.getElem?_set_self, h]

theorem getD_set_ne2 {β : Type _} (l : List β) (i j : Nat) (h : i ≠ j) (a d : β) :
    (l.set i a).getD j d = l.getD j d := by
  simp [List.getD_eq_getElem?_getD, List.getElem?_set_ne h]

theorem eraseIdx_set_self {β : Type _} (l : List β) (i : Nat) (x : β) :
    (l.set i x).eraseIdx i = l.eraseIdx i := by
  induction l generalizing i with
  | nil => rfl
  | cons a t ih =>
    cases i with
    | zero => simp
    | succ i => simp [List.eraseIdx_cons_succ, ih]

theorem flatten_split (data : List (List α)) (t : Nat) (X Y : List α) :
    ∀ _ : t < data.length,
    ((data.set t X).insertIdx (t + 1) Y).flatten =
      (data.take t).flatten ++ (X ++ Y) ++ (data.drop (t + 1)).flatten := by
  induction data generalizing t with
  | nil => intro h; simp at h
  | cons s rest ih =>
    intro h
    cases t with
    | zero => simp [List.insertIdx_succ_cons, List.append_assoc]
    | succ t =>
      have h2 : t < rest.length := by simpa using h
      simp [List.insertIdx_succ_cons, ih t h2, List.append_assoc]

theorem flatten_merge (data : List (List α)) (t : Nat) (X : List α) :
    ∀ _ : t + 1 < data.length,
    ((data.set t X).eraseIdx (t + 1)).flatten =
      (data.take t).flatten ++ X ++ (data.drop (t + 2)).flatten := by
  induction data generalizing t with
  | nil => intro h; simp at h
  | cons s rest ih =>
    intro h
    cases t with
    | zero =>
      cases rest with
      | nil => simp at h
      | cons s2 rest2 => simp [List.eraseIdx_cons_succ, List.append_assoc]
    | succ t =>
      have h2 : t + 1 < rest.length := by simpa using h
      simp [List.eraseIdx_cons_succ, ih t h2, List.append_assoc]

/-- In-place bisection insert into segment t: sortedness, the mins
correspondence and the element count are preserved. -/
theorem ins_preserves (data : List (List α)) (mins : List α) (t : Nat) (v : α)
    (hp : data.flatten.Pairwise (· ≤ ·))
    (hf : List.Forall₂ (fun (m : α) (L : List α) => L.head? = some m) mins data)
    (ht : t < data.length)
    (hlow : ∀ a ∈ (data.take t).flatten, a ≤ v)
    (hhigh : ∀ c ∈ (data.drop (t + 1)).flatten, v ≤ c) :
    (data.set t (SortedList.pyInsert (data.getD t [])
        (SortedList.bisectF (data.getD t []) v) v)).flatten.Pairwise (· ≤ ·) ∧
      List.Forall₂ (fun (m : α) (L : List α) => L.head? = some m)
        (if SortedList.bisectF (data.getD t []) v = 0 then mins.set t v else mins)
        (data.set t (SortedList.pyInsert (data.getD t [])
          (SortedList.bisectF (data.getD t []) v) v)) ∧
      (data.set t (SortedList.pyInsert (data.getD t [])
        (SortedList.bisectF (data.getD t []) v) v)).flatten.length =
        data.flatten.length + 1 := by
  have hLs : (data.getD t []).Pairwise (· ≤ ·) := seg_sorted data t hp
  obtain ⟨htake, hdrop⟩ := bisectF_bounds v (data.getD t []) hLs
  have hins : (SortedList.pyInsert (data.getD t [])
      (SortedList.bisectF (data.getD t []) v) v).Pairwise (· ≤ ·) :=
    pyInsert_sorted _ _ v hLs htake (fun x hx => le_of_lt (hdrop x hx))
  have hdec := flatten_decomp data t ht
  have hset := flatten_set data t (SortedList.pyInsert (data.getD t [])
    (SortedList.bisectF (data.getD t []) v) v) ht
  have hp2 := hp
  rw [hdec, List.pairwise_append, List.pairwise_append] at hp2
  refine ⟨?_, ?_, ?_⟩
  · rw [hset, List.pairwise_append, List.pairwise_append]
    refine ⟨⟨hp2.1.1, hins, ?_⟩, hp2.2.1, ?_⟩
    · intro a ha b hb
      rcases pyInsert_mem _ _ _ b hb with rfl | hb
      · exact hlow a ha
      · exact hp2.1.2.2 a ha b hb
    · intro a ha c hc
      rcases List.mem_append.mp ha with ha | ha
      · exact hp2.2.2 a (List.mem_append.mpr (Or.inl ha)) c hc
      · rcases pyInsert_mem _ _ _ a ha with rfl | ha
        · exact hhigh c hc
        · exact hp2.2.2 a (List.mem_append.mpr (Or.inr ha)) c hc
  · by_cases hj : SortedList.bisectF (data.getD t []) v = 0
    · rw [if_pos hj, hj]
      exact forall2_set v _ (pyInsert_head_zero _ v) mins data t hf
    · rw [if_neg hj]
      refine forall2_set_right default _ mins data t hf ?_
      intro hlt
      have hlen : mins.length = data.length := List.Forall₂.length_eq hf
      have hne : data.getD t [] ≠ [] := by
        intro hnil
        rw [SortedList.bisectF, hnil] at hj
        simp at hj
      rw [pyInsert_head_pos _ _ v (by omega) hne]
      exact forall2_getD default [] mins data t hf hlt
  · rw [hset, hdec]
    simp only [List.length_append]
    have := pyInsert_length (data.getD t []) (SortedList.bisectF (data.getD t []) v) v
      (bisectF_le _ v)
    omega

/-- Splitting segment t into its two halves leaves the flattened contents,
and hence sortedness, unchanged and keeps the mins correspondence. -/
theorem split_preserves (data : List (List α)) (mins : List α) (t len2 : Nat)
    (hf : List.Forall₂ (fun (m : α) (L : List α) => L.head? = some m) mins data)
    (ht : t < data.length)
    (h1 : 1 ≤ len2) (h2 : len2 < (data.getD t []).length) :
    ((data.set t ((data.getD t []).take len2)).insertIdx (t + 1)
        ((data.getD t []).drop len2)).flatten = data.flatten ∧
      List.Forall₂ (fun (m : α) (L : List α) => L.head? = some m)
        (mins.insertIdx (t + 1) ((data.getD t []).getD len2 default))
        ((data.set t ((data.getD t []).take len2)).insertIdx (t + 1)
          ((data.getD t []).drop len2)) := by
  constructor
  · rw [flatten_split data t _ _ ht, List.take_append_drop, ← flatten_decomp data t ht]
  · have hstep1 : List.Forall₂ (fun (m : α) (L : List α) => L.head? = some m)
        mins (data.set t ((data.getD t []).take len2)) := by
      refine forall2_set_right default _ mins data t hf ?_
      intro hlt
      rw [head?_take _ len2 h1]
      exact forall2_getD default [] mins data t hf hlt
    have hstep2 : ((data.getD t []).drop len2).head? =
        some ((data.getD t []).getD len2 default) := by
      rw [List.head?_drop]
      rw [List.getElem?_eq_getElem h2, List.getD_eq_getElem _ _ h2]
    exact @forall2_insertIdx α (List α) (fun (m : α) (L : List α) => L.head? = some m)
      ((data.getD t []).getD len2 default) ((data.getD t []).drop len2) hstep2
      mins _ (t + 1) hstep1

/-- Deleting position j of segment t, patching mins when the head went away:
sortedness, correspondence and count are preserved. -/
theorem del_preserves (data : List (List α)) (mins : List α) (t j : Nat)
    (hp : data.flatten.Pairwise (· ≤ ·))
    (hf : List.Forall₂ (fun (m : α) (L : List α) => L.head? = some m) mins data)
    (ht : t < data.length)
    (hj : j < (data.getD t []).length)
    (hne : (data.getD t []).eraseIdx j ≠ []) :
    (data.set t ((data.getD t []).eraseIdx j)).flatten.Pairwise (· ≤ ·) ∧
      List.Forall₂ (fun (m : α) (L : List α) => L.head? = some m)
        (mins.set t (((data.getD t []).eraseIdx j).headD default))
        (data.set t ((data.getD t []).eraseIdx j)) ∧
      (data.set t ((data.getD t []).eraseIdx j)).flatten.length + 1 =
        data.flatten.length := by
  have hsub : List.Sublist (data.set t ((data.getD t []).eraseIdx j)).flatten
      data.flatten := by
    rw [flatten_set data t _ ht, flatten_decomp data t ht]
    exact List.Sublist.append
      (List.Sublist.append (List.Sublist.refl _) (List.eraseIdx_sublist _ j))
      (List.Sublist.refl _)
  refine ⟨hp.sublist hsub, ?_, ?_⟩
  · refine forall2_set _ _ ?_ mins data t hf
    exact (head?_headD _ default hne).symm ▸ (head?_headD _ default hne)
  · rw [flatten_set data t _ ht, flatten_decomp data t ht]
    simp only [List.length_append]
    rw [List.length_eraseIdx_of_lt hj]
    omega

/-- Variant of del_preserves for branches that leave mins untouched when the
deleted position was not the head. -/
theorem del_preserves_keep (data : List (List α)) (mins : List α) (t j : Nat)
    (hp : data.flatten.Pairwise (· ≤ ·))
    (hf : List.Forall₂ (fun (m : α) (L : List α) => L.head? = some m) mins data)
    (ht : t < data.length)
    (hj : j < (data.getD t []).length) (hj0 : 0 < j) :
    (data.set t ((data.getD t []).eraseIdx j)).flatten.Pairwise (· ≤ ·) ∧
      List.Forall₂ (fun (m : α) (L : List α) => L.head? = some m)
        mins (data.set t ((data.getD t []).eraseIdx j)) ∧
      (data.set t ((data.getD t []).eraseIdx j)).flatten.length + 1 =
        data.flatten.length := by
  have hsub : List.Sublist (data.set t ((data.getD t []).eraseIdx j)).flatten
      data.flatten := by
    rw [flatten_set data t _ ht, flatten_decomp data t ht]
    exact List.Sublist.append
      (List.Sublist.append (List.Sublist.refl _) (List.eraseIdx_sublist _ j))
      (List.Sublist.refl _)
  refine ⟨hp.sublist hsub, ?_, ?_⟩
  · refine forall2_set_right default _ mins data t hf ?_
    intro hlt
    rw [eraseIdx_head_pos _ j hj0]
    exact forall2_getD default [] mins data t hf hlt
  · rw [flatten_set data t _ ht, flatten_decomp data t ht]
    simp only [List.length_append]
    rw [List.length_eraseIdx_of_lt hj]
    omega

theorem head?_append_left (L M : List α) (h : L ≠ []) : (L ++ M).head? = L.head? := by
  cases L <;> simp_all

theorem flatten_take_succ (data : List (List α)) (u : Nat) (h : u < data.length) :
    (data.take (u + 1)).flatten = (data.take u).flatten ++ data.getD u [] := by
  have h1 : data.take (u + 1) = data.take u ++ [data.getD u []] := by
    rw [List.take_succ, List.getElem?_eq_getElem h, List.getD_eq_getElem _ _ h]
    simp
  rw [h1, List.flatten_append]
  simp

/-- Merging segment t with its right neighbour (contents already sorted)
keeps the flattened list and drops the neighbour from mins. -/
theorem merge_forward_preserves (data : List (List α)) (mins : List α) (t : Nat)
    (hf : List.Forall₂ (fun (m : α) (L : List α) => L.head? = some m) mins data)
    (ht : t + 1 < data.length) (hne : data.getD t [] ≠ []) :
    ((data.set t (data.getD t [] ++ data.getD (t + 1) [])).eraseIdx (t + 1)).flatten =
      data.flatten ∧
      List.Forall₂ (fun (m : α) (L : List α) => L.head? = some m)
        (mins.eraseIdx (t + 1))
        ((data.set t (data.getD t [] ++ data.getD (t + 1) [])).eraseIdx (t + 1)) := by
  constructor
  · rw [flatten_merge data t _ ht, flatten_decomp data t (by omega)]
    have hdrop : (data.drop (t + 1)).flatten =
        data.getD (t + 1) [] ++ (data.drop (t + 2)).flatten := by
      rw [List.drop_eq_getElem_cons ht, List.flatten_cons,
        List.getD_eq_getElem data [] ht]
    rw [hdrop]
    simp [List.append_assoc]
  · refine forall2_eraseIdx _ _ (t + 1) ?_
    refine forall2_set_right default _ mins data t hf ?_
    intro hlt
    rw [head?_append_left _ _ hne]
    exact forall2_getD default [] mins data t hf hlt

/-- Forward merge that also rewrites the min of the receiving segment, as the
middle deletion path does. -/
theorem merge_set_forall2 (data : List (List α)) (mins : List α) (t : Nat)
    (X : List α) (h : α)
    (hf : List.Forall₂ (fun (m : α) (L : List α) => L.head? = some m) mins data)
    (hX : X.head? = some h) :
    List.Forall₂ (fun (m : α) (L : List α) => L.head? = some m)
      ((mins.set t h).eraseIdx (t + 1)) ((data.set t X).eraseIdx (t + 1)) :=
  forall2_eraseIdx _ _ (t + 1) (forall2_set h X hX mins data t hf)

theorem bisectLH_zero_lo (L : List α) (x : α) (hi : Nat) :
    SortedList.bisectLH L x 0 hi = SortedList.bisectF (L.take hi) x := by
  simp [SortedList.bisectLH, SortedList.bisectF]

theorem bisectLH_le_add (L : List α) (x : α) (lo hi : Nat) :
    SortedList.bisectLH L x lo hi ≤ lo + (hi - lo) := by
  simp only [SortedList.bisectLH]
  have h1 := @List.countP_le_length α (fun y => decide (y ≤ x))
    ((L.drop lo).take (hi - lo))
  have h2 : ((L.drop lo).take (hi - lo)).length ≤ hi - lo := by
    rw [List.length_take]
    omega
  omega

/-- Location bounds for the interior insertion point of append. -/
theorem interior_bisect_bounds (mins : List α) (v : α)
    (hs : mins.Pairwise (· ≤ ·)) (hm : 2 ≤ mins.length)
    (h0 : mins.getD 0 default ≤ v) :
    1 ≤ SortedList.bisectLH mins v 0 (mins.length - 1) ∧
      SortedList.bisectLH mins v 0 (mins.length - 1) ≤ mins.length - 1 ∧
      mins.getD (SortedList.bisectLH mins v 0 (mins.length - 1) - 1) default ≤ v ∧
      (SortedList.bisectLH mins v 0 (mins.length - 1) < mins.length - 1 →
        v < mins.getD (SortedList.bisectLH mins v 0 (mins.length - 1)) default) := by
  rw [bisectLH_zero_lo]
  have hWlen : (mins.take (mins.length - 1)).length = mins.length - 1 := by
    rw [List.length_take]
    omega
  have hWs : (mins.take (mins.length - 1)).Pairwise (· ≤ ·) :=
    hs.sublist (List.take_sublist _ _)
  obtain ⟨htake, hdrop⟩ := bisectF_bounds v (mins.take (mins.length - 1)) hWs
  have hcle : SortedList.bisectF (mins.take (mins.length - 1)) v ≤ mins.length - 1 := by
    have := bisectF_le (mins.take (mins.length - 1)) v
    omega
  have hc1 : 1 ≤ SortedList.bisectF (mins.take (mins.length - 1)) v := by
    by_contra hc
    push_neg at hc
    have hc0 : SortedList.bisectF (mins.take (mins.length - 1)) v = 0 := by omega
    have hmem : (mins.take (mins.length - 1)).getD 0 default ∈
        (mins.take (mins.length - 1)).drop (SortedList.bisectF (mins.take (mins.length - 1)) v) := by
      rw [hc0, List.drop_zero]
      exact getD_mem _ 0 default (by omega)
    have := hdrop _ hmem
    rw [getD_take mins (mins.length - 1) 0 default (by omega)] at this
    exact absurd h0 (not_le.mpr this)
  refine ⟨hc1, hcle, ?_, ?_⟩
  · have hmem : (mins.take (mins.length - 1)).getD
        (SortedList.bisectF (mins.take (mins.length - 1)) v - 1) default ∈
        (mins.take (mins.length - 1)).take (SortedList.bisectF (mins.take (mins.length - 1)) v) := by
      have hlt : SortedList.bisectF (mins.take (mins.length - 1)) v - 1 <
          ((mins.take (mins.length - 1)).take
            (SortedList.bisectF (mins.take (mins.length - 1)) v)).length := by
        rw [List.length_take]
        omega
      have := getD_mem _ (SortedList.bisectF (mins.take (mins.length - 1)) v - 1) default hlt
      rwa [getD_take _ _ _ default (by omega)] at this
    have := htake _ hmem
    rwa [getD_take mins (mins.length - 1) _ default (by omega)] at this
  · intro hlt
    have hlen2 : 0 < ((mins.take (mins.length - 1)).drop
        (SortedList.bisectF (mins.take (mins.length - 1)) v)).length := by
      rw [List.length_drop]
      omega
    have h2 := getD_mem ((mins.take (mins.length - 1)).drop
      (SortedList.bisectF (mins.take (mins.length - 1)) v)) 0 default hlen2
    rw [getD_drop] at h2
    have h3 := hdrop _ h2
    rw [Nat.add_zero] at h3
    rwa [getD_take mins (mins.length - 1) _ default (by omega)] at h3

theorem headD_eq_getD_zero {β : Type _} (l : List β) (d : β) : l.headD d = l.getD 0 d := by
  cases l <;> rfl

theorem pyInsert_zero (L : List α) (v : α) : SortedList.pyInsert L 0 v = v :: L := by
  simp [SortedList.pyInsert]

theorem getLastD_concat {β : Type _} (l : List β) (x d : β) :
    (l ++ [x]).getLastD d = x := by
  simp [List.getLastD_eq_getLast?]

theorem getD_concat_self {β : Type _} (l : List β) (x d : β) :
    (l ++ [x]).getD l.length d = x := by
  simp [List.getD_eq_getElem?_getD, List.getElem?_append_right (Nat.le_refl l.length)]

theorem getD_insertIdx_self {β : Type _} :
    ∀ (l : List β) (i : Nat) (x d : β), i ≤ l.length →
      (l.insertIdx i x).getD i d = x := by
  intro l
  induction l with
  | nil =>
    intro i x d h
    have : i = 0 := by simpa using h
    subst this
    rfl
  | cons a t ih =>
    intro i x d h
    cases i with
    | zero => rfl
    | succ i =>
      rw [List.insertIdx_succ_cons]
      simpa using ih i x d (by simpa using h)

theorem getD_insertIdx_lt {β : Type _} :
    ∀ (l : List β) (i k : Nat) (x d : β), k < i →
      (l.insertIdx i x).getD k d = l.getD k d := by
  intro l
  induction l with
  | nil =>
    intro i k x d h
    cases i with
    | zero => omega
    | succ i => simp [List.insertIdx]
  | cons a t ih =>
    intro i k x d h
    cases i with
    | zero => omega
    | succ i =>
      rw [List.insertIdx_succ_cons]
      cases k with
      | zero => rfl
      | succ k => simpa using ih i k x d (by omega)

theorem take_set_of_le {β : Type _} :
    ∀ (l : List β) (i k : Nat) (a : β), k ≤ i → (l.set i a).take k = l.take k := by
  intro l
  induction l with
  | nil => intro i k a _; simp
  | cons b t ih =>
    intro i k a h
    cases i with
    | zero =>
      have : k = 0 := by omega
      subst this
      simp
    | succ i =>
      cases k with
      | zero => simp
      | succ k => simp [ih i k a (by omega)]

theorem drop_insertIdx_self {β : Type _} :
    ∀ (l : List β) (i : Nat) (x : β), i ≤ l.length →
      (l.insertIdx i x).drop i = x :: l.drop i := by
  intro l
  induction l with
  | nil =>
    intro i x h
    have : i = 0 := by simpa using h
    subst this
    rfl
  | cons a t ih =>
    intro i x h
    cases i with
    | zero => rfl
    | succ i =>
      rw [List.insertIdx_succ_cons]
      simpa using ih i x (by simpa using h)

theorem drop_insertIdx_succ {β : Type _} (l : List β) (i : Nat) (x : β)
    (h : i ≤ l.length) : (l.insertIdx i x).drop (i + 1) = l.drop i := by
  have h1 := drop_insertIdx_self l i x h
  have h2 : (l.insertIdx i x).drop (i + 1) = ((l.insertIdx i x).drop i).drop 1 := by
    rw [List.drop_drop]
  rw [h2, h1]
  simp

theorem bisectF_pos (L : List α) (v : α) (hne : L ≠ [])
    (hh : L.headD default ≤ v) : 1 ≤ SortedList.bisectF L v := by
  cases L with
  | nil => exact absurd rfl hne
  | cons a t =>
    have h2 : decide (a ≤ v) = true := by simpa using hh
    simp [SortedList.bisectF, List.countP_cons, h2]

theorem getD_append_lt {β : Type _} (X Y : List β) (k : Nat) (d : β)
    (h : k < X.length) : (X ++ Y).getD k d = X.getD k d := by
  simp [List.getD_eq_getElem?_getD, List.getElem?_append_left h]

theorem take_le_getD (L : List α) (n : Nat) (hL : L.Pairwise (· ≤ ·))
    (hn : n < L.length) : ∀ x ∈ L.take n, x ≤ L.getD n default := by
  have hdec : L = L.take n ++ L.drop n := (List.take_append_drop n L).symm
  have hp2 := hL
  rw [hdec, List.pairwise_append] at hp2
  intro x hx
  have hmem : L.getD n default ∈ L.drop n := by
    have hh : (L.drop n).head? = some (L.getD n default) := by
      rw [List.head?_drop, List.getElem?_eq_getElem hn, List.getD_eq_getElem _ _ hn]
    exact List.mem_of_mem_head? (by rw [hh]; rfl)
  exact hp2.2.2 x hx _ hmem

theorem take_insertIdx_of_le {β : Type _} :
    ∀ (l : List β) (i k : Nat) (x : β), k ≤ i → (l.insertIdx i x).take k = l.take k := by
  intro l
  induction l with
  | nil =>
    intro i k x h
    cases i with
    | zero =>
      have : k = 0 := by omega
      subst this
      simp
    | succ i => simp [List.insertIdx]
  | cons a t ih =>
    intro i k x h
    cases i with
    | zero =>
      have : k = 0 := by omega
      subst this
      simp
    | succ i =>
      rw [List.insertIdx_succ_cons]
      cases k with
      | zero => simp
      | succ k => simp [ih i k x (by omega)]

theorem drop_set_of_lt {β : Type _} :
    ∀ (l : List β) (j i : Nat) (a : β), j < i → (l.set j a).drop i = l.drop i := by
  intro l
  induction l with
  | nil => intro j i a _; simp
  | cons b t ih =>
    intro j i a h
    cases j with
    | zero =>
      cases i with
      | zero => omega
      | succ i => simp
    | succ j =>
      cases i with
      | zero => omega
      | succ i => simp [ih j i a (by omega)]

theorem append_singleton_eq_insertIdx {β : Type _} (l : List β) (x : β) (n : Nat)
    (h : n = l.length) : l.insertIdx n x = l ++ [x] := by
  subst h
  induction l with
  | nil => rfl
  | cons a t ih => simp [List.insertIdx_succ_cons, ih]

/-- Prepending a new least element to segment 0 preserves the invariant. -/
theorem front_ins_preserves (data : List (List α)) (mins : List α) (v : α)
    (hp : data.flatten.Pairwise (· ≤ ·))
    (hf : List.Forall₂ (fun (m : α) (L : List α) => L.head? = some m) mins data)
    (hne : data ≠ [])
    (hv : ∀ x ∈ data.flatten, v ≤ x) :
    (data.set 0 (v :: data.headD [])).flatten.Pairwise (· ≤ ·) ∧
      List.Forall₂ (fun (m : α) (L : List α) => L.head? = some m)
        (mins.set 0 v) (data.set 0 (v :: data.headD [])) ∧
      (data.set 0 (v :: data.headD [])).flatten.length = data.flatten.length + 1 := by
  have hlen : 0 < data.length := by
    cases data with
    | nil => exact absurd rfl hne
    | cons a t => simp
  have hflat : (data.set 0 (v :: data.headD [])).flatten = v :: data.flatten := by
    rw [flatten_set data 0 _ hlen, headD_eq_getD_zero]
    rw [flatten_decomp data 0 hlen]
    simp
  refine ⟨?_, ?_, ?_⟩
  · rw [hflat, List.pairwise_cons]
    exact ⟨hv, hp⟩
  · exact forall2_set v _ (by rfl) mins data 0 hf
  · rw [hflat]
    simp

end C8Core

section C8Append

variable {α : Type _} [LinearOrder α] [Inhabited α]

theorem inv_data_ne (s : SortedList.State α) (hf : List.Forall₂
      (fun (m : α) (L : List α) => L.head? = some m) s.mins s.data)
    (hlen : s.len_ = intLen s.data.flatten) (h0 : s.len_ ≠ 0) :
    s.data ≠ [] := by
  intro hd
  rw [hd] at hlen
  simp [intLen] at hlen
  exact h0 hlen

theorem append_preserves (s : SortedList.State α) (v : α) (h : SortedList.Inv s) :
    SortedList.Inv (SortedList.appendOp s v) := by
  obtain ⟨hp, hf, hlen⟩ := h
  have hm : s.mins.length = s.data.length := List.Forall₂.length_eq hf
  by_cases h0 : s.len_ = 0
  · have hflat : s.data.flatten = [] := by
      rw [h0] at hlen
      have : s.data.flatten.length = 0 := by
        simp only [intLen] at hlen
        omega
      exact List.length_eq_zero.mp this
    simp only [SortedList.appendOp, if_pos h0]
    unfold SortedList.Inv
    refine ⟨?_, ?_, ?_⟩
    · simp [hflat]
    · have hd : s.data = [] := by
        by_contra hdne2
        have hdp : 0 < s.data.length := List.length_pos.mpr hdne2
        have hLhead := forall2_getD default [] s.mins s.data 0 hf (by omega)
        have hmem : s.mins.getD 0 default ∈ s.data.flatten := by
          have h2 := @List.mem_of_mem_head? α (s.data.getD 0 [])
            (s.mins.getD 0 default) (by rw [hLhead]; rfl)
          rw [flatten_decomp s.data 0 hdp]
          simp only [List.mem_append]
          exact Or.inl (Or.inr h2)
        rw [hflat] at hmem
        simp at hmem
      have hmins : s.mins = [] := by
        have h2 : s.mins.length = 0 := by rw [hm, hd]; rfl
        exact List.length_eq_zero.mp h2
      rw [hd, hmins]
      simpa using List.Forall₂.cons (by rfl) List.Forall₂.nil
    · simp [hflat, intLen]
  · have hdne : s.data ≠ [] := inv_data_ne s hf hlen h0
    have hdpos : 0 < s.data.length := List.length_pos.mpr hdne
    have hmpos : 0 < s.mins.length := by omega
    by_cases hfr : v < s.mins.headD default
    · -- front branch
      have hvall : ∀ x ∈ s.data.flatten, v ≤ x := by
        intro x hx
        have h1 : s.mins.getD 0 default ≤ x := by
          have h2 := min_le_drop s.data s.mins 0 hdpos hp hf
          exact h2 x (by simpa using hx)
        have h3 : v < s.mins.getD 0 default := by
          rw [← headD_eq_getD_zero]
          exact hfr
        exact le_of_lt (lt_of_lt_of_le h3 h1)
      simp only [SortedList.appendOp, if_neg h0, if_pos hfr]
      by_cases hsp : SortedList.CHUNKSIZE < (s.data.headD []).length / 2
      · rw [if_pos hsp]
        have hD0 : s.data.headD [] = s.data.getD 0 [] := headD_eq_getD_zero _ _
        have hlen2a : 1 ≤ (s.data.headD []).length / 2 := by
          have h2 : (1024 : Nat) < (s.data.headD []).length / 2 := hsp
          omega
        have hlen2b : (s.data.headD []).length / 2 < (s.data.getD 0 []).length := by
          rw [← hD0]
          have h2 : (1024 : Nat) < (s.data.headD []).length / 2 := hsp
          omega
        obtain ⟨hfl1, hff1⟩ := split_preserves s.data s.mins 0
          ((s.data.headD []).length / 2) hf hdpos hlen2a hlen2b
        simp only [zero_add, ← hD0] at hfl1 hff1
        have hfne : s.data.flatten ≠ [] := by
          intro hnil
          rw [hnil] at hlen
          simp [intLen] at hlen
          exact h0 hlen
        have hneA : ((s.data.set 0 ((s.data.headD []).take
            ((s.data.headD []).length / 2))).insertIdx 1
            ((s.data.headD []).drop ((s.data.headD []).length / 2))) ≠ [] := by
          intro hnil
          rw [hnil] at hfl1
          exact hfne (by rw [← hfl1]; rfl)
        have hpA := hp
        rw [← hfl1] at hpA
        have hvA : ∀ x ∈ ((s.data.set 0 ((s.data.headD []).take
            ((s.data.headD []).length / 2))).insertIdx 1
            ((s.data.headD []).drop ((s.data.headD []).length / 2))).flatten,
            v ≤ x := by
          rw [hfl1]
          exact hvall
        obtain ⟨c1, c2, c3⟩ := front_ins_preserves _ _ v hpA hff1 hneA hvA
        unfold SortedList.Inv
        refine ⟨by simpa using c1, by simpa using c2, ?_⟩
        rw [hfl1] at c3
        show s.len_ + 1 = intLen _
        simp only [intLen] at hlen ⊢
        rw [c3]
        omega
      · rw [if_neg hsp]
        obtain ⟨c1, c2, c3⟩ := front_ins_preserves s.data s.mins v hp hf hdne hvall
        cases hl : s.lens with
        | none =>
          simp only [hl]
          unfold SortedList.Inv
          refine ⟨by simpa using c1, by simpa using c2, ?_⟩
          show s.len_ + 1 = intLen _
          simp only [intLen] at hlen ⊢
          rw [c3]
          omega
        | some fen =>
          simp only [hl]
          unfold SortedList.Inv
          refine ⟨by simpa using c1, by simpa using c2, ?_⟩
          show s.len_ + 1 = intLen _
          simp only [intLen] at hlen ⊢
          rw [c3]
          omega
    · by_cases hbk : s.mins.getLastD default ≤ v
      · -- back branch
        simp only [SortedList.appendOp, if_neg h0, if_neg hfr, if_pos hbk]
        have hLb : s.data.getLastD [] = s.data.getD (s.data.length - 1) [] :=
          getLastD_eq_getD _ _
        have hmb : s.mins.getLastD default = s.mins.getD (s.mins.length - 1) default :=
          getLastD_eq_getD _ _
        have hidx : s.mins.length - 1 = s.data.length - 1 := by omega
        have hminsb : s.mins.getD (s.data.length - 1) default ≤ v := by
          rw [← hidx, ← hmb]
          exact hbk
        have hheadb : (s.data.getD (s.data.length - 1) []).head? =
            some (s.mins.getD (s.data.length - 1) default) := by
          rw [← hidx]
          exact forall2_getD default [] s.mins s.data (s.mins.length - 1) hf (by omega)
        have hmemb : s.mins.getD (s.data.length - 1) default ∈
            s.data.getD (s.data.length - 1) [] :=
          List.mem_of_mem_head? (by rw [hheadb]; rfl)
        have hlow : ∀ a ∈ (s.data.take (s.data.length - 1)).flatten, a ≤ v := by
          intro a ha
          have hb := cross_take_seg s.data (s.data.length - 1) (by omega) hp a ha
            _ hmemb
          exact le_trans hb hminsb
        have hhigh : ∀ c ∈ (s.data.drop ((s.data.length - 1) + 1)).flatten, v ≤ c := by
          have hDL : s.data.length - 1 + 1 = s.data.length := by omega
          rw [hDL, List.drop_length]
          intro c hc
          simp at hc
        by_cases hsp : SortedList.CHUNKSIZE < (s.data.getLastD []).length / 2
        · rw [if_pos hsp]
          have hlen2a : 1 ≤ (s.data.getLastD []).length / 2 := by
            have h2 : (1024 : Nat) < (s.data.getLastD []).length / 2 := hsp
            omega
          have hlen2b : (s.data.getLastD []).length / 2 <
              (s.data.getD (s.data.length - 1) []).length := by
            rw [← hLb]
            have h2 : (1024 : Nat) < (s.data.getLastD []).length / 2 := hsp
            omega
          obtain ⟨hfl1, hff1⟩ := split_preserves s.data s.mins (s.data.length - 1)
            ((s.data.getLastD []).length / 2) hf (by omega) hlen2a hlen2b
          rw [← hLb] at hfl1 hff1
          set X := s.data.set (s.data.length - 1)
            ((s.data.getLastD []).take ((s.data.getLastD []).length / 2)) with hX
          set Y := (s.data.getLastD []).drop ((s.data.getLastD []).length / 2) with hY
          set w := (s.data.getLastD []).getD ((s.data.getLastD []).length / 2) default
            with hw
          have hXlen : X.length = s.data.length := List.length_set _ _ _
          have hIA : X.insertIdx (s.data.length - 1 + 1) Y = X ++ [Y] :=
            append_singleton_eq_insertIdx X Y _ (by omega)
          have hIM : s.mins.insertIdx (s.data.length - 1 + 1) w = s.mins ++ [w] :=
            append_singleton_eq_insertIdx s.mins w _ (by omega)
          rw [hIA] at hfl1 hff1
          rw [hIM] at hff1
          have hD1len : (X ++ [Y]).length = s.data.length + 1 := by
            simp [hXlen]
          have hM1len : (s.mins ++ [w]).length = s.data.length + 1 := by
            simp [hm]
          have hp1 : (X ++ [Y]).flatten.Pairwise (· ≤ ·) := by
            rw [hfl1]
            exact hp
          have hgetY : (X ++ [Y]).getD s.data.length [] = Y := by
            rw [show s.data.length = X.length from hXlen.symm]
            exact getD_concat_self _ _ _
          have hDs : (s.data.getLastD []).Pairwise (· ≤ ·) := by
            rw [hLb]
            exact seg_sorted s.data _ hp
          have hYhead : Y.head? = some w := by
            rw [hY, hw, List.head?_drop]
            rw [hLb] at hlen2b ⊢
            rw [List.getElem?_eq_getElem hlen2b, List.getD_eq_getElem _ _ hlen2b]
          have hYne : Y ≠ [] := by
            intro hnil
            rw [hnil] at hYhead
            simp at hYhead
          have hheadw : s.mins.getD (s.data.length - 1) default ≤ w := by
            have h1 : (s.data.getLastD []).headD default =
                s.mins.getD (s.data.length - 1) default := by
              rw [hLb]
              exact headD_of_head? _ default _ hheadb
            have h2 : w ∈ s.data.getLastD [] := by
              rw [hw]
              exact getD_mem _ _ default (by rw [hLb]; omega)
            rw [← h1]
            exact sorted_head_le _ default w hDs h2
          have hlast1 : (X ++ [Y]).getLastD [] = Y := getLastD_concat _ _ _
          have hminslast1 : (s.mins ++ [w]).getLastD default = w := getLastD_concat _ _ _
          have hflne : (X ++ [Y]).flatten.length = s.data.flatten.length := by
            rw [hfl1]
          have hXflat : X.flatten = (s.data.take (s.data.length - 1)).flatten ++
              (s.data.getLastD []).take ((s.data.getLastD []).length / 2) := by
            rw [hX, flatten_set s.data (s.data.length - 1) _ (by omega)]
            have hm1 : s.data.length - 1 + 1 = s.data.length := by omega
            rw [hm1, List.drop_length]
            simp
          have hlowA : ∀ a ∈ ((X ++ [Y]).take s.data.length).flatten, a ≤ w := by
            rw [show s.data.length = X.length from hXlen.symm, List.take_left]
            intro a ha
            rw [hXflat] at ha
            rcases List.mem_append.mp ha with ha | ha
            · have hb := cross_take_seg s.data (s.data.length - 1) (by omega) hp a ha
              exact le_trans (hb _ hmemb) hheadw
            · exact take_le_getD _ _ hDs (by rw [hLb] at hlen2b ⊢; exact hlen2b) a ha
          cases hl : s.lens with
          | none =>
            simp only [hl]
            try dsimp only
            by_cases hC : (s.mins ++ [w]).getLastD default < v
            · rw [if_pos hC]
              rw [hminslast1] at hC
              have halign : (X ++ [Y]).length - 1 = s.data.length := by omega
              rw [halign, hlast1]
              simp only [SortedList.insortR]
              have hlow2 : ∀ a ∈ ((X ++ [Y]).take s.data.length).flatten, a ≤ v :=
                fun a ha => le_of_lt (lt_of_le_of_lt (hlowA a ha) hC)
              have hhigh2 : ∀ c ∈ ((X ++ [Y]).drop (s.data.length + 1)).flatten, v ≤ c := by
                rw [← hD1len, List.drop_length]
                intro c hc
                simp at hc
              obtain ⟨c1, c2, c3⟩ := ins_preserves (X ++ [Y]) (s.mins ++ [w])
                s.data.length v hp1 hff1 (by omega) hlow2 hhigh2
              rw [hgetY] at c1 c2 c3
              have hbpos : 1 ≤ SortedList.bisectF Y v :=
                bisectF_pos Y v hYne
                  (by rw [headD_of_head? Y default w hYhead]; exact le_of_lt hC)
              rw [if_neg (by omega)] at c2
              try split_ifs
              all_goals (
                unfold SortedList.Inv
                refine ⟨by simpa using c1, by simpa using c2, ?_⟩
                show s.len_ + 1 = intLen _
                simp only [intLen] at hlen ⊢
                rw [c3]
                omega)
            · rw [if_neg hC]
              rw [hminslast1] at hC
              have hvw : v ≤ w := le_of_not_lt hC
              have halign2 : (X ++ [Y]).length - 2 = s.data.length - 1 := by omega
              have halignM : (s.mins ++ [w]).length - 2 = s.data.length - 1 := by omega
              rw [halign2, halignM]
              have hgetX : (X ++ [Y]).getD (s.data.length - 1) [] =
                  (s.data.getLastD []).take ((s.data.getLastD []).length / 2) := by
                rw [getD_append_lt X [Y] _ [] (by omega), hX]
                exact getD_set_self2 _ _ (by omega) _ _
              rw [hgetX]
              have hlowB : ∀ a ∈ ((X ++ [Y]).take (s.data.length - 1)).flatten, a ≤ v := by
                rw [List.take_append_of_le_length (by omega : s.data.length - 1 ≤ X.length)]
                rw [hX, take_set_of_le _ _ _ _ (le_refl _)]
                exact hlow
              have hhighB : ∀ c ∈ ((X ++ [Y]).drop ((s.data.length - 1) + 1)).flatten,
                  v ≤ c := by
                rw [show s.data.length - 1 + 1 = X.length from by omega, List.drop_left]
                intro c hc
                simp only [List.flatten_cons, List.flatten_nil, List.append_nil] at hc
                have hYs : Y.Pairwise (· ≤ ·) := by
                  rw [hY]
                  exact hDs.sublist (List.drop_sublist _ _)
                have hYhd : Y.headD default = w := headD_of_head? Y default w hYhead
                calc v ≤ w := hvw
                _ ≤ c := by
                    rw [← hYhd]
                    exact sorted_head_le Y default c hYs hc
              obtain ⟨c1, c2, c3⟩ := ins_preserves (X ++ [Y]) (s.mins ++ [w])
                (s.data.length - 1) v hp1 hff1 (by omega) hlowB hhighB
              rw [hgetX] at c1 c2 c3
              by_cases hj : SortedList.bisectF
                  ((s.data.getLastD []).take ((s.data.getLastD []).length / 2)) v = 0
              · rw [if_pos hj] at c2 ⊢
                try split_ifs
                all_goals (
                  unfold SortedList.Inv
                  refine ⟨by simpa using c1, by simpa using c2, ?_⟩
                  show s.len_ + 1 = intLen _
                  simp only [intLen] at hlen ⊢
                  rw [c3]
                  omega)
              · rw [if_neg hj] at c2 ⊢
                try split_ifs
                all_goals (
                  unfold SortedList.Inv
                  refine ⟨by simpa using c1, by simpa using c2, ?_⟩
                  show s.len_ + 1 = intLen _
                  simp only [intLen] at hlen ⊢
                  rw [c3]
                  omega)
          | some fen =>
            simp only [hl]
            try dsimp only
            by_cases hd2 : (X ++ [Y]).length = 2
            · rw [if_pos hd2]
              try dsimp only
              by_cases hC : (s.mins ++ [w]).getLastD default < v
              · rw [if_pos hC]
                rw [hminslast1] at hC
                have halign : (X ++ [Y]).length - 1 = s.data.length := by omega
                rw [halign, hlast1]
                simp only [SortedList.insortR]
                have hlow2 : ∀ a ∈ ((X ++ [Y]).take s.data.length).flatten, a ≤ v :=
                  fun a ha => le_of_lt (lt_of_le_of_lt (hlowA a ha) hC)
                have hhigh2 : ∀ c ∈ ((X ++ [Y]).drop (s.data.length + 1)).flatten, v ≤ c := by
                  rw [← hD1len, List.drop_length]
                  intro c hc
                  simp at hc
                obtain ⟨c1, c2, c3⟩ := ins_preserves (X ++ [Y]) (s.mins ++ [w])
                  s.data.length v hp1 hff1 (by omega) hlow2 hhigh2
                rw [hgetY] at c1 c2 c3
                have hbpos : 1 ≤ SortedList.bisectF Y v :=
                  bisectF_pos Y v hYne
                    (by rw [headD_of_head? Y default w hYhead]; exact le_of_lt hC)
                rw [if_neg (by omega)] at c2
                try split_ifs
                all_goals (
                  unfold SortedList.Inv
                  refine ⟨by simpa using c1, by simpa using c2, ?_⟩
                  show s.len_ + 1 = intLen _
                  simp only [intLen] at hlen ⊢
                  rw [c3]
                  omega)
              · rw [if_neg hC]
                rw [hminslast1] at hC
                have hvw : v ≤ w := le_of_not_lt hC
                have halign2 : (X ++ [Y]).length - 2 = s.data.length - 1 := by omega
                have halignM : (s.mins ++ [w]).length - 2 = s.data.length - 1 := by omega
                rw [halign2, halignM]
                have hgetX : (X ++ [Y]).getD (s.data.length - 1) [] =
                    (s.data.getLastD []).take ((s.data.getLastD []).length / 2) := by
                  rw [getD_append_lt X [Y] _ [] (by omega), hX]
                  exact getD_set_self2 _ _ (by omega) _ _
                rw [hgetX]
                have hlowB : ∀ a ∈ ((X ++ [Y]).take (s.data.length - 1)).flatten, a ≤ v := by
                  rw [List.take_append_of_le_length (by omega : s.data.length - 1 ≤ X.length)]
                  rw [hX, take_set_of_le _ _ _ _ (le_refl _)]
                  exact hlow
                have hhighB : ∀ c ∈ ((X ++ [Y]).drop ((s.data.length - 1) + 1)).flatten,
                    v ≤ c := by
                  rw [show s.data.length - 1 + 1 = X.length from by omega, List.drop_left]
                  intro c hc
                  simp only [List.flatten_cons, List.flatten_nil, List.append_nil] at hc
                  have hYs : Y.Pairwise (· ≤ ·) := by
                    rw [hY]
                    exact hDs.sublist (List.drop_sublist _ _)
                  have hYhd : Y.headD default = w := headD_of_head? Y default w hYhead
                  calc v ≤ w := hvw
                  _ ≤ c := by
                      rw [← hYhd]
                      exact sorted_head_le Y default c hYs hc
                obtain ⟨c1, c2, c3⟩ := ins_preserves (X ++ [Y]) (s.mins ++ [w])
                  (s.data.length - 1) v hp1 hff1 (by omega) hlowB hhighB
                rw [hgetX] at c1 c2 c3
                by_cases hj : SortedList.bisectF
                    ((s.data.getLastD []).take ((s.data.getLastD []).length / 2)) v = 0
                · rw [if_pos hj] at c2 ⊢
                  try split_ifs
                  all_goals (
                    unfold SortedList.Inv
                    refine ⟨by simpa using c1, by simpa using c2, ?_⟩
                    show s.len_ + 1 = intLen _
                    simp only [intLen] at hlen ⊢
                    rw [c3]
                    omega)
                · rw [if_neg hj] at c2 ⊢
                  try split_ifs
                  all_goals (
                    unfold SortedList.Inv
                    refine ⟨by simpa using c1, by simpa using c2, ?_⟩
                    show s.len_ + 1 = intLen _
                    simp only [intLen] at hlen ⊢
                    rw [c3]
                    omega)
            · rw [if_neg hd2]
              try dsimp only
              by_cases hC : (s.mins ++ [w]).getLastD default < v
              · rw [if_pos hC]
                rw [hminslast1] at hC
                have halign : (X ++ [Y]).length - 1 = s.data.length := by omega
                rw [halign, hlast1]
                simp only [SortedList.insortR]
                have hlow2 : ∀ a ∈ ((X ++ [Y]).take s.data.length).flatten, a ≤ v :=
                  fun a ha => le_of_lt (lt_of_le_of_lt (hlowA a ha) hC)
                have hhigh2 : ∀ c ∈ ((X ++ [Y]).drop (s.data.length + 1)).flatten, v ≤ c := by
                  rw [← hD1len, List.drop_length]
                  intro c hc
                  simp at hc
                obtain ⟨c1, c2, c3⟩ := ins_preserves (X ++ [Y]) (s.mins ++ [w])
                  s.data.length v hp1 hff1 (by omega) hlow2 hhigh2
                rw [hgetY] at c1 c2 c3
                have hbpos : 1 ≤ SortedList.bisectF Y v :=
                  bisectF_pos Y v hYne
                    (by rw [headD_of_head? Y default w hYhead]; exact le_of_lt hC)
                rw [if_neg (by omega)] at c2
                try split_ifs
                all_goals (
                  unfold SortedList.Inv
                  refine ⟨by simpa using c1, by simpa using c2, ?_⟩
                  show s.len_ + 1 = intLen _
                  simp only [intLen] at hlen ⊢
                  rw [c3]
                  omega)
              · rw [if_neg hC]
                rw [hminslast1] at hC
                have hvw : v ≤ w := le_of_not_lt hC
                have halign2 : (X ++ [Y]).length - 2 = s.data.length - 1 := by omega
                have halignM : (s.mins ++ [w]).length - 2 = s.data.length - 1 := by omega
                rw [halign2, halignM]
                have hgetX : (X ++ [Y]).getD (s.data.length - 1) [] =
                    (s.data.getLastD []).take ((s.data.getLastD []).length / 2) := by
                  rw [getD_append_lt X [Y] _ [] (by omega), hX]
                  exact getD_set_self2 _ _ (by omega) _ _
                rw [hgetX]
                have hlowB : ∀ a ∈ ((X ++ [Y]).take (s.data.length - 1)).flatten, a ≤ v := by
                  rw [List.take_append_of_le_length (by omega : s.data.length - 1 ≤ X.length)]
                  rw [hX, take_set_of_le _ _ _ _ (le_refl _)]
                  exact hlow
                have hhighB : ∀ c ∈ ((X ++ [Y]).drop ((s.data.length - 1) + 1)).flatten,
                    v ≤ c := by
                  rw [show s.data.length - 1 + 1 = X.length from by omega, List.drop_left]
                  intro c hc
                  simp only [List.flatten_cons, List.flatten_nil, List.append_nil] at hc
                  have hYs : Y.Pairwise (· ≤ ·) := by
                    rw [hY]
                    exact hDs.sublist (List.drop_sublist _ _)
                  have hYhd : Y.headD default = w := headD_of_head? Y default w hYhead
                  calc v ≤ w := hvw
                  _ ≤ c := by
                      rw [← hYhd]
                      exact sorted_head_le Y default c hYs hc
                obtain ⟨c1, c2, c3⟩ := ins_preserves (X ++ [Y]) (s.mins ++ [w])
                  (s.data.length - 1) v hp1 hff1 (by omega) hlowB hhighB
                rw [hgetX] at c1 c2 c3
                by_cases hj : SortedList.bisectF
                    ((s.data.getLastD []).take ((s.data.getLastD []).length / 2)) v = 0
                · rw [if_pos hj] at c2 ⊢
                  try split_ifs
                  all_goals (
                    unfold SortedList.Inv
                    refine ⟨by simpa using c1, by simpa using c2, ?_⟩
                    show s.len_ + 1 = intLen _
                    simp only [intLen] at hlen ⊢
                    rw [c3]
                    omega)
                · rw [if_neg hj] at c2 ⊢
                  try split_ifs
                  all_goals (
                    unfold SortedList.Inv
                    refine ⟨by simpa using c1, by simpa using c2, ?_⟩
                    show s.len_ + 1 = intLen _
                    simp only [intLen] at hlen ⊢
                    rw [c3]
                    omega)
        · rw [if_neg hsp]
          obtain ⟨c1, c2, c3⟩ := ins_preserves s.data s.mins (s.data.length - 1) v
            hp hf (by omega) hlow hhigh
          rw [hLb, hidx]
          by_cases hj : SortedList.bisectF (s.data.getD (s.data.length - 1) []) v = 0
          · rw [if_pos hj] at c2 ⊢
            cases hl : s.lens with
            | none =>
              simp only [hl]
              unfold SortedList.Inv
              refine ⟨by simpa using c1, by simpa using c2, ?_⟩
              show s.len_ + 1 = intLen _
              simp only [intLen] at hlen ⊢
              rw [c3]
              omega
            | some fen =>
              simp only [hl]
              unfold SortedList.Inv
              refine ⟨by simpa using c1, by simpa using c2, ?_⟩
              show s.len_ + 1 = intLen _
              simp only [intLen] at hlen ⊢
              rw [c3]
              omega
          · rw [if_neg hj] at c2 ⊢
            cases hl : s.lens with
            | none =>
              simp only [hl]
              unfold SortedList.Inv
              refine ⟨by simpa using c1, by simpa using c2, ?_⟩
              show s.len_ + 1 = intLen _
              simp only [intLen] at hlen ⊢
              rw [c3]
              omega
            | some fen =>
              simp only [hl]
              unfold SortedList.Inv
              refine ⟨by simpa using c1, by simpa using c2, ?_⟩
              show s.len_ + 1 = intLen _
              simp only [intLen] at hlen ⊢
              rw [c3]
              omega
      · -- interior insertion
        have h0f : s.mins.headD default ≤ v := not_lt.mp hfr
        have hvlt : v < s.mins.getLastD default := not_le.mp hbk
        have hm2 : 2 ≤ s.mins.length := by
          by_contra hc
          push_neg at hc
          have h1 : s.mins.length = 1 := by omega
          rw [headD_eq_getD_zero] at h0f
          rw [getLastD_eq_getD, h1] at hvlt
          simp only [Nat.sub_self] at hvlt
          exact absurd h0f (not_le.mpr hvlt)
        have hms : s.mins.Pairwise (· ≤ ·) := mins_sorted s.data s.mins hp hf
        simp only [SortedList.appendOp, if_neg h0, if_neg hfr, if_neg hbk]
        set i0 := SortedList.bisectLH s.mins v 0 (s.mins.length - 1) with hi0
        obtain ⟨hi1, hi2, hile, hig⟩ := interior_bisect_bounds s.mins v hms hm2
          (by rw [← headD_eq_getD_zero]; exact h0f)
        rw [← hi0] at hi1 hi2 hile hig
        have hvi : v < s.mins.getD i0 default := by
          rcases Nat.eq_or_lt_of_le hi2 with he | hlt
          · rw [he, ← getLastD_eq_getD]
            exact hvlt
          · exact hig hlt
        have hi1d : i0 - 1 < s.data.length := by omega
        have hi0d : i0 < s.data.length := by omega
        have hheadi : (s.data.getD (i0 - 1) []).head? =
            some (s.mins.getD (i0 - 1) default) :=
          forall2_getD default [] s.mins s.data (i0 - 1) hf (by omega)
        have hmemi : s.mins.getD (i0 - 1) default ∈ s.data.getD (i0 - 1) [] :=
          List.mem_of_mem_head? (by rw [hheadi]; rfl)
        have hv_lo : ∀ a ∈ (s.data.take (i0 - 1)).flatten, a ≤ v := by
          intro a ha
          have hb := cross_take_seg s.data (i0 - 1) hi1d hp a ha _ hmemi
          exact le_trans hb hile
        have hv_hi : ∀ c ∈ (s.data.drop i0).flatten, v ≤ c := by
          intro c hc
          have hb := min_le_drop s.data s.mins i0 hi0d hp hf c hc
          exact le_of_lt (lt_of_lt_of_le hvi hb)
        have hDs : (s.data.getD (i0 - 1) []).Pairwise (· ≤ ·) :=
          seg_sorted s.data _ hp
        by_cases hsp : SortedList.CHUNKSIZE <
            (s.data.getD (i0 - 1) []).length / 2
        · rw [if_pos hsp]
          have hlen2a : 1 ≤ (s.data.getD (i0 - 1) []).length / 2 := by
            have h2 : (1024 : Nat) < (s.data.getD (i0 - 1) []).length / 2 := hsp
            omega
          have hlen2b : (s.data.getD (i0 - 1) []).length / 2 <
              (s.data.getD (i0 - 1) []).length := by
            have h2 : (1024 : Nat) < (s.data.getD (i0 - 1) []).length / 2 := hsp
            omega
          obtain ⟨hfl1, hff1⟩ := split_preserves s.data s.mins (i0 - 1)
            ((s.data.getD (i0 - 1) []).length / 2) hf hi1d hlen2a hlen2b
          rw [show i0 - 1 + 1 = i0 from by omega] at hfl1 hff1
          set X := s.data.set (i0 - 1) ((s.data.getD (i0 - 1) []).take
            ((s.data.getD (i0 - 1) []).length / 2)) with hX
          set Y := (s.data.getD (i0 - 1) []).drop
            ((s.data.getD (i0 - 1) []).length / 2) with hY
          set w := (s.data.getD (i0 - 1) []).getD
            ((s.data.getD (i0 - 1) []).length / 2) default with hw
          have hXlen : X.length = s.data.length := List.length_set _ _ _
          have hile2 : i0 ≤ X.length := by omega
          have hD1len : (X.insertIdx i0 Y).length = s.data.length + 1 := by
            rw [List.length_insertIdx i0 X hile2, hXlen]
          have hgeti : (X.insertIdx i0 Y).getD i0 [] = Y :=
            getD_insertIdx_self X i0 Y [] hile2
          have hgetim1 : (X.insertIdx i0 Y).getD (i0 - 1) [] =
              (s.data.getD (i0 - 1) []).take ((s.data.getD (i0 - 1) []).length / 2) := by
            rw [getD_insertIdx_lt X i0 (i0 - 1) Y [] (by omega), hX]
            exact getD_set_self2 _ _ hi1d _ _
          have hp1 : (X.insertIdx i0 Y).flatten.Pairwise (· ≤ ·) := by
            rw [hfl1]
            exact hp
          have hYhead : Y.head? = some w := by
            rw [hY, hw, List.head?_drop, List.getElem?_eq_getElem hlen2b,
              List.getD_eq_getElem _ _ hlen2b]
          have hYne : Y ≠ [] := by
            intro hnil
            rw [hnil] at hYhead
            simp at hYhead
          have hYs : Y.Pairwise (· ≤ ·) := by
            rw [hY]
            exact hDs.sublist (List.drop_sublist _ _)
          have htfl : ((X.insertIdx i0 Y).take i0).flatten =
              (s.data.take (i0 - 1)).flatten ++
                (s.data.getD (i0 - 1) []).take ((s.data.getD (i0 - 1) []).length / 2) := by
            rw [take_insertIdx_of_le X i0 i0 Y (le_refl _)]
            have h2 : X.take i0 = X.take (i0 - 1 + 1) := by
              rw [show i0 - 1 + 1 = i0 from by omega]
            rw [h2, flatten_take_succ X (i0 - 1) (by omega), hX,
              take_set_of_le _ _ _ _ (le_refl _)]
            congr 1
            exact getD_set_self2 _ _ hi1d _ _
          by_cases hcmp : ((X.insertIdx i0 Y).getD i0 []).headD default < v
          · rw [if_pos hcmp]
            rw [hgeti] at hcmp
            have hwv : w < v := by
              rw [headD_of_head? Y default w hYhead] at hcmp
              exact hcmp
            rw [hgeti]
            simp only [SortedList.insortR]
            have hlowI : ∀ a ∈ ((X.insertIdx i0 Y).take i0).flatten, a ≤ v := by
              rw [htfl]
              intro a ha
              rcases List.mem_append.mp ha with ha | ha
              · exact hv_lo a ha
              · have h2 := take_le_getD _ _ hDs hlen2b a ha
                exact le_of_lt (lt_of_le_of_lt h2 hwv)
            have hhighI : ∀ c ∈ ((X.insertIdx i0 Y).drop (i0 + 1)).flatten, v ≤ c := by
              rw [drop_insertIdx_succ X i0 Y hile2, hX,
                drop_set_of_lt _ _ _ _ (by omega)]
              exact hv_hi
            obtain ⟨c1, c2, c3⟩ := ins_preserves (X.insertIdx i0 Y)
              (s.mins.insertIdx i0 w) i0 v hp1 hff1 (by omega) hlowI hhighI
            rw [hgeti] at c1 c2 c3
            have hbpos : 1 ≤ SortedList.bisectF Y v :=
              bisectF_pos Y v hYne
                (by rw [headD_of_head? Y default w hYhead]; exact le_of_lt hwv)
            rw [if_neg (by omega)] at c2
            unfold SortedList.Inv
            refine ⟨by simpa using c1, by simpa using c2, ?_⟩
            show s.len_ + 1 = intLen _
            simp only [intLen] at hlen ⊢
            rw [c3, hfl1]
            omega
          · rw [if_neg hcmp]
            rw [hgeti] at hcmp
            have hvw : v ≤ w := by
              rw [headD_of_head? Y default w hYhead] at hcmp
              exact le_of_not_lt hcmp
            rw [hgetim1]
            have hlowB : ∀ a ∈ ((X.insertIdx i0 Y).take (i0 - 1)).flatten, a ≤ v := by
              rw [take_insertIdx_of_le X i0 (i0 - 1) Y (by omega), hX,
                take_set_of_le _ _ _ _ (le_refl _)]
              exact hv_lo
            have hhighB : ∀ c ∈ ((X.insertIdx i0 Y).drop (i0 - 1 + 1)).flatten,
                v ≤ c := by
              rw [show i0 - 1 + 1 = i0 from by omega, drop_insertIdx_self X i0 Y hile2]
              intro c hc
              rw [List.flatten_cons, List.mem_append] at hc
              rcases hc with hc | hc
              · calc v ≤ w := hvw
                _ ≤ c := by
                    rw [← headD_of_head? Y default w hYhead]
                    exact sorted_head_le Y default c hYs hc
              · rw [hX, drop_set_of_lt _ _ _ _ (by omega)] at hc
                exact hv_hi c hc
            obtain ⟨c1, c2, c3⟩ := ins_preserves (X.insertIdx i0 Y)
              (s.mins.insertIdx i0 w) (i0 - 1) v hp1 hff1 (by omega) hlowB hhighB
            rw [hgetim1] at c1 c2 c3
            by_cases hj : SortedList.bisectF ((s.data.getD (i0 - 1) []).take
                ((s.data.getD (i0 - 1) []).length / 2)) v = 0
            · rw [if_pos hj] at c2 ⊢
              unfold SortedList.Inv
              refine ⟨by simpa using c1, by simpa using c2, ?_⟩
              show s.len_ + 1 = intLen _
              simp only [intLen] at hlen ⊢
              rw [c3, hfl1]
              omega
            · rw [if_neg hj] at c2 ⊢
              unfold SortedList.Inv
              refine ⟨by simpa using c1, by simpa using c2, ?_⟩
              show s.len_ + 1 = intLen _
              simp only [intLen] at hlen ⊢
              rw [c3, hfl1]
              omega
        · rw [if_neg hsp]
          obtain ⟨c1, c2, c3⟩ := ins_preserves s.data s.mins (i0 - 1) v hp hf hi1d
            hv_lo (by rw [show i0 - 1 + 1 = i0 from by omega]; exact hv_hi)
          by_cases hj : SortedList.bisectF (s.data.getD (i0 - 1) []) v = 0
          · rw [if_pos hj] at c2 ⊢
            cases hl : s.lens with
            | none =>
              simp only [hl]
              unfold SortedList.Inv
              refine ⟨by simpa using c1, by simpa using c2, ?_⟩
              show s.len_ + 1 = intLen _
              simp only [intLen] at hlen ⊢
              rw [c3]
              omega
            | some fen =>
              simp only [hl]
              unfold SortedList.Inv
              refine ⟨by simpa using c1, by simpa using c2, ?_⟩
              show s.len_ + 1 = intLen _
              simp only [intLen] at hlen ⊢
              rw [c3]
              omega
          · rw [if_neg hj] at c2 ⊢
            cases hl : s.lens with
            | none =>
              simp only [hl]
              unfold SortedList.Inv
              refine ⟨by simpa using c1, by simpa using c2, ?_⟩
              show s.len_ + 1 = intLen _
              simp only [intLen] at hlen ⊢
              rw [c3]
              omega
            | some fen =>
              simp only [hl]
              unfold SortedList.Inv
              refine ⟨by simpa using c1, by simpa using c2, ?_⟩
              show s.len_ + 1 = intLen _
              simp only [intLen] at hlen ⊢
              rw [c3]
              omega

theorem discard_preserves (s : SortedList.State α) (v : α) (h : SortedList.Inv s) :
    SortedList.Inv (SortedList.discardOp s v) := by
  obtain ⟨hp, hf, hlen⟩ := h
  have hm : s.mins.length = s.data.length := List.Forall₂.length_eq hf
  by_cases h0 : s.len_ = 0
  · simp only [SortedList.discardOp, if_pos h0]
    exact ⟨hp, hf, hlen⟩
  · have hdne : s.data ≠ [] := inv_data_ne s hf hlen h0
    have hdpos : 0 < s.data.length := List.length_pos.mpr hdne
    simp only [SortedList.discardOp, if_neg h0]
    by_cases hr : ¬ (s.mins.headD default ≤ v ∧
        v ≤ (s.data.getLastD []).getLastD default)
    · rw [if_pos hr]
      exact ⟨hp, hf, hlen⟩
    · rw [if_neg hr]
      set i1 := (if s.mins.getLastD default ≤ v then s.mins.length - 1
        else SortedList.bisectLH s.mins v 1 (s.mins.length - 1) - 1) with hi1
      have hi_lt : i1 < s.data.length := by
        rw [hi1]
        split_ifs with hsplit
        · omega
        · have h2 := bisectLH_le_add s.mins v 1 (s.mins.length - 1)
          omega
      have hheadi : (s.data.getD i1 []).head? = some (s.mins.getD i1 default) :=
        forall2_getD default [] s.mins s.data i1 hf (by omega)
      have hLne : s.data.getD i1 [] ≠ [] := by
        intro hnil
        rw [hnil] at hheadi
        simp at hheadi
      by_cases hL1 : (s.data.getD i1 []).length = 1
      · rw [if_pos hL1]
        by_cases hveq : (s.data.getD i1 []).headD default = v
        · rw [if_pos hveq]
          have hsub : List.Sublist (s.data.eraseIdx i1).flatten s.data.flatten := by
            exact sublist_flatten (List.eraseIdx_sublist _ i1)
          have c1 : (s.data.eraseIdx i1).flatten.Pairwise (· ≤ ·) := hp.sublist hsub
          have c2 := forall2_eraseIdx s.mins s.data i1 hf
          have c3 : (s.data.eraseIdx i1).flatten.length + 1 = s.data.flatten.length := by
            rw [flatten_eraseIdx s.data i1 hi_lt]
            conv_rhs => rw [flatten_decomp s.data i1 hi_lt]
            simp only [List.length_append]
            rw [hL1]
            omega
          cases hl : s.lens with
          | none =>
            simp only [hl]
            unfold SortedList.Inv
            refine ⟨c1, c2, ?_⟩
            show s.len_ - 1 = intLen _
            simp only [intLen] at hlen ⊢
            omega
          | some fen =>
            simp only [hl]
            split_ifs
            all_goals (
              unfold SortedList.Inv
              refine ⟨c1, c2, ?_⟩
              show s.len_ - 1 = intLen _
              simp only [intLen] at hlen ⊢
              omega)
        · rw [if_neg hveq]
          exact ⟨hp, hf, hlen⟩
      · rw [if_neg hL1]
        by_cases hjg : ¬ (0 ≤ (SortedList.bisectF (s.data.getD i1 []) v : Int) - 1 ∧
            (SortedList.bisectF (s.data.getD i1 []) v : Int) - 1 <
              intLen (s.data.getD i1 []))
        · rw [if_pos hjg]
          exact ⟨hp, hf, hlen⟩
        · rw [if_neg hjg]
          push_neg at hjg
          by_cases hne2 : (s.data.getD i1 []).getD
              ((SortedList.bisectF (s.data.getD i1 []) v : Int) - 1).toNat default ≠ v
          · rw [if_pos hne2]
            exact ⟨hp, hf, hlen⟩
          · rw [if_neg hne2]
            have hLlen2 : 2 ≤ (s.data.getD i1 []).length := by
              have h2 := List.length_pos.mpr hLne
              omega
            have hjn_lt : ((SortedList.bisectF (s.data.getD i1 []) v : Int) - 1).toNat <
                (s.data.getD i1 []).length := by
              obtain ⟨hj1, hj2⟩ := hjg
              simp only [intLen] at hj2
              omega
            have hL2ne : (s.data.getD i1 []).eraseIdx
                ((SortedList.bisectF (s.data.getD i1 []) v : Int) - 1).toNat ≠ [] := by
              intro hnil
              have h2 := List.length_eraseIdx_of_lt hjn_lt
              rw [hnil] at h2
              simp only [List.length_nil] at h2
              omega
            obtain ⟨d1, d2, d3⟩ := del_preserves s.data s.mins i1
              ((SortedList.bisectF (s.data.getD i1 []) v : Int) - 1).toNat
              hp hf hi_lt hjn_lt hL2ne
            try dsimp only
            split_ifs with hg1 hjz hg2 hjz2
            · -- in place, deleted the segment head
              cases hl : s.lens with
              | none =>
                simp only [hl]
                unfold SortedList.Inv
                refine ⟨by simpa using d1, by simpa using d2, ?_⟩
                show s.len_ - 1 = intLen _
                simp only [intLen] at hlen ⊢
                omega
              | some fen =>
                simp only [hl]
                unfold SortedList.Inv
                refine ⟨by simpa using d1, by simpa using d2, ?_⟩
                show s.len_ - 1 = intLen _
                simp only [intLen] at hlen ⊢
                omega
            · -- in place, interior deletion
              have hjpos : 0 < ((SortedList.bisectF (s.data.getD i1 []) v : Int) -
                  1).toNat := by
                obtain ⟨hj1, hj2⟩ := hjg
                omega
              obtain ⟨e1, e2, e3⟩ := del_preserves_keep s.data s.mins i1
                ((SortedList.bisectF (s.data.getD i1 []) v : Int) - 1).toNat
                hp hf hi_lt hjn_lt hjpos
              cases hl : s.lens with
              | none =>
                simp only [hl]
                unfold SortedList.Inv
                refine ⟨by simpa using e1, by simpa using e2, ?_⟩
                show s.len_ - 1 = intLen _
                simp only [intLen] at hlen ⊢
                omega
              | some fen =>
                simp only [hl]
                unfold SortedList.Inv
                refine ⟨by simpa using e1, by simpa using e2, ?_⟩
                show s.len_ - 1 = intLen _
                simp only [intLen] at hlen ⊢
                omega
            · -- merge into the left neighbour
              have hi1pos : 0 < i1 := hg2.1
              have hD1ne : s.data.getD (i1 - 1) [] ≠ [] := by
                have hh := forall2_getD default [] s.mins s.data (i1 - 1) hf (by omega)
                intro hnil
                rw [hnil] at hh
                simp at hh
              have hgn : (s.data.set i1 ((s.data.getD i1 []).eraseIdx
                  ((SortedList.bisectF (s.data.getD i1 []) v : Int) - 1).toNat)).getD
                  (i1 - 1) [] = s.data.getD (i1 - 1) [] :=
                getD_set_ne2 _ _ _ (by omega) _ _
              rw [hgn]
              have hcomm : ∀ M : List α,
                  (s.data.set i1 ((s.data.getD i1 []).eraseIdx
                    ((SortedList.bisectF (s.data.getD i1 []) v : Int) - 1).toNat)).set
                    (i1 - 1) M =
                  (s.data.set (i1 - 1) M).set i1 ((s.data.getD i1 []).eraseIdx
                    ((SortedList.bisectF (s.data.getD i1 []) v : Int) - 1).toNat) := by
                intro M
                exact List.set_comm _ _ _ (by omega)
              rw [hcomm, eraseIdx_set_self]
              have hfl3 : ((s.data.set (i1 - 1) (s.data.getD (i1 - 1) [] ++
                  (s.data.getD i1 []).eraseIdx
                    ((SortedList.bisectF (s.data.getD i1 []) v : Int) - 1).toNat)).eraseIdx
                  i1).flatten =
                  (s.data.set i1 ((s.data.getD i1 []).eraseIdx
                    ((SortedList.bisectF (s.data.getD i1 []) v : Int) - 1).toNat)).flatten := by
                have hidx : (s.data.set (i1 - 1) (s.data.getD (i1 - 1) [] ++
                    (s.data.getD i1 []).eraseIdx
                      ((SortedList.bisectF (s.data.getD i1 []) v : Int) - 1).toNat)).eraseIdx
                    i1 = (s.data.set (i1 - 1) (s.data.getD (i1 - 1) [] ++
                    (s.data.getD i1 []).eraseIdx
                      ((SortedList.bisectF (s.data.getD i1 []) v : Int) - 1).toNat)).eraseIdx
                    (i1 - 1 + 1) := by
                  congr 1
                  omega
                rw [hidx, flatten_merge s.data (i1 - 1) _ (by omega),
                  flatten_set s.data i1 _ hi_lt]
                have ht1 : s.data.take i1 = s.data.take (i1 - 1 + 1) := by
                  congr 1
                  omega
                rw [ht1, flatten_take_succ s.data (i1 - 1) (by omega)]
                have ht2 : i1 - 1 + 2 = i1 + 1 := by omega
                rw [ht2]
                simp [List.append_assoc]
              have ff := forall2_eraseIdx s.mins
                (s.data.set (i1 - 1) (s.data.getD (i1 - 1) [] ++
                  (s.data.getD i1 []).eraseIdx
                    ((SortedList.bisectF (s.data.getD i1 []) v : Int) - 1).toNat)) i1
                (forall2_set_right default
                  (s.data.getD (i1 - 1) [] ++ (s.data.getD i1 []).eraseIdx
                    ((SortedList.bisectF (s.data.getD i1 []) v : Int) - 1).toNat)
                  s.mins s.data (i1 - 1) hf
                  (fun hlt => by
                    rw [head?_append_left _ _ hD1ne]
                    exact forall2_getD default [] s.mins s.data (i1 - 1) hf hlt))
              unfold SortedList.Inv
              refine ⟨?_, by simpa using ff, ?_⟩
              · have hgoal := d1
                rw [← hfl3] at hgoal
                simpa using hgoal
              · show s.len_ - 1 = intLen _
                simp only [intLen] at hlen ⊢
                rw [hfl3]
                omega
            · -- merge with the right neighbour, head deleted
              simp only [List.length_set] at hg1 hg2
              push_neg at hg1 hg2
              have hi1p : i1 + 1 < s.data.length := by
                by_cases hip : 0 < i1
                · have h2 := hg2 hip
                  push_neg at h2
                  omega
                · omega
              have hD2 : (s.data.set i1 ((s.data.getD i1 []).eraseIdx
                  ((SortedList.bisectF (s.data.getD i1 []) v : Int) - 1).toNat)).getD
                  (i1 + 1) [] = s.data.getD (i1 + 1) [] :=
                getD_set_ne2 _ _ _ (by omega) _ _
              rw [hD2, List.set_set]
              have hdrop : (s.data.drop (i1 + 1)).flatten =
                  s.data.getD (i1 + 1) [] ++ (s.data.drop (i1 + 2)).flatten := by
                rw [List.drop_eq_getElem_cons hi1p, List.flatten_cons,
                  List.getD_eq_getElem s.data [] hi1p]
              have hfl4 : ((s.data.set i1 (((s.data.getD i1 []).eraseIdx
                  ((SortedList.bisectF (s.data.getD i1 []) v : Int) - 1).toNat) ++
                  s.data.getD (i1 + 1) [])).eraseIdx (i1 + 1)).flatten =
                  (s.data.set i1 ((s.data.getD i1 []).eraseIdx
                    ((SortedList.bisectF (s.data.getD i1 []) v : Int) - 1).toNat)).flatten := by
                rw [flatten_merge s.data i1 _ hi1p, flatten_set s.data i1 _ hi_lt, hdrop]
                simp [List.append_assoc]
              have hX : (((s.data.getD i1 []).eraseIdx
                  ((SortedList.bisectF (s.data.getD i1 []) v : Int) - 1).toNat) ++
                  s.data.getD (i1 + 1) []).head? =
                  some (((s.data.getD i1 []).eraseIdx
                    ((SortedList.bisectF (s.data.getD i1 []) v : Int) - 1).toNat).headD
                    default) := by
                rw [head?_append_left _ _ hL2ne]
                exact head?_headD _ default hL2ne
              have ff := merge_set_forall2 s.data s.mins i1
                (((s.data.getD i1 []).eraseIdx
                  ((SortedList.bisectF (s.data.getD i1 []) v : Int) - 1).toNat) ++
                  s.data.getD (i1 + 1) [])
                (((s.data.getD i1 []).eraseIdx
                  ((SortedList.bisectF (s.data.getD i1 []) v : Int) - 1).toNat).headD
                  default) hf hX
              unfold SortedList.Inv
              refine ⟨?_, by simpa using ff, ?_⟩
              · have hgoal := d1
                rw [← hfl4] at hgoal
                simpa using hgoal
              · show s.len_ - 1 = intLen _
                simp only [intLen] at hlen ⊢
                rw [hfl4]
                omega
            · -- merge with the right neighbour, interior deletion
              have hjpos : 0 < ((SortedList.bisectF (s.data.getD i1 []) v : Int) -
                  1).toNat := by
                obtain ⟨hj1, hj2⟩ := hjg
                omega
              obtain ⟨e1, e2, e3⟩ := del_preserves_keep s.data s.mins i1
                ((SortedList.bisectF (s.data.getD i1 []) v : Int) - 1).toNat
                hp hf hi_lt hjn_lt hjpos
              simp only [List.length_set] at hg1 hg2
              push_neg at hg1 hg2
              have hi1p : i1 + 1 < s.data.length := by
                by_cases hip : 0 < i1
                · have h2 := hg2 hip
                  push_neg at h2
                  omega
                · omega
              have hD2 : (s.data.set i1 ((s.data.getD i1 []).eraseIdx
                  ((SortedList.bisectF (s.data.getD i1 []) v : Int) - 1).toNat)).getD
                  (i1 + 1) [] = s.data.getD (i1 + 1) [] :=
                getD_set_ne2 _ _ _ (by omega) _ _
              rw [hD2, List.set_set]
              have hdrop : (s.data.drop (i1 + 1)).flatten =
                  s.data.getD (i1 + 1) [] ++ (s.data.drop (i1 + 2)).flatten := by
                rw [List.drop_eq_getElem_cons hi1p, List.flatten_cons,
                  List.getD_eq_getElem s.data [] hi1p]
              have hfl5 : ((s.data.set i1 (((s.data.getD i1 []).eraseIdx
                  ((SortedList.bisectF (s.data.getD i1 []) v : Int) - 1).toNat) ++
                  s.data.getD (i1 + 1) [])).eraseIdx (i1 + 1)).flatten =
                  (s.data.set i1 ((s.data.getD i1 []).eraseIdx
                    ((SortedList.bisectF (s.data.getD i1 []) v : Int) - 1).toNat)).flatten := by
                rw [flatten_merge s.data i1 _ hi1p, flatten_set s.data i1 _ hi_lt, hdrop]
                simp [List.append_assoc]
              have ff := forall2_eraseIdx s.mins
                (s.data.set i1 (((s.data.getD i1 []).eraseIdx
                  ((SortedList.bisectF (s.data.getD i1 []) v : Int) - 1).toNat) ++
                  s.data.getD (i1 + 1) [])) (i1 + 1)
                (forall2_set_right default
                  (((s.data.getD i1 []).eraseIdx
                    ((SortedList.bisectF (s.data.getD i1 []) v : Int) - 1).toNat) ++
                    s.data.getD (i1 + 1) [])
                  s.mins s.data i1 hf
                  (fun hlt => by
                    rw [head?_append_left _ _ hL2ne, eraseIdx_head_pos _ _ hjpos]
                    exact forall2_getD default [] s.mins s.data i1 hf hlt))
              unfold SortedList.Inv
              refine ⟨?_, by simpa using ff, ?_⟩
              · have hgoal := e1
                rw [← hfl5] at hgoal
                simpa using hgoal
              · show s.len_ - 1 = intLen _
                simp only [intLen] at hlen ⊢
                rw [hfl5]
                omega

theorem headD_getD {β : Type _} (l : List β) (d : β) : l.headD d = l.getD 0 d := by
  cases l <;> rfl

theorem dropLast_eq_eraseIdx_last {β : Type _} (l : List β) :
    l.dropLast = l.eraseIdx (l.length - 1) := by
  induction l with
  | nil => rfl
  | cons a t ih =>
    cases t with
    | nil => rfl
    | cons b t2 =>
      simp only [List.dropLast_cons₂, List.length_cons, Nat.add_sub_cancel,
        List.eraseIdx_cons_succ, ih]

theorem pyIndex_some_lt {β : Type _} (L : List β) (k : Int) (j : Nat)
    (h : pyIndex (intLen L) k = some j) : j < L.length := by
  simp only [pyIndex, intLen] at h
  split_ifs at h with h1 h2
  · simp only [Option.some.injEq] at h
    omega
  · simp only [Option.some.injEq] at h
    omega

theorem pyIndex_nonneg_some {β : Type _} (L : List β) (k : Int) (j : Nat)
    (h0 : 0 ≤ k) (h : pyIndex (intLen L) k = some j) :
    k < intLen L ∧ j = k.toNat := by
  simp only [pyIndex, intLen] at h
  split_ifs at h with h1 h2
  · simp only [Option.some.injEq] at h
    exact ⟨h1.2, h.symm⟩
  · omega

theorem search_stay_zero (fen : List Int) (r : Int)
    (h : (Fenwick.search fen r).1 = 0) : (Fenwick.search fen r).2 = r := by
  simp only [Fenwick.search] at h ⊢
  exact searchGo_stay fen _ 0 r h

theorem delitemMiddle_preserves (s : SortedList.State α) (fen : List Int)
    (nidx : Int)
    (hp : s.data.flatten.Pairwise (· ≤ ·))
    (hf : List.Forall₂ (fun (m : α) (L : List α) => L.head? = some m) s.mins s.data)
    (hlen : s.len_ = intLen s.data.flatten)
    (h0 : 0 ≤ nidx)
    (hnf : ¬ nidx.toNat < (s.data.headD []).length)
    (hok : (SortedList.delitemMiddle s fen nidx).1 = none) :
    SortedList.Inv (SortedList.delitemMiddle s fen nidx).2 := by
  have hm : s.mins.length = s.data.length := List.Forall₂.length_eq hf
  simp only [SortedList.delitemMiddle] at hok ⊢
  cases hdel : pyDel (s.data.getD (Fenwick.search fen nidx).1 [])
      (Fenwick.search fen nidx).2 with
  | none =>
    rw [hdel] at hok
    simp at hok
  | some L2 =>
    simp only [hdel] at hok ⊢
    set i1 := (Fenwick.search fen nidx).1 with hi1
    have hex : ∃ jj, pyIndex (intLen (s.data.getD i1 []))
        (Fenwick.search fen nidx).2 = some jj ∧
        L2 = (s.data.getD i1 []).eraseIdx jj := by
      simp only [pyDel] at hdel
      cases hpi : pyIndex (intLen (s.data.getD i1 []))
          (Fenwick.search fen nidx).2 with
      | none => rw [hpi] at hdel; simp at hdel
      | some jj =>
        rw [hpi] at hdel
        simp only [Option.some.injEq] at hdel
        exact ⟨jj, rfl, hdel.symm⟩
    obtain ⟨jj, hpi, hL2⟩ := hex
    subst hL2
    have hjlt : jj < (s.data.getD i1 []).length :=
      pyIndex_some_lt _ _ _ hpi
    have hLne : s.data.getD i1 [] ≠ [] := by
      intro hnil
      rw [hnil] at hjlt
      simp at hjlt
    have hi_lt : i1 < s.data.length := by
      by_contra hge
      push_neg at hge
      rw [List.getD_eq_default _ _ hge] at hLne
      exact hLne rfl
    have hsub : List.Sublist
        (s.data.set i1 ((s.data.getD i1 []).eraseIdx jj)).flatten
        s.data.flatten := by
      rw [flatten_set s.data i1 _ hi_lt, flatten_decomp s.data i1 hi_lt]
      exact List.Sublist.append
        (List.Sublist.append (List.Sublist.refl _) (List.eraseIdx_sublist _ jj))
        (List.Sublist.refl _)
    have hp2 : (s.data.set i1 ((s.data.getD i1 []).eraseIdx jj)).flatten.Pairwise
        (· ≤ ·) := hp.sublist hsub
    have hlen2 : (s.data.set i1 ((s.data.getD i1 []).eraseIdx jj)).flatten.length + 1 =
        s.data.flatten.length := by
      rw [flatten_set s.data i1 _ hi_lt, flatten_decomp s.data i1 hi_lt]
      simp only [List.length_append]
      rw [List.length_eraseIdx_of_lt hjlt]
      omega
    by_cases hg1 : (s.data.set i1 ((s.data.getD i1 []).eraseIdx jj)).length < 2 ∨
        SortedList.CHUNKSIZE / 4 < (s.data.getD i1 []).length / 2
    · rw [if_pos hg1] at hok ⊢
      cases hh : ((s.data.getD i1 []).eraseIdx jj).head? with
      | none =>
        rw [hh] at hok
        simp at hok
      | some hd =>
        simp only [hh] at hok ⊢
        have hne : (s.data.getD i1 []).eraseIdx jj ≠ [] := by
          intro hnil
          rw [hnil] at hh
          simp at hh
        obtain ⟨d1, d2, d3⟩ := del_preserves s.data s.mins i1 jj hp hf hi_lt hjlt hne
        have hhd : ((s.data.getD i1 []).eraseIdx jj).headD default = hd :=
          headD_of_head? _ default hd hh
        unfold SortedList.Inv
        refine ⟨by simpa using hp2, ?_, ?_⟩
        · rw [← hhd]
          simpa using d2
        · show s.len_ - 1 = intLen _
          simp only [intLen] at hlen ⊢
          omega
    · rw [if_neg hg1] at hok ⊢
      by_cases hc2 : i1 + 1 < (s.data.set i1 ((s.data.getD i1 []).eraseIdx jj)).length
      · rw [if_pos hc2] at hok ⊢
        simp only [List.length_set] at hc2
        have hi1nz : i1 ≠ 0 := by
          intro hz
          have hstay : (Fenwick.search fen nidx).2 = nidx :=
            search_stay_zero fen nidx (by rw [← hi1, hz])
          rw [hstay, hz] at hpi
          obtain ⟨hk1, hk2⟩ := pyIndex_nonneg_some _ _ _ h0 hpi
          rw [headD_getD] at hnf
          simp only [intLen] at hk1
          omega
        rw [if_neg hi1nz] at hok ⊢
        by_cases hc3 : ((s.data.set i1 ((s.data.getD i1 []).eraseIdx jj)).getD
            (i1 - 1) []).length <
            ((s.data.set i1 ((s.data.getD i1 []).eraseIdx jj)).getD (i1 + 1) []).length
        · rw [if_pos hc3] at hok ⊢
          -- backward merge into the left neighbour
          have hgn : (s.data.set i1 ((s.data.getD i1 []).eraseIdx jj)).getD
              (i1 - 1) [] = s.data.getD (i1 - 1) [] :=
            getD_set_ne2 _ _ _ (by omega) _ _
          rw [hgn]
          have hD1ne : s.data.getD (i1 - 1) [] ≠ [] := by
            have hh := forall2_getD default [] s.mins s.data (i1 - 1) hf (by omega)
            intro hnil
            rw [hnil] at hh
            simp at hh
          have hcomm : ∀ M : List α,
              (s.data.set i1 ((s.data.getD i1 []).eraseIdx jj)).set (i1 - 1) M =
              (s.data.set (i1 - 1) M).set i1 ((s.data.getD i1 []).eraseIdx jj) := by
            intro M
            exact List.set_comm _ _ _ (by omega)
          rw [hcomm, eraseIdx_set_self]
          have hfl3 : ((s.data.set (i1 - 1) (s.data.getD (i1 - 1) [] ++
              (s.data.getD i1 []).eraseIdx jj)).eraseIdx i1).flatten =
              (s.data.set i1 ((s.data.getD i1 []).eraseIdx jj)).flatten := by
            have hidx : (s.data.set (i1 - 1) (s.data.getD (i1 - 1) [] ++
                (s.data.getD i1 []).eraseIdx jj)).eraseIdx i1 =
                (s.data.set (i1 - 1) (s.data.getD (i1 - 1) [] ++
                (s.data.getD i1 []).eraseIdx jj)).eraseIdx (i1 - 1 + 1) := by
              congr 1
              omega
            rw [hidx, flatten_merge s.data (i1 - 1) _ (by omega),
              flatten_set s.data i1 _ hi_lt]
            have ht1 : s.data.take i1 = s.data.take (i1 - 1 + 1) := by
              congr 1
              omega
            rw [ht1, flatten_take_succ s.data (i1 - 1) (by omega)]
            have ht2 : i1 - 1 + 2 = i1 + 1 := by omega
            rw [ht2]
            simp [List.append_assoc]
          have ff := forall2_eraseIdx s.mins
            (s.data.set (i1 - 1) (s.data.getD (i1 - 1) [] ++
              (s.data.getD i1 []).eraseIdx jj)) i1
            (forall2_set_right default
              (s.data.getD (i1 - 1) [] ++ (s.data.getD i1 []).eraseIdx jj)
              s.mins s.data (i1 - 1) hf
              (fun hlt => by
                rw [head?_append_left _ _ hD1ne]
                exact forall2_getD default [] s.mins s.data (i1 - 1) hf hlt))
          unfold SortedList.Inv
          refine ⟨?_, by simpa using ff, ?_⟩
          · have hgoal := hp2
            rw [← hfl3] at hgoal
            simpa using hgoal
          · show s.len_ - 1 = intLen _
            simp only [intLen] at hlen ⊢
            rw [hfl3]
            omega
        · rw [if_neg hc3] at hok ⊢
          -- forward merge with the right neighbour
          have hD2 : (s.data.set i1 ((s.data.getD i1 []).eraseIdx jj)).getD
              (i1 + 1) [] = s.data.getD (i1 + 1) [] :=
            getD_set_ne2 _ _ _ (by omega) _ _
          rw [hD2, List.set_set] at hok ⊢
          cases hh : ((s.data.getD i1 []).eraseIdx jj ++
              s.data.getD (i1 + 1) []).head? with
          | none =>
            rw [hh] at hok
            simp at hok
          | some hd =>
            simp only [hh] at hok ⊢
            have hdrop : (s.data.drop (i1 + 1)).flatten =
                s.data.getD (i1 + 1) [] ++ (s.data.drop (i1 + 2)).flatten := by
              rw [List.drop_eq_getElem_cons hc2, List.flatten_cons,
                List.getD_eq_getElem s.data [] hc2]
            have hfl4 : ((s.data.set i1 ((s.data.getD i1 []).eraseIdx jj ++
                s.data.getD (i1 + 1) [])).eraseIdx (i1 + 1)).flatten =
                (s.data.set i1 ((s.data.getD i1 []).eraseIdx jj)).flatten := by
              rw [flatten_merge s.data i1 _ hc2, flatten_set s.data i1 _ hi_lt, hdrop]
              simp [List.append_assoc]
            have ff := merge_set_forall2 s.data s.mins i1
              ((s.data.getD i1 []).eraseIdx jj ++ s.data.getD (i1 + 1) [])
              hd hf hh
            unfold SortedList.Inv
            refine ⟨?_, by simpa using ff, ?_⟩
            · have hgoal := hp2
              rw [← hfl4] at hgoal
              simpa using hgoal
            · show s.len_ - 1 = intLen _
              simp only [intLen] at hlen ⊢
              rw [hfl4]
              omega
      · rw [if_neg hc2] at hok
        simp at hok

theorem delitem_preserves (s : SortedList.State α) (index : Int)
    (h : SortedList.Inv s) (hok : (SortedList.delitemInt s index).1 = none) :
    SortedList.Inv (SortedList.delitemInt s index).2 := by
  obtain ⟨hp, hf, hlen⟩ := h
  have hm : s.mins.length = s.data.length := List.Forall₂.length_eq hf
  simp only [SortedList.delitemInt] at hok ⊢
  set nidx : Int := if index < 0 then index + s.len_ else index with hnidx
  by_cases hv : ¬ (0 ≤ nidx ∧ nidx < s.len_)
  · rw [if_pos hv] at hok
    simp at hok
  · rw [if_neg hv] at hok ⊢
    push_neg at hv
    obtain ⟨hv0, hvlt⟩ := hv
    have hdne : s.data ≠ [] := by
      intro hnil
      rw [hnil] at hlen
      simp only [List.flatten_nil, intLen, List.length_nil] at hlen
      omega
    have hdpos : 0 < s.data.length := List.length_pos.mpr hdne
    by_cases hfront : nidx.toNat < (s.data.headD []).length
    · rw [if_pos hfront] at hok ⊢
      by_cases h1 : (s.data.headD []).length = 1
      · rw [if_pos h1] at hok ⊢
        try dsimp only at hok ⊢
        unfold SortedList.Inv
        try dsimp only
        refine ⟨hp.sublist (sublist_flatten (List.tail_sublist s.data)),
          forall2_tail _ _ hf, ?_⟩
        have htl : s.data.tail.flatten.length + (s.data.headD []).length =
            s.data.flatten.length := by
          cases hd : s.data with
          | nil => exact absurd hd hdne
          | cons a t => simp [Nat.add_comm]
        simp only [intLen] at hlen ⊢
        omega
      · rw [if_neg h1] at hok ⊢
        rw [headD_getD s.data []] at hfront h1 hok ⊢
        have hne : (s.data.getD 0 []).eraseIdx nidx.toNat ≠ [] := by
          intro hnil
          have h2 := List.length_eraseIdx_of_lt hfront
          rw [hnil] at h2
          simp only [List.length_nil] at h2
          omega
        by_cases hi0 : nidx.toNat = 0
        · rw [if_pos hi0] at hok ⊢
          obtain ⟨d1, d2, d3⟩ := del_preserves s.data s.mins 0 nidx.toNat
            hp hf hdpos hfront hne
          try dsimp only at hok ⊢
          by_cases hmg : 1 < (s.data.set 0
              ((s.data.getD 0 []).eraseIdx nidx.toNat)).length ∧
              ((s.data.getD 0 []).eraseIdx nidx.toNat).length <
                SortedList.CHUNKSIZE / 2
          · rw [if_pos hmg] at hok ⊢
            have hgd1 : (s.data.set 0 ((s.data.getD 0 []).eraseIdx
                nidx.toNat)).getD 1 [] = s.data.getD 1 [] :=
              getD_set_ne2 _ _ _ (by omega) _ _
            rw [hgd1] at hok ⊢
            have h1lt : 1 < s.data.length := by
              have h2 := hmg.1
              simp only [List.length_set] at h2
              exact h2
            have hdrop1 : (s.data.drop 1).flatten =
                s.data.getD 1 [] ++ (s.data.drop 2).flatten := by
              rw [List.drop_eq_getElem_cons h1lt, List.flatten_cons,
                List.getD_eq_getElem s.data [] h1lt]
            have hflf : (((s.data.set 0 ((s.data.getD 0 []).eraseIdx
                nidx.toNat)).set 0 ((s.data.getD 0 []).eraseIdx nidx.toNat ++
                s.data.getD 1 [])).eraseIdx 1).flatten =
                (s.data.set 0 ((s.data.getD 0 []).eraseIdx nidx.toNat)).flatten := by
              rw [List.set_set]
              have hm4 := flatten_merge s.data 0
                ((s.data.getD 0 []).eraseIdx nidx.toNat ++ s.data.getD 1 [])
                (by omega)
              simp only [Nat.zero_add, List.take_zero, List.flatten_nil,
                List.nil_append] at hm4
              have hs4 := flatten_set s.data 0
                ((s.data.getD 0 []).eraseIdx nidx.toNat) hdpos
              simp only [List.take_zero, List.flatten_nil, List.nil_append] at hs4
              rw [hm4, hs4, hdrop1, List.append_assoc]
            have ff := forall2_eraseIdx
              (s.mins.set 0 (((s.data.getD 0 []).eraseIdx nidx.toNat).headD default))
              ((s.data.set 0 ((s.data.getD 0 []).eraseIdx nidx.toNat)).set 0
                ((s.data.getD 0 []).eraseIdx nidx.toNat ++ s.data.getD 1 [])) 1
              (forall2_set_right default
                ((s.data.getD 0 []).eraseIdx nidx.toNat ++ s.data.getD 1 [])
                (s.mins.set 0 (((s.data.getD 0 []).eraseIdx nidx.toNat).headD
                  default))
                (s.data.set 0 ((s.data.getD 0 []).eraseIdx nidx.toNat)) 0 d2
                (fun hlt => by
                  rw [head?_append_left _ _ hne, getD_set_self2 _ _ (by omega) _ _]
                  exact head?_headD _ default hne))
            unfold SortedList.Inv
            refine ⟨?_, by simpa using ff, ?_⟩
            · have hgoal := d1
              rw [← hflf] at hgoal
              simpa using hgoal
            · show s.len_ - 1 = intLen _
              simp only [intLen] at hlen ⊢
              rw [hflf]
              omega
          · rw [if_neg hmg] at hok ⊢
            cases hsl : s.lens with
            | none =>
              simp only [hsl] at hok
              simp at hok
            | some fen =>
              simp only [hsl] at hok ⊢
              unfold SortedList.Inv
              refine ⟨by simpa using d1, by simpa using d2, ?_⟩
              show s.len_ - 1 = intLen _
              simp only [intLen] at hlen ⊢
              omega
        · rw [if_neg hi0] at hok ⊢
          obtain ⟨e1, e2, e3⟩ := del_preserves_keep s.data s.mins 0 nidx.toNat
            hp hf hdpos hfront (Nat.pos_of_ne_zero hi0)
          try dsimp only at hok ⊢
          by_cases hmg : 1 < (s.data.set 0
              ((s.data.getD 0 []).eraseIdx nidx.toNat)).length ∧
              ((s.data.getD 0 []).eraseIdx nidx.toNat).length <
                SortedList.CHUNKSIZE / 2
          · rw [if_pos hmg] at hok ⊢
            have hgd1 : (s.data.set 0 ((s.data.getD 0 []).eraseIdx
                nidx.toNat)).getD 1 [] = s.data.getD 1 [] :=
              getD_set_ne2 _ _ _ (by omega) _ _
            rw [hgd1] at hok ⊢
            have h1lt : 1 < s.data.length := by
              have h2 := hmg.1
              simp only [List.length_set] at h2
              exact h2
            have hdrop1 : (s.data.drop 1).flatten =
                s.data.getD 1 [] ++ (s.data.drop 2).flatten := by
              rw [List.drop_eq_getElem_cons h1lt, List.flatten_cons,
                List.getD_eq_getElem s.data [] h1lt]
            have hflf : (((s.data.set 0 ((s.data.getD 0 []).eraseIdx
                nidx.toNat)).set 0 ((s.data.getD 0 []).eraseIdx nidx.toNat ++
                s.data.getD 1 [])).eraseIdx 1).flatten =
                (s.data.set 0 ((s.data.getD 0 []).eraseIdx nidx.toNat)).flatten := by
              rw [List.set_set]
              have hm4 := flatten_merge s.data 0
                ((s.data.getD 0 []).eraseIdx nidx.toNat ++ s.data.getD 1 [])
                (by omega)
              simp only [Nat.zero_add, List.take_zero, List.flatten_nil,
                List.nil_append] at hm4
              have hs4 := flatten_set s.data 0
                ((s.data.getD 0 []).eraseIdx nidx.toNat) hdpos
              simp only [List.take_zero, List.flatten_nil, List.nil_append] at hs4
              rw [hm4, hs4, hdrop1, List.append_assoc]
            have ff := forall2_eraseIdx s.mins
              ((s.data.set 0 ((s.data.getD 0 []).eraseIdx nidx.toNat)).set 0
                ((s.data.getD 0 []).eraseIdx nidx.toNat ++ s.data.getD 1 [])) 1
              (forall2_set_right default
                ((s.data.getD 0 []).eraseIdx nidx.toNat ++ s.data.getD 1 [])
                s.mins (s.data.set 0 ((s.data.getD 0 []).eraseIdx nidx.toNat)) 0 e2
                (fun hlt => by
                  rw [head?_append_left _ _ hne,
                    eraseIdx_head_pos _ _ (Nat.pos_of_ne_zero hi0)]
                  exact forall2_getD default [] s.mins s.data 0 hf hlt))
            unfold SortedList.Inv
            refine ⟨?_, by simpa using ff, ?_⟩
            · have hgoal := e1
              rw [← hflf] at hgoal
              simpa using hgoal
            · show s.len_ - 1 = intLen _
              simp only [intLen] at hlen ⊢
              rw [hflf]
              omega
          · rw [if_neg hmg] at hok ⊢
            cases hsl : s.lens with
            | none =>
              simp only [hsl] at hok
              simp at hok
            | some fen =>
              simp only [hsl] at hok ⊢
              unfold SortedList.Inv
              refine ⟨by simpa using e1, by simpa using e2, ?_⟩
              show s.len_ - 1 = intLen _
              simp only [intLen] at hlen ⊢
              omega
    · rw [if_neg hfront] at hok ⊢
      by_cases hback : s.len_ - intLen (s.data.getLastD []) ≤ nidx
      · rw [if_pos hback] at hok ⊢
        by_cases hb1 : (s.data.getLastD []).length = 1
        · rw [if_pos hb1] at hok ⊢
          rw [getLastD_eq_getD s.data []] at hb1
          try dsimp only at hok ⊢
          cases hsl : s.lens with
          | none =>
            simp only [hsl] at hok
            simp at hok
          | some fen =>
            simp only [hsl] at hok ⊢
            unfold SortedList.Inv
            try dsimp only
            refine ⟨hp.sublist (sublist_flatten (List.dropLast_sublist s.data)),
              forall2_dropLast _ _ hf, ?_⟩
            have hfd : s.data.dropLast.flatten.length + 1 = s.data.flatten.length := by
              rw [dropLast_eq_eraseIdx_last,
                flatten_eraseIdx s.data (s.data.length - 1) (by omega)]
              have hdrop2 : s.data.drop (s.data.length - 1 + 1) = [] :=
                List.drop_eq_nil_of_le (by omega)
              have hdec := flatten_decomp s.data (s.data.length - 1) (by omega)
              rw [hdrop2] at hdec ⊢
              simp only [List.flatten_nil, List.append_nil] at hdec ⊢
              rw [hdec, List.length_append]
              omega
            simp only [intLen] at hlen ⊢
            omega
        · rw [if_neg hb1] at hok ⊢
          rw [getLastD_eq_getD s.data []] at hb1 hback hok ⊢
          set jB : Nat := (nidx + intLen (s.data.getD (s.data.length - 1) []) -
            s.len_).toNat with hjB
          have hdllen : 1 ≤ (s.data.getD (s.data.length - 1) []).length := by
            have hh := forall2_getD default [] s.mins s.data (s.data.length - 1)
              hf (by omega)
            cases hgd : s.data.getD (s.data.length - 1) [] with
            | nil => rw [hgd] at hh; simp at hh
            | cons a t => simp
          have hjlt : jB < (s.data.getD (s.data.length - 1) []).length := by
            rw [hjB]
            simp only [intLen] at hback ⊢
            omega
          have hne : (s.data.getD (s.data.length - 1) []).eraseIdx jB ≠ [] := by
            intro hnil
            have h2 := List.length_eraseIdx_of_lt hjlt
            rw [hnil] at h2
            simp only [List.length_nil] at h2
            omega
          by_cases hj0 : jB = 0
          · rw [if_pos hj0] at hok ⊢
            obtain ⟨d1, d2, d3⟩ := del_preserves s.data s.mins (s.data.length - 1)
              jB hp hf (by omega) hjlt hne
            try dsimp only at hok ⊢
            simp only [List.length_set] at hok ⊢
            by_cases hmg : 1 < s.data.length ∧
                ((s.data.getD (s.data.length - 1) []).eraseIdx jB).length <
                  SortedList.CHUNKSIZE / 2
            · rw [if_pos hmg] at hok ⊢
              have hgp : (s.data.set (s.data.length - 1)
                  ((s.data.getD (s.data.length - 1) []).eraseIdx jB)).getD
                  (s.data.length - 2) [] = s.data.getD (s.data.length - 2) [] :=
                getD_set_ne2 _ _ _ (by omega) _ _
              rw [hgp] at hok ⊢
              try dsimp only at hok ⊢
              cases hsl : s.lens with
              | none =>
                simp only [hsl] at hok
                simp at hok
              | some fen =>
                simp only [hsl] at hok ⊢
                unfold SortedList.Inv
                try dsimp only
                rw [dropLast_eq_eraseIdx_last ((s.data.set (s.data.length - 1)
                    ((s.data.getD (s.data.length - 1) []).eraseIdx jB)).set
                    (s.data.length - 2) (s.data.getD (s.data.length - 2) [] ++
                    (s.data.getD (s.data.length - 1) []).eraseIdx jB)),
                  dropLast_eq_eraseIdx_last (s.mins.set (s.mins.length - 1)
                    (((s.data.getD (s.data.length - 1) []).eraseIdx jB).headD
                      default))]
                simp only [List.length_set]
                rw [hm]
                have hflb : (((s.data.set (s.data.length - 1)
                    ((s.data.getD (s.data.length - 1) []).eraseIdx jB)).set
                    (s.data.length - 2) (s.data.getD (s.data.length - 2) [] ++
                    (s.data.getD (s.data.length - 1) []).eraseIdx jB)).eraseIdx
                    (s.data.length - 1)).flatten =
                    (s.data.set (s.data.length - 1)
                      ((s.data.getD (s.data.length - 1) []).eraseIdx jB)).flatten := by
                  rw [List.set_comm _ _ _
                    (show s.data.length - 1 ≠ s.data.length - 2 by omega),
                    eraseIdx_set_self]
                  have hidx : (s.data.set (s.data.length - 2)
                      (s.data.getD (s.data.length - 2) [] ++
                      (s.data.getD (s.data.length - 1) []).eraseIdx jB)).eraseIdx
                      (s.data.length - 1) =
                      (s.data.set (s.data.length - 2)
                      (s.data.getD (s.data.length - 2) [] ++
                      (s.data.getD (s.data.length - 1) []).eraseIdx jB)).eraseIdx
                      (s.data.length - 2 + 1) := by
                    congr 1
                    omega
                  rw [hidx, flatten_merge s.data (s.data.length - 2) _ (by omega),
                    flatten_set s.data (s.data.length - 1) _ (by omega)]
                  have hdr1 : s.data.drop (s.data.length - 2 + 2) = [] :=
                    List.drop_eq_nil_of_le (by omega)
                  have hdr2 : s.data.drop (s.data.length - 1 + 1) = [] :=
                    List.drop_eq_nil_of_le (by omega)
                  rw [hdr1, hdr2]
                  have ht1 : s.data.take (s.data.length - 1) =
                      s.data.take (s.data.length - 2 + 1) := by
                    congr 1
                    omega
                  rw [ht1, flatten_take_succ s.data (s.data.length - 2) (by omega)]
                  simp [List.append_assoc]
                have ff := forall2_eraseIdx
                  (s.mins.set (s.data.length - 1)
                    (((s.data.getD (s.data.length - 1) []).eraseIdx jB).headD
                      default))
                  ((s.data.set (s.data.length - 1)
                    ((s.data.getD (s.data.length - 1) []).eraseIdx jB)).set
                    (s.data.length - 2) (s.data.getD (s.data.length - 2) [] ++
                    (s.data.getD (s.data.length - 1) []).eraseIdx jB))
                  (s.data.length - 1)
                  (forall2_set_right default
                    (s.data.getD (s.data.length - 2) [] ++
                      (s.data.getD (s.data.length - 1) []).eraseIdx jB)
                    (s.mins.set (s.data.length - 1)
                      (((s.data.getD (s.data.length - 1) []).eraseIdx jB).headD
                        default))
                    (s.data.set (s.data.length - 1)
                      ((s.data.getD (s.data.length - 1) []).eraseIdx jB))
                    (s.data.length - 2) d2
                    (fun hlt => by
                      have hprevne : s.data.getD (s.data.length - 2) [] ≠ [] := by
                        have hh := forall2_getD default [] s.mins s.data
                          (s.data.length - 2) hf (by omega)
                        intro hnil
                        rw [hnil] at hh
                        simp at hh
                      rw [head?_append_left _ _ hprevne,
                        getD_set_ne2 _ _ _ (by omega) _ _]
                      exact forall2_getD default [] s.mins s.data
                        (s.data.length - 2) hf (by omega)))
                refine ⟨?_, by simpa using ff, ?_⟩
                · have hgoal := d1
                  rw [← hflb] at hgoal
                  simpa using hgoal
                · show s.len_ - 1 = intLen _
                  simp only [intLen] at hlen ⊢
                  rw [hflb]
                  omega
            · rw [if_neg hmg] at hok ⊢
              cases hsl : s.lens with
              | none =>
                simp only [hsl] at hok
                simp at hok
              | some fen =>
                simp only [hsl] at hok ⊢
                unfold SortedList.Inv
                try dsimp only
                rw [hm]
                refine ⟨by simpa using d1, by simpa using d2, ?_⟩
                show s.len_ - 1 = intLen _
                simp only [intLen] at hlen ⊢
                omega
          · rw [if_neg hj0] at hok ⊢
            obtain ⟨e1, e2, e3⟩ := del_preserves_keep s.data s.mins
              (s.data.length - 1) jB hp hf (by omega) hjlt
              (Nat.pos_of_ne_zero hj0)
            try dsimp only at hok ⊢
            simp only [List.length_set] at hok ⊢
            by_cases hmg : 1 < s.data.length ∧
                ((s.data.getD (s.data.length - 1) []).eraseIdx jB).length <
                  SortedList.CHUNKSIZE / 2
            · rw [if_pos hmg] at hok ⊢
              have hgp : (s.data.set (s.data.length - 1)
                  ((s.data.getD (s.data.length - 1) []).eraseIdx jB)).getD
                  (s.data.length - 2) [] = s.data.getD (s.data.length - 2) [] :=
                getD_set_ne2 _ _ _ (by omega) _ _
              rw [hgp] at hok ⊢
              try dsimp only at hok ⊢
              cases hsl : s.lens with
              | none =>
                simp only [hsl] at hok
                simp at hok
              | some fen =>
                simp only [hsl] at hok ⊢
                unfold SortedList.Inv
                try dsimp only
                rw [dropLast_eq_eraseIdx_last ((s.data.set (s.data.length - 1)
                    ((s.data.getD (s.data.length - 1) []).eraseIdx jB)).set
                    (s.data.length - 2) (s.data.getD (s.data.length - 2) [] ++
                    (s.data.getD (s.data.length - 1) []).eraseIdx jB)),
                  dropLast_eq_eraseIdx_last s.mins]
                simp only [List.length_set]
                rw [hm]
                have hflb : (((s.data.set (s.data.length - 1)
                    ((s.data.getD (s.data.length - 1) []).eraseIdx jB)).set
                    (s.data.length - 2) (s.data.getD (s.data.length - 2) [] ++
                    (s.data.getD (s.data.length - 1) []).eraseIdx jB)).eraseIdx
                    (s.data.length - 1)).flatten =
                    (s.data.set (s.data.length - 1)
                      ((s.data.getD (s.data.length - 1) []).eraseIdx jB)).flatten := by
                  rw [List.set_comm _ _ _
                    (show s.data.length - 1 ≠ s.data.length - 2 by omega),
                    eraseIdx_set_self]
                  have hidx : (s.data.set (s.data.length - 2)
                      (s.data.getD (s.data.length - 2) [] ++
                      (s.data.getD (s.data.length - 1) []).eraseIdx jB)).eraseIdx
                      (s.data.length - 1) =
                      (s.data.set (s.data.length - 2)
                      (s.data.getD (s.data.length - 2) [] ++
                      (s.data.getD (s.data.length - 1) []).eraseIdx jB)).eraseIdx
                      (s.data.length - 2 + 1) := by
                    congr 1
                    omega
                  rw [hidx, flatten_merge s.data (s.data.length - 2) _ (by omega),
                    flatten_set s.data (s.data.length - 1) _ (by omega)]
                  have hdr1 : s.data.drop (s.data.length - 2 + 2) = [] :=
                    List.drop_eq_nil_of_le (by omega)
                  have hdr2 : s.data.drop (s.data.length - 1 + 1) = [] :=
                    List.drop_eq_nil_of_le (by omega)
                  rw [hdr1, hdr2]
                  have ht1 : s.data.take (s.data.length - 1) =
                      s.data.take (s.data.length - 2 + 1) := by
                    congr 1
                    omega
                  rw [ht1, flatten_take_succ s.data (s.data.length - 2) (by omega)]
                  simp [List.append_assoc]
                have ff := forall2_eraseIdx s.mins
                  ((s.data.set (s.data.length - 1)
                    ((s.data.getD (s.data.length - 1) []).eraseIdx jB)).set
                    (s.data.length - 2) (s.data.getD (s.data.length - 2) [] ++
                    (s.data.getD (s.data.length - 1) []).eraseIdx jB))
                  (s.data.length - 1)
                  (forall2_set_right default
                    (s.data.getD (s.data.length - 2) [] ++
                      (s.data.getD (s.data.length - 1) []).eraseIdx jB)
                    s.mins
                    (s.data.set (s.data.length - 1)
                      ((s.data.getD (s.data.length - 1) []).eraseIdx jB))
                    (s.data.length - 2) e2
                    (fun hlt => by
                      have hprevne : s.data.getD (s.data.length - 2) [] ≠ [] := by
                        have hh := forall2_getD default [] s.mins s.data
                          (s.data.length - 2) hf (by omega)
                        intro hnil
                        rw [hnil] at hh
                        simp at hh
                      rw [head?_append_left _ _ hprevne]
                      exact forall2_getD default [] s.mins s.data
                        (s.data.length - 2) hf (by omega)))
                refine ⟨?_, by simpa using ff, ?_⟩
                · have hgoal := e1
                  rw [← hflb] at hgoal
                  simpa using hgoal
                · show s.len_ - 1 = intLen _
                  simp only [intLen] at hlen ⊢
                  rw [hflb]
                  omega
            · rw [if_neg hmg] at hok ⊢
              cases hsl : s.lens with
              | none =>
                simp only [hsl] at hok
                simp at hok
              | some fen =>
                simp only [hsl] at hok ⊢
                unfold SortedList.Inv
                try dsimp only
                refine ⟨by simpa using e1, by simpa using e2, ?_⟩
                show s.len_ - 1 = intLen _
                simp only [intLen] at hlen ⊢
                omega
      · rw [if_neg hback] at hok ⊢
        cases hsl : s.lens with
        | none =>
          simp only [SortedList.ensureLens, hsl] at hok ⊢
          exact delitemMiddle_preserves _ _ _ hp hf hlen hv0 hfront hok
        | some fen =>
          simp only [SortedList.ensureLens, hsl] at hok ⊢
          exact delitemMiddle_preserves _ _ _ hp hf hlen hv0 hfront hok



theorem forall2_map_self {β : Type _} {P : α → β → Prop} (f : β → α) :
    ∀ (l : List β), (∀ b ∈ l, P (f b) b) → List.Forall₂ P (l.map f) l := by
  intro l
  induction l with
  | nil => intro _; exact List.Forall₂.nil
  | cons a t ih =>
    intro h
    simp only [List.map_cons]
    exact List.Forall₂.cons (h a (by simp))
      (ih (fun b hb => h b (by simp [hb])))

/-- The bulk re-segmentation state built by extend (and the constructor)
from an already sorted list satisfies the C8 invariant. -/
theorem chunked_inv (ys : List α) (hs : ys.Pairwise (· ≤ ·)) :
    SortedList.Inv { data := chunksOf SortedList.CHUNKSIZE ys,
                     len_ := intLen ys, lens := none,
                     mins := (chunksOf SortedList.CHUNKSIZE ys).map
                       (fun L => L.headD default) } := by
  have hCpos : 0 < SortedList.CHUNKSIZE := by norm_num [SortedList.CHUNKSIZE]
  have hfl : (chunksOf SortedList.CHUNKSIZE ys).flatten = ys :=
    chunksOf_flatten _ hCpos ys
  unfold SortedList.Inv
  refine ⟨by rw [hfl]; exact hs, ?_, by rw [hfl]⟩
  refine forall2_map_self _ _ ?_
  intro L hL
  have hlen := (chunksOf_mem_length _ hCpos ys L hL).1
  cases L with
  | nil => simp at hlen
  | cons a t => rfl

theorem foldl_append_inv (xs : List α) :
    ∀ (s : SortedList.State α), SortedList.Inv s →
      SortedList.Inv (xs.foldl SortedList.appendOp s) := by
  induction xs with
  | nil => intro s h; exact h
  | cons x t ih =>
    intro s h
    exact ih _ (append_preserves s x h)

theorem extend_preserves (s : SortedList.State α) (xs : List α)
    (h : SortedList.Inv s) : SortedList.Inv (SortedList.extendOp s xs) := by
  simp only [SortedList.extendOp]
  split_ifs with hbig hpos
  · exact chunked_inv _ (pySorted_sorted _)
  · exact chunked_inv _ (pySorted_sorted _)
  · exact foldl_append_inv _ s h

/-- Every state reachable by the public mutating operations (with deletions
that return normally) satisfies the C8 invariant. -/
theorem reachable_inv (s : SortedList.State α) (h : SortedList.Reachable s) :
    SortedList.Inv s := by
  induction h with
  | empty =>
    refine ⟨?_, ?_, ?_⟩
    · simp [SortedList.emptyState]
    · simp [SortedList.emptyState]
    · simp [SortedList.emptyState, intLen]
  | add s v hr ih => exact append_preserves s v ih
  | take_away s v hr ih => exact discard_preserves s v ih
  | grow s xs hr ih => exact extend_preserves s xs ih
  | del s idx hr hok ih => exact delitem_preserves s idx ih hok

theorem pairwise_getD_le (l : List α) (hp : l.Pairwise (· ≤ ·)) (r1 r2 : Nat)
    (h12 : r1 < r2) (h2 : r2 < l.length) :
    l.getD r1 default ≤ l.getD r2 default := by
  rw [List.getD_eq_getElem l default (by omega : r1 < l.length),
    List.getD_eq_getElem l default h2]
  exact List.pairwise_iff_getElem.mp hp r1 r2 (by omega) h2 h12

/-- C8: in every SortedList state reachable from the empty container by
append (add), discard, extend and indexed deletions that return normally,
the stored elements read in container order are non-decreasing, and every
cached minimum mins[i] is the first element of its segment S_i. -/
theorem C8_sorted_invariant (s : SortedList.State α)
    (h : SortedList.Reachable s) :
    (∀ r1 r2 : Nat, r1 < r2 → r2 < s.data.flatten.length →
      s.data.flatten.getD r1 default ≤ s.data.flatten.getD r2 default) ∧
    ∀ i : Nat, i < s.data.length →
      (s.data.getD i []).head? = some (s.mins.getD i default) := by
  obtain ⟨hp, hf, hlen⟩ := reachable_inv s h
  have hm : s.mins.length = s.data.length := List.Forall₂.length_eq hf
  refine ⟨fun r1 r2 h12 h2 => pairwise_getD_le _ hp r1 r2 h12 h2, fun i hi => ?_⟩
  exact forall2_getD default [] s.mins s.data i hf (by omega)


theorem C8_sorted_invariant_witness :
    w8state.data.flatten.getD 0 default ≤ w8state.data.flatten.getD 1 default ∧
    (w8state.data.getD 0 []).head? = some (w8state.mins.getD 0 default) :=
  ⟨(C8_sorted_invariant w8state (SortedList.Reachable.add _ 3
      (SortedList.Reachable.add _ 5 SortedList.Reachable.empty))).1 0 1
      (by decide) (by decide),
   (C8_sorted_invariant w8state (SortedList.Reachable.add _ 3
      (SortedList.Reachable.add _ 5 SortedList.Reachable.empty))).2 0 (by decide)⟩

end C8Append


namespace BigDict

/-- Closed form of the ascending insertion sequence: n assignments of
increasing fresh keys leave a single segment holding all n entries, because
__setitem__ never invokes the balancing engine and therefore never splits. -/
theorem insertAsc_closed (n : Nat) (h : 1 ≤ n) :
    insertAsc n =
      { filenames := [0], lens := [(n : Int)], mins := [(0, 0)], len_ := (n : Int),
        segs := [(List.range n).map (fun k => (k, k))], counter := 1 } := by
  induction n with
  | zero => omega
  | succ n ih =>
    rcases Nat.eq_or_lt_of_le h with h1 | h1
    · simp only [← h1]
      decide
    · have hn : 1 ≤ n := by omega
      have hfind :
          ((List.range n).map (fun k => (k, k))).find? (fun kv => decide (kv.1 = n)) = none := by
        rw [List.find?_eq_none]
        intro p hp
        simp only [List.mem_map, List.mem_range] at hp
        obtain ⟨k, hk, rfl⟩ := hp
        simp only [decide_eq_true_eq]
        omega
      have hbis : bisectPairs [(0, 0)] (hashK n, n) = 1 := by
        simp only [bisectPairs, hashK, List.countP_cons, List.countP_nil, pairLe]
        norm_num
        omega
      have hne : ¬ ((n : Int) = 0) := by
        exact_mod_cast (Nat.pos_of_ne_zero (by omega)).ne'
      have hchunk : (List.range n).map (fun k => (k, k)) ++ [(n, n)]
          = (List.range (n + 1)).map (fun k => (k, k)) := by
        rw [List.range_succ, List.map_append]
        rfl
      have hlt : pairLt (hashK n, n) (0, 0) = false := by
        simp [pairLt, hashK]
      show setitem (insertAsc n) n n = _
      rw [ih hn]
      simp only [setitem, hbis]
      norm_num [hne, dictSet, hfind, hlt, intLen, hchunk]
      ring_nf
      intro hc
      simp only [pairLt, hashK, Prod.fst_zero, Prod.snd_zero, decide_eq_true_eq] at hc
      omega

end BigDict

/-!  ### Theorems about BigList deletion (claims C2, C3, C4) -/

/-- Claim C3: for every BigList holding elements with N >= 1 and every valid
index r, del lst[r] is claimed to return normally, remove the r-th element
and decrease len() by 1.  On the code, deleting index 0 of a one-element
BigList (built by appending 7 to an empty list) takes the last-segment fast
path, removes the element from the segment, and then calls the non-existent
method _fenwick_udpate, raising AttributeError with len() still 1 and the
length metadata untouched. -/
theorem C3_delete_one_raises_attribute_error :
    (BigList.delitemInt (BigList.appendOp (BigList.emptyState Nat) 7) 0).1
        = some PyErr.attributeError ∧
      (BigList.delitemInt (BigList.appendOp (BigList.emptyState Nat) 7) 0).2.len_ = 1 ∧
      (BigList.delitemInt (BigList.appendOp (BigList.emptyState Nat) 7) 0).2.segs = [[]] := by
  decide

/-- Claim C2: after every public mutation, the cached total length is
claimed to equal the sum of the per-segment lengths.  On the code, the
BigList built by extending an empty list with [0, 1, 2, 3, 4] and then
mutated by del lst[0:2] (the step-one prefix branch of __delitem__) ends
with len() == 5 while the per-segment lengths sum to 3: no deletion path of
__delitem__ ever decrements self._len for elements trimmed from a surviving
segment. -/
theorem C2_len_sum_mismatch_after_prefix_delete :
    (BigList.delitemSlice1 (BigList.extendIter (BigList.emptyState Nat) [0, 1, 2, 3, 4])
        0 2).len_ = 5 ∧
      (BigList.delitemSlice1 (BigList.extendIter (BigList.emptyState Nat) [0, 1, 2, 3, 4])
        0 2).lens.sum = 3 ∧
      (BigList.delitemSlice1 (BigList.extendIter (BigList.emptyState Nat) [0, 1, 2, 3, 4])
        0 2).segs.flatten.length = 3 := by
  decide

/-- Claim C4: del lst[start:stop] with 0 <= start <= stop <= N is claimed to
leave e_0..e_{start-1} followed by e_stop..e_{N-1} and len() == N - (stop -
start); for a suffix deletion the trailing elements should be removed.  On
the code, for the BigList holding [0, 1, 2, 3, 4] the suffix deletion
del lst[3:5] instead trims the two leading elements of the surviving
segment, leaving contents [2, 3, 4] (the claim requires [0, 1, 2]) and
len() == 5 (the claim requires 3). -/
theorem C4_suffix_delete_trims_wrong_end :
    (BigList.delitemSlice1 (BigList.extendIter (BigList.emptyState Nat) [0, 1, 2, 3, 4])
        3 5).segs = [[2, 3, 4]] ∧
      (BigList.delitemSlice1 (BigList.extendIter (BigList.emptyState Nat) [0, 1, 2, 3, 4])
        3 5).len_ = 5 := by
  decide

/-!  ### Theorems about BigDict (claims C5, C6) -/

/-- Claim C5: every assignment d[k] = v is claimed to end by invoking the
balancing engine on the receiving segment.  On the code, __setitem__ never
calls _balance: after the 8194 public assignments d[0] = 0 .. d[8193] =
8193 on a fresh BigDict, the dict still has a single segment whose recorded
length 8194 exceeds 2 * CHUNKSIZE = 8192, a state _balance would have split
(its single-segment branch splits whenever lens[0] > 2 * CHUNKSIZE). -/
theorem C5_setitem_never_invokes_balance :
    (BigDict.insertAsc 8194).segs.length = 1 ∧
      (BigDict.insertAsc 8194).lens = [8194] ∧
      2 * BigDict.CHUNKSIZE < (BigDict.insertAsc 8194).lens.getD 0 0 := by
  rw [BigDict.insertAsc_closed 8194 (by norm_num)]
  refine ⟨rfl, by norm_num, by norm_num [BigDict.CHUNKSIZE]⟩

/-- Claim C6: deleting a present key of a BigDict is claimed to return
normally, in particular deleting the sole remaining key of a one-entry
BigDict should succeed and leave the dict empty; a missing key raises the
key-not-found error.  On the code, del d[0] on the one-entry dict built by
d[0] = 0 removes the entry and then recomputes the segment minimum with
min() over the now-empty segment, raising ValueError (the missing-key path
does raise KeyError as claimed). -/
theorem C6_delete_sole_key_raises_value_error :
    (BigDict.delitem (BigDict.setitem BigDict.emptyState 0 0) 0).1
        = some PyErr.valueError ∧
      (BigDict.delitem (BigDict.setitem BigDict.emptyState 0 0) 0).2.len_ = 0 ∧
      (BigDict.delitem BigDict.emptyState 5).1 = some PyErr.keyError := by
  decide

/-!  ### Theorems about SortedList segment bounds (claim C1) -/

/-- Characterisation of SortedList.extend on an empty list: the bulk branch
re-sorts the input and slices it into CHUNKSIZE pieces. -/
theorem sortedExtend_empty_eq (xs : List Int) (h : xs ≠ []) :
    SortedList.extendOp (SortedList.emptyState Int) xs =
      { data := chunksOf SortedList.CHUNKSIZE (SortedList.pySorted xs),
        len_ := intLen (SortedList.pySorted xs),
        lens := none,
        mins := (chunksOf SortedList.CHUNKSIZE (SortedList.pySorted xs)).map
          (fun L => L.headD default) } := by
  have hlen : 0 < (SortedList.pySorted xs).length := by
    rw [SortedList.pySorted, List.length_mergeSort]
    exact List.length_pos.mpr h
  have hcond : Int.fdiv (SortedList.emptyState Int).len_ 8
      < intLen (SortedList.pySorted xs) := by
    show Int.fdiv 0 8 < _
    rw [intLen, show Int.fdiv (0 : Int) 8 = 0 from rfl]
    exact_mod_cast hlen
  rw [SortedList.extendOp, if_pos hcond]
  have : ¬ (0 < (SortedList.emptyState Int).len_) := by
    show ¬ ((0 : Int) < 0)
    omega
  rw [if_neg this]

/-- Claim C1 counterexample: extending an empty SortedList (a container
reachable from empty by one public operation) with 1025 equal elements
returns with two segments whose lengths are 1024 and 1; the final segment's
length 1 is below CHUNKSIZE / 2 = 512, so the claimed bound
CHUNK/2 <= len_i does not hold at the return of a public operation with
m >= 2. -/
theorem C1_segment_bounds_counterexample :
    2 ≤ (SortedList.extendOp (SortedList.emptyState Int)
          (List.replicate 1025 0)).data.length ∧
      ∃ L ∈ (SortedList.extendOp (SortedList.emptyState Int)
          (List.replicate 1025 0)).data,
        L.length < SortedList.CHUNKSIZE / 2 := by
  have hne : (List.replicate 1025 (0 : Int)) ≠ [] := by
    rw [← List.length_pos, List.length_replicate]
    norm_num
  have hsorted : SortedList.pySorted (List.replicate 1025 (0 : Int))
      = List.replicate 1025 0 := by
    apply List.mergeSort_eq_self
    rw [List.Sorted, List.pairwise_replicate]
    simp
  have hchunks : chunksOf SortedList.CHUNKSIZE (List.replicate 1025 (0 : Int))
      = [List.replicate 1024 0, [0]] := by
    rw [show SortedList.CHUNKSIZE = 1024 from rfl,
      chunksOf_cons 1024 (by norm_num) _ hne, List.take_replicate, List.drop_replicate]
    norm_num
    show chunksOf 1024 (List.replicate 1 (0 : Int)) = [[0]]
    decide
  rw [sortedExtend_empty_eq _ hne, hsorted, hchunks]
  exact ⟨by norm_num, [0], List.mem_cons_of_mem _ (List.mem_cons_self _ _), by decide⟩

/-- Claim C1 amended for the operation the counterexample touches: after
extending an empty SortedList with a non-empty iterable (the bulk
re-segmentation branch), every segment except possibly the last has length
exactly CHUNKSIZE, and every segment has length between 1 and CHUNKSIZE —
so all segments respect the upper bound 2 * CHUNKSIZE, but the final
segment may be shorter than CHUNKSIZE / 2. -/
theorem C1_amended_resegment_bounds (xs : List Int) (h : xs ≠ []) :
    (∀ L ∈ (SortedList.extendOp (SortedList.emptyState Int) xs).data.dropLast,
        L.length = SortedList.CHUNKSIZE) ∧
      (∀ L ∈ (SortedList.extendOp (SortedList.emptyState Int) xs).data,
        0 < L.length ∧ L.length ≤ SortedList.CHUNKSIZE) := by
  rw [sortedExtend_empty_eq _ h]
  exact ⟨chunksOf_dropLast_length SortedList.CHUNKSIZE (by decide) _,
    chunksOf_mem_length SortedList.CHUNKSIZE (by decide) _⟩

/-- Witness for the amended claim C1 at the concrete input [3]. -/
theorem C1_amended_resegment_bounds_witness :
    (([3] : List Int) ≠ []) ∧
      ((∀ L ∈ (SortedList.extendOp (SortedList.emptyState Int) [3]).data.dropLast,
          L.length = SortedList.CHUNKSIZE) ∧
        (∀ L ∈ (SortedList.extendOp (SortedList.emptyState Int) [3]).data,
          0 < L.length ∧ L.length ≤ SortedList.CHUNKSIZE)) :=
  ⟨by decide, C1_amended_resegment_bounds [3] (by decide)⟩

/-!  ### Theorem about SortedList.from_sorted (claim C10) -/

/-- Claim C10: SortedList.from_sorted(xs) is claimed to return a SortedList
instance holding the elements of xs.  On the code, the classmethod body
binds the constructed instance but has no return statement, so the call
returns None for every input, here evaluated at [1, 2, 3]. -/
theorem C10_from_sorted_returns_none :
    SortedList.from_sorted ([1, 2, 3] : List Int) = none := rfl


/-!  ### Theorem about BigList._fenwick_index (claim C7) -/

/-- Helper: reading the lens array of a consistent state at a valid segment
index gives the length of that segment. -/
theorem getD_map_intLen {α : Type _} (segs : List (List α)) (i : Nat)
    (h : i < segs.length) :
    (segs.map intLen).getD i 0 = intLen (segs.getD i []) := by
  rw [List.getD_eq_getElem?_getD, List.getElem?_map, List.getElem?_eq_getElem h]
  simp [List.getD_eq_getElem?_getD, List.getElem?_eq_getElem h]

/-- Claim C7: on a BigList whose lens array matches the segment contents and
holds only positive lengths, the positional lookup _fenwick_index maps any
rank 0 <= rank < N to a segment index below m and an offset inside that
segment such that rank = sum of the first i lengths plus the offset, the
offset-th element of segment i is the rank-th element of the flattened
container, and afterwards the live Fenwick array is the one built from
lens; this covers both the lazy rebuild (fenwick = none) and the live case
(fenwick = the built array). -/
theorem C7_fenwick_locate_correct {α : Type _} (st : BigList.State α) (rank : Int)
    (d : α) (hlens : st.lens = st.segs.map intLen)
    (hpos : ∀ x ∈ st.lens, 0 < x)
    (hfen : st.fenwick = none ∨ st.fenwick = some (Fenwick.build st.lens))
    (h0 : 0 ≤ rank) (hN : rank < psum st.lens st.lens.length) :
    (BigList.fenwickIndex st rank).1.1 < st.lens.length ∧
      0 ≤ (BigList.fenwickIndex st rank).1.2 ∧
      (BigList.fenwickIndex st rank).1.2 <
        st.lens.getD (BigList.fenwickIndex st rank).1.1 0 ∧
      rank = psum st.lens (BigList.fenwickIndex st rank).1.1 +
        (BigList.fenwickIndex st rank).1.2 ∧
      st.segs.flatten.getD rank.toNat d =
        (st.segs.getD (BigList.fenwickIndex st rank).1.1 []).getD
          (BigList.fenwickIndex st rank).1.2.toNat d ∧
      (BigList.fenwickIndex st rank).2.fenwick = some (Fenwick.build st.lens) := by
  have hsearch : (BigList.fenwickIndex st rank).1 =
      Fenwick.search (Fenwick.build st.lens) rank ∧
      (BigList.fenwickIndex st rank).2.fenwick = some (Fenwick.build st.lens) := by
    rcases hfen with h | h <;> simp [BigList.fenwickIndex, h]
  obtain ⟨hfst, hsnd⟩ := hsearch
  obtain ⟨hi, hoff0, hoffu, hdec⟩ := search_correct st.lens rank h0 hN
  rw [hfst]
  set r := Fenwick.search (Fenwick.build st.lens) rank with hr
  have hlseg : st.lens.length = st.segs.length := by rw [hlens, List.length_map]
  have hiseg : r.1 < st.segs.length := by omega
  have hgetlen : st.lens.getD r.1 0 = intLen (st.segs.getD r.1 []) := by
    conv_lhs => rw [hlens]
    exact getD_map_intLen st.segs r.1 hiseg
  have hoffn : r.2.toNat < (st.segs.getD r.1 []).length := by
    rw [hgetlen, intLen] at hoffu
    omega
  have hflat := flatten_getD d st.segs r.1 r.2.toNat hiseg hoffn
  have hsum : psum st.lens r.1 =
      (((st.segs.take r.1).map List.length).sum : Int) := by
    conv_lhs => rw [hlens]
    exact psum_map_intLen st.segs r.1
  have hrt : rank.toNat =
      ((st.segs.take r.1).map List.length).sum + r.2.toNat := by
    omega
  refine ⟨hi, hoff0, hoffu, hdec, ?_, hsnd⟩
  rw [hrt]
  exact hflat

/-- Witness for claim C7 at the concrete state w7state and rank 2. -/
theorem C7_fenwick_locate_correct_witness :
    (w7state.lens = w7state.segs.map intLen) ∧
      (∀ x ∈ w7state.lens, 0 < x) ∧
      (w7state.fenwick = none ∨ w7state.fenwick = some (Fenwick.build w7state.lens)) ∧
      ((0:Int) ≤ 2) ∧ ((2:Int) < psum w7state.lens w7state.lens.length) ∧
      ((BigList.fenwickIndex w7state 2).1.1 < w7state.lens.length ∧
        0 ≤ (BigList.fenwickIndex w7state 2).1.2 ∧
        (BigList.fenwickIndex w7state 2).1.2 <
          w7state.lens.getD (BigList.fenwickIndex w7state 2).1.1 0 ∧
        (2:Int) = psum w7state.lens (BigList.fenwickIndex w7state 2).1.1 +
          (BigList.fenwickIndex w7state 2).1.2 ∧
        w7state.segs.flatten.getD (2:Int).toNat 0 =
          (w7state.segs.getD (BigList.fenwickIndex w7state 2).1.1 []).getD
            (BigList.fenwickIndex w7state 2).1.2.toNat 0 ∧
        (BigList.fenwickIndex w7state 2).2.fenwick =
          some (Fenwick.build w7state.lens)) :=
  ⟨by decide, by decide, Or.inl rfl, by decide, by decide,
    C7_fenwick_locate_correct w7state 2 0 (by decide) (by decide) (Or.inl rfl)
      (by decide) (by decide)⟩

end AdvColl
